import Mathlib

/-!
Glyph reindexing (`cmd/ttfreindex`).

A shallow embedding of `cmd/ttfreindex/main.go` and a verification of the
ordering, naming and reference-rewriting properties of `rewrite`; then, under
`UpgradeGoFonts`, the glyph records of `cmd/upgrade-go-fonts-to-v2010/main.go`:
the functions `parseGlyph`, `render`, `swapUAcuteCircumflex`, `writeMap` and the
methods `bounds` and `nudge`; and, under `Wgl4SideBySide`, the rows drawn by
`cmd/wgl4-side-by-side/main.go`.

Go strings and byte slices are sequences of bytes: they are embedded as lists
of natural numbers (`Bytes`), and string comparison is the bytewise
lexicographic order.  The rune type is a signed integer, embedded as `Int`.
-/

namespace Ttfreindex

/-- A Go `string` or `[]byte`: a sequence of byte values. -/
abbrev Bytes := List Nat

/-- The bytes of an ASCII literal of the source. -/
def ascii (s : String) : Bytes := s.toList.map Char.toNat

/-- Go's `<` on strings: bytewise lexicographic comparison. -/
def bytesLess : Bytes → Bytes → Bool
  | [], [] => false
  | [], _ :: _ => true
  | _ :: _, [] => false
  | a :: as, b :: bs => if a < b then true else if b < a then false else bytesLess as bs

/-- The constant `notSeen rune = 0x7fffffff`. -/
def notSeen : Int := 0x7fffffff

/-- The struct `entry`. -/
structure entry where
  oldID : Nat
  oldName : Bytes
  newName : Bytes
  r : Int
  deriving DecidableEq

/-- The method `byR.Less`, on the two elements it compares. -/
def byRLess (x y : entry) : Bool :=
  if x.r ≠ y.r then decide (x.r < y.r) else bytesLess x.oldName y.oldName

/-- Insertion of one element into a slice ordered by `byR.Less`: the element
moves left past every element it is `Less` than. -/
def insertByR (e : entry) : List entry → List entry
  | [] => [e]
  | x :: xs => if byRLess x e then x :: insertByR e xs else e :: x :: xs

/-- The call `sort.Sort(byR(s))`.  The library routine orders the slice by
`Less` through `Swap`s; it is embedded as the insertion sort the library itself
runs on short slices.  Elements that `Less` cannot tell apart may come out in
another order from the library routine. -/
def sortByR : List entry → List entry
  | [] => []
  | x :: xs => insertByR x (sortByR xs)

/-- Removes the literal `p` from the front of `l`, when `l` starts with it. -/
def dropLit : Bytes → Bytes → Option Bytes
  | [], l => some l
  | _ :: _, [] => none
  | p :: ps, c :: cs => if p = c then dropLit ps cs else none

/-- The byte of the double quote. -/
def quoteByte : Nat := 34

/-- The byte of the newline. -/
def newlineByte : Nat := 10

/-- The class `[^"]` of the regular expressions: any byte but the quote. -/
def notQuote (c : Nat) : Bool := decide (c ≠ quoteByte)

/-- The class `.` of the regular expressions: any byte but the newline. -/
def notNewline (c : Nat) : Bool := decide (c ≠ newlineByte)

/-- The space of the pattern ` *`. -/
def isSpace (c : Nat) : Bool := decide (c = 32)

/-- The submatch of `glyphIDRegExp`,
`^    <GlyphID id="[^"]*" name="([^"]*)"/>$`, on a line: the captured name,
or `none` when the line does not match. -/
def glyphIDRegExpFind (l : Bytes) : Option Bytes :=
  match dropLit (ascii "    <GlyphID id=\"") l with
  | none => none
  | some a =>
    match dropLit (ascii "\" name=\"") (a.dropWhile notQuote) with
    | none => none
    | some b =>
      if b.dropWhile notQuote = ascii "\"/>" then some (b.takeWhile notQuote) else none

/-- The part `.*name=")([^"]*)(".*)$` of `nameRegExp`, matched against the
text after the opening `<`.  The greedy `.*` first tries to take one more byte
(any byte but a newline), so the last `name="` that lets the rest match is the
one found; `[^"]*` then runs to the next quote, and the final `.*` must reach
the end of the line.  The result is (the text up to and including `name="`,
the name, the rest from the closing quote on). -/
def nameScan : Bytes → Option (Bytes × Bytes × Bytes)
  | [] => none
  | c :: cs =>
    match (if notNewline c then nameScan cs else none) with
    | some (p, n, s) => some (c :: p, n, s)
    | none =>
      match dropLit (ascii "name=\"") (c :: cs) with
      | none => none
      | some after =>
        match after.dropWhile notQuote with
        | [] => none
        | q :: s =>
          if s.all notNewline then some (ascii "name=\"", after.takeWhile notQuote, q :: s)
          else none

/-- The three submatches of `nameRegExp`, `^( *<.*name=")([^"]*)(".*)$`, on a
line, or `none` when the line does not match. -/
def nameRegExpFind (line : Bytes) : Option (Bytes × Bytes × Bytes) :=
  match line.dropWhile isSpace with
  | [] => none
  | c :: rest =>
    if c = 60 then
      match nameScan rest with
      | some (p, n, s) => some (line.takeWhile isSpace ++ 60 :: p, n, s)
      | none => none
    else none

/-- The map `renames`, as the list of its assignments, latest first. -/
abbrev Renames := List (Bytes × Bytes)

/-- The lookup `renames[key]`, with its `ok` result as the option. -/
def mapGet : Renames → Bytes → Option Bytes
  | [], _ => none
  | (k, v) :: m, key => if key = k then some v else mapGet m key

/-- The assignment `renames[k] = v`. -/
def mapSet (m : Renames) (k v : Bytes) : Renames := (k, v) :: m

def aglfn : List (Int × Bytes) := [
  (0x0020, ascii "space"),
  (0x0021, ascii "exclam"),
  (0x0022, ascii "quotedbl"),
  (0x0023, ascii "numbersign"),
  (0x0024, ascii "dollar"),
  (0x0025, ascii "percent"),
  (0x0026, ascii "ampersand"),
  (0x0027, ascii "quotesingle"),
  (0x0028, ascii "parenleft"),
  (0x0029, ascii "parenright"),
  (0x002a, ascii "asterisk"),
  (0x002b, ascii "plus"),
  (0x002c, ascii "comma"),
  (0x002d, ascii "hyphen"),
  (0x002e, ascii "period"),
  (0x002f, ascii "slash"),
  (0x0030, ascii "zero"),
  (0x0031, ascii "one"),
  (0x0032, ascii "two"),
  (0x0033, ascii "three"),
  (0x0034, ascii "four"),
  (0x0035, ascii "five"),
  (0x0036, ascii "six"),
  (0x0037, ascii "seven"),
  (0x0038, ascii "eight"),
  (0x0039, ascii "nine"),
  (0x003a, ascii "colon"),
  (0x003b, ascii "semicolon"),
  (0x003c, ascii "less"),
  (0x003d, ascii "equal"),
  (0x003e, ascii "greater"),
  (0x003f, ascii "question"),
  (0x0040, ascii "at"),
  (0x0041, ascii "A"),
  (0x0042, ascii "B"),
  (0x0043, ascii "C"),
  (0x0044, ascii "D"),
  (0x0045, ascii "E"),
  (0x0046, ascii "F"),
  (0x0047, ascii "G"),
  (0x0048, ascii "H"),
  (0x0049, ascii "I"),
  (0x004a, ascii "J"),
  (0x004b, ascii "K"),
  (0x004c, ascii "L"),
  (0x004d, ascii "M"),
  (0x004e, ascii "N"),
  (0x004f, ascii "O"),
  (0x0050, ascii "P"),
  (0x0051, ascii "Q"),
  (0x0052, ascii "R"),
  (0x0053, ascii "S"),
  (0x0054, ascii "T"),
  (0x0055, ascii "U"),
  (0x0056, ascii "V"),
  (0x0057, ascii "W"),
  (0x0058, ascii "X"),
  (0x0059, ascii "Y"),
  (0x005a, ascii "Z"),
  (0x005b, ascii "bracketleft"),
  (0x005c, ascii "backslash"),
  (0x005d, ascii "bracketright"),
  (0x005e, ascii "asciicircum"),
  (0x005f, ascii "underscore"),
  (0x0060, ascii "grave"),
  (0x0061, ascii "a"),
  (0x0062, ascii "b"),
  (0x0063, ascii "c"),
  (0x0064, ascii "d"),
  (0x0065, ascii "e"),
  (0x0066, ascii "f"),
  (0x0067, ascii "g"),
  (0x0068, ascii "h"),
  (0x0069, ascii "i"),
  (0x006a, ascii "j"),
  (0x006b, ascii "k"),
  (0x006c, ascii "l"),
  (0x006d, ascii "m"),
  (0x006e, ascii "n"),
  (0x006f, ascii "o"),
  (0x0070, ascii "p"),
  (0x0071, ascii "q"),
  (0x0072, ascii "r"),
  (0x0073, ascii "s"),
  (0x0074, ascii "t"),
  (0x0075, ascii "u"),
  (0x0076, ascii "v"),
  (0x0077, ascii "w"),
  (0x0078, ascii "x"),
  (0x0079, ascii "y"),
  (0x007a, ascii "z"),
  (0x007b, ascii "braceleft"),
  (0x007c, ascii "bar"),
  (0x007d, ascii "braceright"),
  (0x007e, ascii "asciitilde"),
  (0x00a1, ascii "exclamdown"),
  (0x00a2, ascii "cent"),
  (0x00a3, ascii "sterling"),
  (0x00a4, ascii "currency"),
  (0x00a5, ascii "yen"),
  (0x00a6, ascii "brokenbar"),
  (0x00a7, ascii "section"),
  (0x00a8, ascii "dieresis"),
  (0x00a9, ascii "copyright"),
  (0x00aa, ascii "ordfeminine"),
  (0x00ab, ascii "guillemotleft"),
  (0x00ac, ascii "logicalnot"),
  (0x00ae, ascii "registered"),
  (0x00af, ascii "macron"),
  (0x00b0, ascii "degree"),
  (0x00b1, ascii "plusminus"),
  (0x00b4, ascii "acute"),
  (0x00b5, ascii "mu"),
  (0x00b6, ascii "paragraph"),
  (0x00b7, ascii "periodcentered"),
  (0x00b8, ascii "cedilla"),
  (0x00ba, ascii "ordmasculine"),
  (0x00bb, ascii "guillemotright"),
  (0x00bc, ascii "onequarter"),
  (0x00bd, ascii "onehalf"),
  (0x00be, ascii "threequarters"),
  (0x00bf, ascii "questiondown"),
  (0x00c0, ascii "Agrave"),
  (0x00c1, ascii "Aacute"),
  (0x00c2, ascii "Acircumflex"),
  (0x00c3, ascii "Atilde"),
  (0x00c4, ascii "Adieresis"),
  (0x00c5, ascii "Aring"),
  (0x00c6, ascii "AE"),
  (0x00c7, ascii "Ccedilla"),
  (0x00c8, ascii "Egrave"),
  (0x00c9, ascii "Eacute"),
  (0x00ca, ascii "Ecircumflex"),
  (0x00cb, ascii "Edieresis"),
  (0x00cc, ascii "Igrave"),
  (0x00cd, ascii "Iacute"),
  (0x00ce, ascii "Icircumflex"),
  (0x00cf, ascii "Idieresis"),
  (0x00d0, ascii "Eth"),
  (0x00d1, ascii "Ntilde"),
  (0x00d2, ascii "Ograve"),
  (0x00d3, ascii "Oacute"),
  (0x00d4, ascii "Ocircumflex"),
  (0x00d5, ascii "Otilde"),
  (0x00d6, ascii "Odieresis"),
  (0x00d7, ascii "multiply"),
  (0x00d8, ascii "Oslash"),
  (0x00d9, ascii "Ugrave"),
  (0x00da, ascii "Uacute"),
  (0x00db, ascii "Ucircumflex"),
  (0x00dc, ascii "Udieresis"),
  (0x00dd, ascii "Yacute"),
  (0x00de, ascii "Thorn"),
  (0x00df, ascii "germandbls"),
  (0x00e0, ascii "agrave"),
  (0x00e1, ascii "aacute"),
  (0x00e2, ascii "acircumflex"),
  (0x00e3, ascii "atilde"),
  (0x00e4, ascii "adieresis"),
  (0x00e5, ascii "aring"),
  (0x00e6, ascii "ae"),
  (0x00e7, ascii "ccedilla"),
  (0x00e8, ascii "egrave"),
  (0x00e9, ascii "eacute"),
  (0x00ea, ascii "ecircumflex"),
  (0x00eb, ascii "edieresis"),
  (0x00ec, ascii "igrave"),
  (0x00ed, ascii "iacute"),
  (0x00ee, ascii "icircumflex"),
  (0x00ef, ascii "idieresis"),
  (0x00f0, ascii "eth"),
  (0x00f1, ascii "ntilde"),
  (0x00f2, ascii "ograve"),
  (0x00f3, ascii "oacute"),
  (0x00f4, ascii "ocircumflex"),
  (0x00f5, ascii "otilde"),
  (0x00f6, ascii "odieresis"),
  (0x00f7, ascii "divide"),
  (0x00f8, ascii "oslash"),
  (0x00f9, ascii "ugrave"),
  (0x00fa, ascii "uacute"),
  (0x00fb, ascii "ucircumflex"),
  (0x00fc, ascii "udieresis"),
  (0x00fd, ascii "yacute"),
  (0x00fe, ascii "thorn"),
  (0x00ff, ascii "ydieresis"),
  (0x0100, ascii "Amacron"),
  (0x0101, ascii "amacron"),
  (0x0102, ascii "Abreve"),
  (0x0103, ascii "abreve"),
  (0x0104, ascii "Aogonek"),
  (0x0105, ascii "aogonek"),
  (0x0106, ascii "Cacute"),
  (0x0107, ascii "cacute"),
  (0x0108, ascii "Ccircumflex"),
  (0x0109, ascii "ccircumflex"),
  (0x010a, ascii "Cdotaccent"),
  (0x010b, ascii "cdotaccent"),
  (0x010c, ascii "Ccaron"),
  (0x010d, ascii "ccaron"),
  (0x010e, ascii "Dcaron"),
  (0x010f, ascii "dcaron"),
  (0x0110, ascii "Dcroat"),
  (0x0111, ascii "dcroat"),
  (0x0112, ascii "Emacron"),
  (0x0113, ascii "emacron"),
  (0x0114, ascii "Ebreve"),
  (0x0115, ascii "ebreve"),
  (0x0116, ascii "Edotaccent"),
  (0x0117, ascii "edotaccent"),
  (0x0118, ascii "Eogonek"),
  (0x0119, ascii "eogonek"),
  (0x011a, ascii "Ecaron"),
  (0x011b, ascii "ecaron"),
  (0x011c, ascii "Gcircumflex"),
  (0x011d, ascii "gcircumflex"),
  (0x011e, ascii "Gbreve"),
  (0x011f, ascii "gbreve"),
  (0x0120, ascii "Gdotaccent"),
  (0x0121, ascii "gdotaccent"),
  (0x0124, ascii "Hcircumflex"),
  (0x0125, ascii "hcircumflex"),
  (0x0126, ascii "Hbar"),
  (0x0127, ascii "hbar"),
  (0x0128, ascii "Itilde"),
  (0x0129, ascii "itilde"),
  (0x012a, ascii "Imacron"),
  (0x012b, ascii "imacron"),
  (0x012c, ascii "Ibreve"),
  (0x012d, ascii "ibreve"),
  (0x012e, ascii "Iogonek"),
  (0x012f, ascii "iogonek"),
  (0x0130, ascii "Idotaccent"),
  (0x0131, ascii "dotlessi"),
  (0x0132, ascii "IJ"),
  (0x0133, ascii "ij"),
  (0x0134, ascii "Jcircumflex"),
  (0x0135, ascii "jcircumflex"),
  (0x0138, ascii "kgreenlandic"),
  (0x0139, ascii "Lacute"),
  (0x013a, ascii "lacute"),
  (0x013d, ascii "Lcaron"),
  (0x013e, ascii "lcaron"),
  (0x013f, ascii "Ldot"),
  (0x0140, ascii "ldot"),
  (0x0141, ascii "Lslash"),
  (0x0142, ascii "lslash"),
  (0x0143, ascii "Nacute"),
  (0x0144, ascii "nacute"),
  (0x0147, ascii "Ncaron"),
  (0x0148, ascii "ncaron"),
  (0x0149, ascii "napostrophe"),
  (0x014a, ascii "Eng"),
  (0x014b, ascii "eng"),
  (0x014c, ascii "Omacron"),
  (0x014d, ascii "omacron"),
  (0x014e, ascii "Obreve"),
  (0x014f, ascii "obreve"),
  (0x0150, ascii "Ohungarumlaut"),
  (0x0151, ascii "ohungarumlaut"),
  (0x0152, ascii "OE"),
  (0x0153, ascii "oe"),
  (0x0154, ascii "Racute"),
  (0x0155, ascii "racute"),
  (0x0158, ascii "Rcaron"),
  (0x0159, ascii "rcaron"),
  (0x015a, ascii "Sacute"),
  (0x015b, ascii "sacute"),
  (0x015c, ascii "Scircumflex"),
  (0x015d, ascii "scircumflex"),
  (0x015e, ascii "Scedilla"),
  (0x015f, ascii "scedilla"),
  (0x0160, ascii "Scaron"),
  (0x0161, ascii "scaron"),
  (0x0164, ascii "Tcaron"),
  (0x0165, ascii "tcaron"),
  (0x0166, ascii "Tbar"),
  (0x0167, ascii "tbar"),
  (0x0168, ascii "Utilde"),
  (0x0169, ascii "utilde"),
  (0x016a, ascii "Umacron"),
  (0x016b, ascii "umacron"),
  (0x016c, ascii "Ubreve"),
  (0x016d, ascii "ubreve"),
  (0x016e, ascii "Uring"),
  (0x016f, ascii "uring"),
  (0x0170, ascii "Uhungarumlaut"),
  (0x0171, ascii "uhungarumlaut"),
  (0x0172, ascii "Uogonek"),
  (0x0173, ascii "uogonek"),
  (0x0174, ascii "Wcircumflex"),
  (0x0175, ascii "wcircumflex"),
  (0x0176, ascii "Ycircumflex"),
  (0x0177, ascii "ycircumflex"),
  (0x0178, ascii "Ydieresis"),
  (0x0179, ascii "Zacute"),
  (0x017a, ascii "zacute"),
  (0x017b, ascii "Zdotaccent"),
  (0x017c, ascii "zdotaccent"),
  (0x017d, ascii "Zcaron"),
  (0x017e, ascii "zcaron"),
  (0x017f, ascii "longs"),
  (0x0192, ascii "florin"),
  (0x01a0, ascii "Ohorn"),
  (0x01a1, ascii "ohorn"),
  (0x01af, ascii "Uhorn"),
  (0x01b0, ascii "uhorn"),
  (0x01e6, ascii "Gcaron"),
  (0x01e7, ascii "gcaron"),
  (0x01fa, ascii "Aringacute"),
  (0x01fb, ascii "aringacute"),
  (0x01fc, ascii "AEacute"),
  (0x01fd, ascii "aeacute"),
  (0x01fe, ascii "Oslashacute"),
  (0x01ff, ascii "oslashacute"),
  (0x02c6, ascii "circumflex"),
  (0x02c7, ascii "caron"),
  (0x02d8, ascii "breve"),
  (0x02d9, ascii "dotaccent"),
  (0x02da, ascii "ring"),
  (0x02db, ascii "ogonek"),
  (0x02dc, ascii "tilde"),
  (0x02dd, ascii "hungarumlaut"),
  (0x0300, ascii "gravecomb"),
  (0x0301, ascii "acutecomb"),
  (0x0303, ascii "tildecomb"),
  (0x0309, ascii "hookabovecomb"),
  (0x0323, ascii "dotbelowcomb"),
  (0x0384, ascii "tonos"),
  (0x0385, ascii "dieresistonos"),
  (0x0386, ascii "Alphatonos"),
  (0x0387, ascii "anoteleia"),
  (0x0388, ascii "Epsilontonos"),
  (0x0389, ascii "Etatonos"),
  (0x038a, ascii "Iotatonos"),
  (0x038c, ascii "Omicrontonos"),
  (0x038e, ascii "Upsilontonos"),
  (0x038f, ascii "Omegatonos"),
  (0x0390, ascii "iotadieresistonos"),
  (0x0391, ascii "Alpha"),
  (0x0392, ascii "Beta"),
  (0x0393, ascii "Gamma"),
  (0x0395, ascii "Epsilon"),
  (0x0396, ascii "Zeta"),
  (0x0397, ascii "Eta"),
  (0x0398, ascii "Theta"),
  (0x0399, ascii "Iota"),
  (0x039a, ascii "Kappa"),
  (0x039b, ascii "Lambda"),
  (0x039c, ascii "Mu"),
  (0x039d, ascii "Nu"),
  (0x039e, ascii "Xi"),
  (0x039f, ascii "Omicron"),
  (0x03a0, ascii "Pi"),
  (0x03a1, ascii "Rho"),
  (0x03a3, ascii "Sigma"),
  (0x03a4, ascii "Tau"),
  (0x03a5, ascii "Upsilon"),
  (0x03a6, ascii "Phi"),
  (0x03a7, ascii "Chi"),
  (0x03a8, ascii "Psi"),
  (0x03aa, ascii "Iotadieresis"),
  (0x03ab, ascii "Upsilondieresis"),
  (0x03ac, ascii "alphatonos"),
  (0x03ad, ascii "epsilontonos"),
  (0x03ae, ascii "etatonos"),
  (0x03af, ascii "iotatonos"),
  (0x03b0, ascii "upsilondieresistonos"),
  (0x03b1, ascii "alpha"),
  (0x03b2, ascii "beta"),
  (0x03b3, ascii "gamma"),
  (0x03b4, ascii "delta"),
  (0x03b5, ascii "epsilon"),
  (0x03b6, ascii "zeta"),
  (0x03b7, ascii "eta"),
  (0x03b8, ascii "theta"),
  (0x03b9, ascii "iota"),
  (0x03ba, ascii "kappa"),
  (0x03bb, ascii "lambda"),
  (0x03bd, ascii "nu"),
  (0x03be, ascii "xi"),
  (0x03bf, ascii "omicron"),
  (0x03c0, ascii "pi"),
  (0x03c1, ascii "rho"),
  (0x03c2, ascii "sigma1"),
  (0x03c3, ascii "sigma"),
  (0x03c4, ascii "tau"),
  (0x03c5, ascii "upsilon"),
  (0x03c6, ascii "phi"),
  (0x03c7, ascii "chi"),
  (0x03c8, ascii "psi"),
  (0x03c9, ascii "omega"),
  (0x03ca, ascii "iotadieresis"),
  (0x03cb, ascii "upsilondieresis"),
  (0x03cc, ascii "omicrontonos"),
  (0x03cd, ascii "upsilontonos"),
  (0x03ce, ascii "omegatonos"),
  (0x03d1, ascii "theta1"),
  (0x03d2, ascii "Upsilon1"),
  (0x03d5, ascii "phi1"),
  (0x03d6, ascii "omega1"),
  (0x1e80, ascii "Wgrave"),
  (0x1e81, ascii "wgrave"),
  (0x1e82, ascii "Wacute"),
  (0x1e83, ascii "wacute"),
  (0x1e84, ascii "Wdieresis"),
  (0x1e85, ascii "wdieresis"),
  (0x1ef2, ascii "Ygrave"),
  (0x1ef3, ascii "ygrave"),
  (0x2012, ascii "figuredash"),
  (0x2013, ascii "endash"),
  (0x2014, ascii "emdash"),
  (0x2017, ascii "underscoredbl"),
  (0x2018, ascii "quoteleft"),
  (0x2019, ascii "quoteright"),
  (0x201a, ascii "quotesinglbase"),
  (0x201b, ascii "quotereversed"),
  (0x201c, ascii "quotedblleft"),
  (0x201d, ascii "quotedblright"),
  (0x201e, ascii "quotedblbase"),
  (0x2020, ascii "dagger"),
  (0x2021, ascii "daggerdbl"),
  (0x2022, ascii "bullet"),
  (0x2024, ascii "onedotenleader"),
  (0x2025, ascii "twodotenleader"),
  (0x2026, ascii "ellipsis"),
  (0x2030, ascii "perthousand"),
  (0x2032, ascii "minute"),
  (0x2033, ascii "second"),
  (0x2039, ascii "guilsinglleft"),
  (0x203a, ascii "guilsinglright"),
  (0x203c, ascii "exclamdbl"),
  (0x2044, ascii "fraction"),
  (0x20a1, ascii "colonmonetary"),
  (0x20a3, ascii "franc"),
  (0x20a4, ascii "lira"),
  (0x20a7, ascii "peseta"),
  (0x20ab, ascii "dong"),
  (0x20ac, ascii "Euro"),
  (0x2111, ascii "Ifraktur"),
  (0x2118, ascii "weierstrass"),
  (0x211c, ascii "Rfraktur"),
  (0x211e, ascii "prescription"),
  (0x2122, ascii "trademark"),
  (0x2126, ascii "Omega"),
  (0x212e, ascii "estimated"),
  (0x2135, ascii "aleph"),
  (0x2153, ascii "onethird"),
  (0x2154, ascii "twothirds"),
  (0x215b, ascii "oneeighth"),
  (0x215c, ascii "threeeighths"),
  (0x215d, ascii "fiveeighths"),
  (0x215e, ascii "seveneighths"),
  (0x2190, ascii "arrowleft"),
  (0x2191, ascii "arrowup"),
  (0x2192, ascii "arrowright"),
  (0x2193, ascii "arrowdown"),
  (0x2194, ascii "arrowboth"),
  (0x2195, ascii "arrowupdn"),
  (0x21a8, ascii "arrowupdnbse"),
  (0x21b5, ascii "carriagereturn"),
  (0x21d0, ascii "arrowdblleft"),
  (0x21d1, ascii "arrowdblup"),
  (0x21d2, ascii "arrowdblright"),
  (0x21d3, ascii "arrowdbldown"),
  (0x21d4, ascii "arrowdblboth"),
  (0x2200, ascii "universal"),
  (0x2202, ascii "partialdiff"),
  (0x2203, ascii "existential"),
  (0x2205, ascii "emptyset"),
  (0x2206, ascii "Delta"),
  (0x2207, ascii "gradient"),
  (0x2208, ascii "element"),
  (0x2209, ascii "notelement"),
  (0x220b, ascii "suchthat"),
  (0x220f, ascii "product"),
  (0x2211, ascii "summation"),
  (0x2212, ascii "minus"),
  (0x2217, ascii "asteriskmath"),
  (0x221a, ascii "radical"),
  (0x221d, ascii "proportional"),
  (0x221e, ascii "infinity"),
  (0x221f, ascii "orthogonal"),
  (0x2220, ascii "angle"),
  (0x2227, ascii "logicaland"),
  (0x2228, ascii "logicalor"),
  (0x2229, ascii "intersection"),
  (0x222a, ascii "union"),
  (0x222b, ascii "integral"),
  (0x2234, ascii "therefore"),
  (0x223c, ascii "similar"),
  (0x2245, ascii "congruent"),
  (0x2248, ascii "approxequal"),
  (0x2260, ascii "notequal"),
  (0x2261, ascii "equivalence"),
  (0x2264, ascii "lessequal"),
  (0x2265, ascii "greaterequal"),
  (0x2282, ascii "propersubset"),
  (0x2283, ascii "propersuperset"),
  (0x2284, ascii "notsubset"),
  (0x2286, ascii "reflexsubset"),
  (0x2287, ascii "reflexsuperset"),
  (0x2295, ascii "circleplus"),
  (0x2297, ascii "circlemultiply"),
  (0x22a5, ascii "perpendicular"),
  (0x22c5, ascii "dotmath"),
  (0x2302, ascii "house"),
  (0x2310, ascii "revlogicalnot"),
  (0x2320, ascii "integraltp"),
  (0x2321, ascii "integralbt"),
  (0x2329, ascii "angleleft"),
  (0x232a, ascii "angleright"),
  (0x2500, ascii "SF100000"),
  (0x2502, ascii "SF110000"),
  (0x250c, ascii "SF010000"),
  (0x2510, ascii "SF030000"),
  (0x2514, ascii "SF020000"),
  (0x2518, ascii "SF040000"),
  (0x251c, ascii "SF080000"),
  (0x2524, ascii "SF090000"),
  (0x252c, ascii "SF060000"),
  (0x2534, ascii "SF070000"),
  (0x253c, ascii "SF050000"),
  (0x2550, ascii "SF430000"),
  (0x2551, ascii "SF240000"),
  (0x2552, ascii "SF510000"),
  (0x2553, ascii "SF520000"),
  (0x2554, ascii "SF390000"),
  (0x2555, ascii "SF220000"),
  (0x2556, ascii "SF210000"),
  (0x2557, ascii "SF250000"),
  (0x2558, ascii "SF500000"),
  (0x2559, ascii "SF490000"),
  (0x255a, ascii "SF380000"),
  (0x255b, ascii "SF280000"),
  (0x255c, ascii "SF270000"),
  (0x255d, ascii "SF260000"),
  (0x255e, ascii "SF360000"),
  (0x255f, ascii "SF370000"),
  (0x2560, ascii "SF420000"),
  (0x2561, ascii "SF190000"),
  (0x2562, ascii "SF200000"),
  (0x2563, ascii "SF230000"),
  (0x2564, ascii "SF470000"),
  (0x2565, ascii "SF480000"),
  (0x2566, ascii "SF410000"),
  (0x2567, ascii "SF450000"),
  (0x2568, ascii "SF460000"),
  (0x2569, ascii "SF400000"),
  (0x256a, ascii "SF540000"),
  (0x256b, ascii "SF530000"),
  (0x256c, ascii "SF440000"),
  (0x2580, ascii "upblock"),
  (0x2584, ascii "dnblock"),
  (0x2588, ascii "block"),
  (0x258c, ascii "lfblock"),
  (0x2590, ascii "rtblock"),
  (0x2591, ascii "ltshade"),
  (0x2592, ascii "shade"),
  (0x2593, ascii "dkshade"),
  (0x25a0, ascii "filledbox"),
  (0x25a1, ascii "H22073"),
  (0x25aa, ascii "H18543"),
  (0x25ab, ascii "H18551"),
  (0x25ac, ascii "filledrect"),
  (0x25b2, ascii "triagup"),
  (0x25ba, ascii "triagrt"),
  (0x25bc, ascii "triagdn"),
  (0x25c4, ascii "triaglf"),
  (0x25ca, ascii "lozenge"),
  (0x25cb, ascii "circle"),
  (0x25cf, ascii "H18533"),
  (0x25d8, ascii "invbullet"),
  (0x25d9, ascii "invcircle"),
  (0x25e6, ascii "openbullet"),
  (0x263a, ascii "smileface"),
  (0x263b, ascii "invsmileface"),
  (0x263c, ascii "sun"),
  (0x2640, ascii "female"),
  (0x2642, ascii "male"),
  (0x2660, ascii "spade"),
  (0x2663, ascii "club"),
  (0x2665, ascii "heart"),
  (0x2666, ascii "diamond"),
  (0x266a, ascii "musicalnote"),
  (0x266b, ascii "musicalnotedbl")
]

def builtIns : List Bytes := [
  ascii ".notdef",
  ascii ".null",
  ascii "nonmarkingreturn",
  ascii "space",
  ascii "exclam",
  ascii "quotedbl",
  ascii "numbersign",
  ascii "dollar",
  ascii "percent",
  ascii "ampersand",
  ascii "quotesingle",
  ascii "parenleft",
  ascii "parenright",
  ascii "asterisk",
  ascii "plus",
  ascii "comma",
  ascii "hyphen",
  ascii "period",
  ascii "slash",
  ascii "zero",
  ascii "one",
  ascii "two",
  ascii "three",
  ascii "four",
  ascii "five",
  ascii "six",
  ascii "seven",
  ascii "eight",
  ascii "nine",
  ascii "colon",
  ascii "semicolon",
  ascii "less",
  ascii "equal",
  ascii "greater",
  ascii "question",
  ascii "at",
  ascii "A",
  ascii "B",
  ascii "C",
  ascii "D",
  ascii "E",
  ascii "F",
  ascii "G",
  ascii "H",
  ascii "I",
  ascii "J",
  ascii "K",
  ascii "L",
  ascii "M",
  ascii "N",
  ascii "O",
  ascii "P",
  ascii "Q",
  ascii "R",
  ascii "S",
  ascii "T",
  ascii "U",
  ascii "V",
  ascii "W",
  ascii "X",
  ascii "Y",
  ascii "Z",
  ascii "bracketleft",
  ascii "backslash",
  ascii "bracketright",
  ascii "asciicircum",
  ascii "underscore",
  ascii "grave",
  ascii "a",
  ascii "b",
  ascii "c",
  ascii "d",
  ascii "e",
  ascii "f",
  ascii "g",
  ascii "h",
  ascii "i",
  ascii "j",
  ascii "k",
  ascii "l",
  ascii "m",
  ascii "n",
  ascii "o",
  ascii "p",
  ascii "q",
  ascii "r",
  ascii "s",
  ascii "t",
  ascii "u",
  ascii "v",
  ascii "w",
  ascii "x",
  ascii "y",
  ascii "z",
  ascii "braceleft",
  ascii "bar",
  ascii "braceright",
  ascii "asciitilde",
  ascii "Adieresis",
  ascii "Aring",
  ascii "Ccedilla",
  ascii "Eacute",
  ascii "Ntilde",
  ascii "Odieresis",
  ascii "Udieresis",
  ascii "aacute",
  ascii "agrave",
  ascii "acircumflex",
  ascii "adieresis",
  ascii "atilde",
  ascii "aring",
  ascii "ccedilla",
  ascii "eacute",
  ascii "egrave",
  ascii "ecircumflex",
  ascii "edieresis",
  ascii "iacute",
  ascii "igrave",
  ascii "icircumflex",
  ascii "idieresis",
  ascii "ntilde",
  ascii "oacute",
  ascii "ograve",
  ascii "ocircumflex",
  ascii "odieresis",
  ascii "otilde",
  ascii "uacute",
  ascii "ugrave",
  ascii "ucircumflex",
  ascii "udieresis",
  ascii "dagger",
  ascii "degree",
  ascii "cent",
  ascii "sterling",
  ascii "section",
  ascii "bullet",
  ascii "paragraph",
  ascii "germandbls",
  ascii "registered",
  ascii "copyright",
  ascii "trademark",
  ascii "acute",
  ascii "dieresis",
  ascii "notequal",
  ascii "AE",
  ascii "Oslash",
  ascii "infinity",
  ascii "plusminus",
  ascii "lessequal",
  ascii "greaterequal",
  ascii "yen",
  ascii "mu",
  ascii "partialdiff",
  ascii "summation",
  ascii "product",
  ascii "pi",
  ascii "integral",
  ascii "ordfeminine",
  ascii "ordmasculine",
  ascii "Omega",
  ascii "ae",
  ascii "oslash",
  ascii "questiondown",
  ascii "exclamdown",
  ascii "logicalnot",
  ascii "radical",
  ascii "florin",
  ascii "approxequal",
  ascii "Delta",
  ascii "guillemotleft",
  ascii "guillemotright",
  ascii "ellipsis",
  ascii "nonbreakingspace",
  ascii "Agrave",
  ascii "Atilde",
  ascii "Otilde",
  ascii "OE",
  ascii "oe",
  ascii "endash",
  ascii "emdash",
  ascii "quotedblleft",
  ascii "quotedblright",
  ascii "quoteleft",
  ascii "quoteright",
  ascii "divide",
  ascii "lozenge",
  ascii "ydieresis",
  ascii "Ydieresis",
  ascii "fraction",
  ascii "currency",
  ascii "guilsinglleft",
  ascii "guilsinglright",
  ascii "fi",
  ascii "fl",
  ascii "daggerdbl",
  ascii "periodcentered",
  ascii "quotesinglbase",
  ascii "quotedblbase",
  ascii "perthousand",
  ascii "Acircumflex",
  ascii "Ecircumflex",
  ascii "Aacute",
  ascii "Edieresis",
  ascii "Egrave",
  ascii "Iacute",
  ascii "Icircumflex",
  ascii "Idieresis",
  ascii "Igrave",
  ascii "Oacute",
  ascii "Ocircumflex",
  ascii "apple",
  ascii "Ograve",
  ascii "Uacute",
  ascii "Ucircumflex",
  ascii "Ugrave",
  ascii "dotlessi",
  ascii "circumflex",
  ascii "tilde",
  ascii "macron",
  ascii "breve",
  ascii "dotaccent",
  ascii "ring",
  ascii "cedilla",
  ascii "hungarumlaut",
  ascii "ogonek",
  ascii "caron",
  ascii "Lslash",
  ascii "lslash",
  ascii "Scaron",
  ascii "scaron",
  ascii "Zcaron",
  ascii "zcaron",
  ascii "brokenbar",
  ascii "Eth",
  ascii "eth",
  ascii "Yacute",
  ascii "yacute",
  ascii "Thorn",
  ascii "thorn",
  ascii "minus",
  ascii "multiply",
  ascii "onesuperior",
  ascii "twosuperior",
  ascii "threesuperior",
  ascii "onehalf",
  ascii "onequarter",
  ascii "threequarters",
  ascii "franc",
  ascii "Gbreve",
  ascii "gbreve",
  ascii "Idotaccent",
  ascii "Scedilla",
  ascii "scedilla",
  ascii "Cacute",
  ascii "cacute",
  ascii "Ccaron",
  ascii "ccaron",
  ascii "dcroat"
]

/-- The lookup `aglfn[r]`, with its `ok` result as the option. -/
def aglfnGet (r : Int) : Option Bytes := aglfn.lookup r

/-- The lookup `builtIns[name]`: `false` for a name that is not a key. -/
def builtInsGet (name : Bytes) : Bool := builtIns.contains name

/-- The upper-case hexadecimal digit of a value below 16. -/
def hexDigitUpper (d : Nat) : Nat := if d < 10 then 48 + d else 55 + d

/-- The upper-case hexadecimal digits of `n`, most significant first; the
first argument bounds the number of digits (8 for a 32-bit value). -/
def hexDigitsUpper : Nat → Nat → Bytes
  | 0, _ => []
  | k + 1, n => if n < 16 then [hexDigitUpper n] else hexDigitsUpper k (n / 16) ++ [hexDigitUpper (n % 16)]

/-- The verb `%04X` applied to a rune: a sign for a negative value, then the
digits padded with zeros up to a total width of 4. -/
def sprintf04X (r : Int) : Bytes :=
  let digits := hexDigitsUpper 8 r.natAbs
  let sign : Bytes := if r < 0 then [45] else []
  sign ++ List.replicate (4 - sign.length - digits.length) 48 ++ digits

/-- The call `fmt.Sprintf("uni%04X", r)`. -/
def sprintfUni (r : Int) : Bytes := ascii "uni" ++ sprintf04X r

/-- The verb `%d` applied to a non-negative `int`. -/
def sprintfD (i : Nat) : Bytes := (Nat.toDigits 10 i).map Char.toNat

/-- The call `bytes.Split(data, []byte("\n"))`. -/
def splitLines : Bytes → List Bytes
  | [] => [[]]
  | c :: cs =>
    if c = newlineByte then [] :: splitLines cs
    else
      match splitLines cs with
      | [] => [[c]]
      | l :: ls => (c :: l) :: ls

/-- The line `  </GlyphOrder>` that ends the glyph-order section. -/
def glyphOrderSentinel : Bytes := ascii "  </GlyphOrder>"

/-- The line `    </extraNames>` that ends the extra-names section. -/
def extraNamesSentinel : Bytes := ascii "    </extraNames>"

/-- The line `glyphOrderBytes`. -/
def glyphOrderBytes : Bytes := ascii "  <GlyphOrder>"

/-- The line `extraNamesBytes`. -/
def extraNamesBytes : Bytes := ascii "    <extraNames>"

/-- The first loop of `rewrite`: one entry per line matching `glyphIDRegExp`,
up to and including the line equal to the sentinel.  The second argument is
the slice `entries` built so far. -/
def loadEntries : List Bytes → List entry → List entry
  | [], entries => entries
  | l :: ls, entries =>
    let entries1 :=
      match glyphIDRegExpFind l with
      | some name => entries ++ [{ oldID := entries.length, oldName := name, newName := name, r := notSeen }]
      | none => entries
    if l = glyphOrderSentinel then entries1 else loadEntries ls entries1

/-- The ways in which `rewrite` stops without returning. -/
inductive Failure where
  /-- The call `log.Fatal(err)` after `f.GlyphIndex` reported an error. -/
  | decodeError
  /-- The run-time fault of `entries[x]` with `x` out of range. -/
  | indexOutOfRange
  /-- The run-time fault of `entries[1:]` on an empty slice. -/
  | sliceOutOfRange
  /-- The bound on the iterations of the main loop was reached (it never is). -/
  | iterations
  deriving DecidableEq

/-- The variables the second loop of `rewrite` updates. -/
structure ResolveState where
  entries : List entry
  renames : Renames
  deriving DecidableEq

/-- The name the second loop gives to a glyph resolved at `r`. -/
def canonicalName (r : Int) : Bytes :=
  match aglfnGet r with
  | some n => n
  | none => sprintfUni r

/-- One iteration of the second loop of `rewrite`, at the rune `r`.  The font
decoder `f.GlyphIndex(&buf, r)` is the function `glyphIndex`, whose result
`none` stands for a non-nil `err`. -/
def resolveStep (glyphIndex : Int → Option Nat) (st : ResolveState) (r : Int) :
    Except Failure ResolveState :=
  match glyphIndex r with
  | none => .error .decodeError
  | some x =>
    if x = 0 then .ok st
    else
      match st.entries[x]? with
      | none => .error .indexOutOfRange
      | some e =>
        if e.r ≠ notSeen then .ok st
        else if 0xE000 ≤ r ∧ r ≤ 0xF8FF then
          .ok { st with entries := st.entries.set x { e with r := r } }
        else
          let newName := canonicalName r
          .ok { entries := st.entries.set x { e with r := r, newName := newName },
                renames := if e.oldName ≠ newName then mapSet st.renames e.oldName newName
                           else st.renames }

/-- The second loop of `rewrite` over the runes of the list, in order. -/
def resolveLoop (glyphIndex : Int → Option Nat) : List Int → ResolveState → Except Failure ResolveState
  | [], st => .ok st
  | r :: rs, st =>
    match resolveStep glyphIndex st r with
    | .error f => .error f
    | .ok st1 => resolveLoop glyphIndex rs st1

/-- The runes of `for r := rune(0); r < 0xffff; r++`. -/
def scanRunes : List Int := (List.range 0xffff).map Int.ofNat

/-- The second loop of `rewrite`, from the loaded entries and the empty map. -/
def resolve (glyphIndex : Int → Option Nat) (entries : List entry) : Except Failure ResolveState :=
  resolveLoop glyphIndex scanRunes { entries := entries, renames := [] }

/-- The third loop of `rewrite`: the new names that are not built in. -/
def collectExtraNames : List entry → List Bytes
  | [] => []
  | e :: es => if !builtInsGet e.newName then e.newName :: collectExtraNames es else collectExtraNames es

/-- Insertion of a string into a slice in ascending order. -/
def insertString (s : Bytes) : List Bytes → List Bytes
  | [] => [s]
  | x :: xs => if bytesLess x s then x :: insertString s xs else s :: x :: xs

/-- The call `sort.Strings(s)`; equal strings are indistinguishable, so the
result does not depend on the sorting routine. -/
def sortStrings : List Bytes → List Bytes
  | [] => []
  | x :: xs => insertString x (sortStrings xs)

/-- What `rewrite` has computed when it starts to write: the entries in their
new order, the map `renames` and the sorted `extraNames`. -/
structure Plan where
  entries : List entry
  renames : Renames
  extraNames : List Bytes
  deriving DecidableEq

/-- The statement `sort.Sort(byR(entries[1:]))`: the first entry stays, the
others are sorted; slicing an empty `entries` is a run-time fault. -/
def sortTail : List entry → Except Failure (List entry)
  | [] => .error .sliceOutOfRange
  | e0 :: rest => .ok (e0 :: sortByR rest)

/-- The part of `rewrite` before the output loop, on the lines of the file. -/
def plan (glyphIndex : Int → Option Nat) (lines : List Bytes) : Except Failure Plan :=
  match resolve glyphIndex (loadEntries lines []) with
  | .error f => .error f
  | .ok st =>
    let extraNames := sortStrings (collectExtraNames st.entries)
    match sortTail st.entries with
    | .error f => .error f
    | .ok entries => .ok { entries := entries, renames := st.renames, extraNames := extraNames }

/-- The rewriting of one line in the output loop of `rewrite`: when the line
matches `nameRegExp` and the matched name is a key of `renames`, the name is
replaced. -/
def rewriteLine (renames : Renames) (line : Bytes) : Bytes :=
  match nameRegExpFind line with
  | none => line
  | some (x1, oldName, x3) =>
    match mapGet renames oldName with
    | some newName => x1 ++ newName ++ x3
    | none => line

/-- The records `writeGlyphOrder` prints, from the index `i` on.  The verb
`%q` (the library's `strconv.Quote`) is the function `quote`. -/
def glyphOrderRecords (quote : Bytes → Bytes) : Nat → List entry → Bytes
  | _, [] => []
  | i, e :: es =>
    ascii "<GlyphID id=\"" ++ sprintfD i ++ ascii "\" name=" ++ quote e.newName ++ ascii "/>\n"
      ++ glyphOrderRecords quote (i + 1) es

/-- The function `writeGlyphOrder`: the buffer after the records, and the
lines left from the sentinel on. -/
def writeGlyphOrder (quote : Bytes → Bytes) (out : Bytes) (lines : List Bytes) (entries : List entry) :
    Bytes × List Bytes :=
  (out ++ glyphOrderRecords quote 0 entries, lines.dropWhile (fun l => l ≠ glyphOrderSentinel))

/-- The records `writeExtraNames` prints. -/
def extraNamesRecords (quote : Bytes → Bytes) : List Bytes → Bytes
  | [] => []
  | n :: ns => ascii "<psName name=" ++ quote n ++ ascii "/>\n" ++ extraNamesRecords quote ns

/-- The function `writeExtraNames`: the buffer after the records, and the
lines left from the sentinel on. -/
def writeExtraNames (quote : Bytes → Bytes) (out : Bytes) (lines : List Bytes) (extraNames : List Bytes) :
    Bytes × List Bytes :=
  (out ++ extraNamesRecords quote extraNames, lines.dropWhile (fun l => l ≠ extraNamesSentinel))

/-- The output loop of `rewrite`, `for len(lines) > 0`, with a bound on the
number of iterations; `none` when the bound is reached with lines left. -/
def rewriteLoop (quote : Bytes → Bytes) (p : Plan) : Nat → List Bytes → Bytes → Option Bytes
  | _, [], out => some out
  | 0, _ :: _, _ => none
  | k + 1, l :: lines, out =>
    let line := rewriteLine p.renames l
    let out1 := out ++ line ++ [newlineByte]
    if line = glyphOrderBytes then
      rewriteLoop quote p k (writeGlyphOrder quote out1 lines p.entries).2
        (writeGlyphOrder quote out1 lines p.entries).1
    else if line = extraNamesBytes then
      rewriteLoop quote p k (writeExtraNames quote out1 lines p.extraNames).2
        (writeExtraNames quote out1 lines p.extraNames).1
    else rewriteLoop quote p k lines out1

/-- The function `rewrite`, on the content `data` of the file it reads.  Every
iteration of the output loop removes a line, so the number of lines bounds the
iterations. -/
def rewrite (quote : Bytes → Bytes) (glyphIndex : Int → Option Nat) (data : Bytes) :
    Except Failure Bytes :=
  match plan glyphIndex (splitLines data) with
  | .error f => .error f
  | .ok p =>
    match rewriteLoop quote p (splitLines data).length (splitLines data) [] with
    | some out => .ok out
    | none => .error .iterations

/-! ## Predicates and a worked input for the proofs -/

/-- The state of the entries as the first loop leaves them: the old ID is the
position, the new name is the old name, no code point is recorded. -/
def Fresh (entries : List entry) : Prop :=
  ∀ (i : Nat) (e : entry), entries[i]? = some e → e.oldID = i ∧ e.newName = e.oldName ∧ e.r = notSeen

/-- The code points of the Private Use Area, as the loop tests them. -/
abbrev inPrivateUse (r : Int) : Prop := 0xE000 ≤ r ∧ r ≤ 0xF8FF

/-- The pair of an entry that `renames` holds when the entry has been renamed. -/
def renamePair (e : entry) : Bytes × Bytes := (e.oldName, e.newName)

/-- Whether the new name of an entry differs from its old name. -/
def renamed (e : entry) : Bool := decide (e.newName ≠ e.oldName)

/-- The invariant of the resolver loop, after the runes `done` (in this order),
for a decoder `gi` and the loaded entries `init`. -/
structure ResolveInv (gi : Int → Option Nat) (init : List entry) (done : List Int)
    (st : ResolveState) : Prop where
  len : st.entries.length = init.length
  ids : st.entries.map (fun e => (e.oldID, e.oldName)) = init.map (fun e => (e.oldID, e.oldName))
  unseen : ∀ (x : Nat) (e : entry), st.entries[x]? = some e → e.r = notSeen →
    e.newName = e.oldName ∧ (x ≠ 0 → ∀ r ∈ done, gi r ≠ some x)
  seen : ∀ (x : Nat) (e : entry), st.entries[x]? = some e → e.r ≠ notSeen →
    x ≠ 0 ∧ gi e.r = some x ∧ (∃ a b, done = a ++ e.r :: b ∧ ∀ r ∈ a, gi r ≠ some x) ∧
    e.newName = (if inPrivateUse e.r then e.oldName else canonicalName e.r)
  ren : st.renames.Perm ((st.entries.filter renamed).map renamePair)

/-- A decoder: five code points have a glyph, two of them the same one. -/
def exampleGlyphIndex : Int → Option Nat := fun r =>
  if r = 0x5C then some 1
  else if r = 0x1F3 then some 5
  else if r = 0x263A then some 2
  else if r = 0xE000 then some 3
  else if r = 0xFF3C then some 1
  else some 0

/-- The lines of a file with seven glyphs and one metrics record. -/
def exampleLines : List Bytes := [
  ascii "<ttFont>",
  ascii "  <GlyphOrder>",
  ascii "    <GlyphID id=\"0\" name=\".notdef\"/>",
  ascii "    <GlyphID id=\"1\" name=\"A\"/>",
  ascii "    <GlyphID id=\"2\" name=\"customglyph123\"/>",
  ascii "    <GlyphID id=\"3\" name=\"logo\"/>",
  ascii "    <GlyphID id=\"4\" name=\"zeta\"/>",
  ascii "    <GlyphID id=\"5\" name=\"dz\"/>",
  ascii "    <GlyphID id=\"6\" name=\".null\"/>",
  ascii "  </GlyphOrder>",
  ascii "    <mtx name=\"A\" width=\"500\" lsb=\"0\"/>",
  ascii "</ttFont>"]

/-- The entries the first loop builds from `exampleLines`. -/
def exampleLoaded : List entry := [
  { oldID := 0, oldName := ascii ".notdef", newName := ascii ".notdef", r := notSeen },
  { oldID := 1, oldName := ascii "A", newName := ascii "A", r := notSeen },
  { oldID := 2, oldName := ascii "customglyph123", newName := ascii "customglyph123", r := notSeen },
  { oldID := 3, oldName := ascii "logo", newName := ascii "logo", r := notSeen },
  { oldID := 4, oldName := ascii "zeta", newName := ascii "zeta", r := notSeen },
  { oldID := 5, oldName := ascii "dz", newName := ascii "dz", r := notSeen },
  { oldID := 6, oldName := ascii ".null", newName := ascii ".null", r := notSeen }]

/-- The entries after the resolver loop on the worked input. -/
def exampleResolved : List entry := [
  { oldID := 0, oldName := ascii ".notdef", newName := ascii ".notdef", r := notSeen },
  { oldID := 1, oldName := ascii "A", newName := ascii "backslash", r := 0x5C },
  { oldID := 2, oldName := ascii "customglyph123", newName := ascii "smileface", r := 0x263A },
  { oldID := 3, oldName := ascii "logo", newName := ascii "logo", r := 0xE000 },
  { oldID := 4, oldName := ascii "zeta", newName := ascii "zeta", r := notSeen },
  { oldID := 5, oldName := ascii "dz", newName := ascii "uni01F3", r := 0x1F3 },
  { oldID := 6, oldName := ascii ".null", newName := ascii ".null", r := notSeen }]

/-- The map `renames` after the resolver loop on the worked input. -/
def exampleRenames : Renames := [
  (ascii "customglyph123", ascii "smileface"),
  (ascii "dz", ascii "uni01F3"),
  (ascii "A", ascii "backslash")]

/-- The plan of the worked input. -/
def examplePlan : Plan where
  entries := [
    { oldID := 0, oldName := ascii ".notdef", newName := ascii ".notdef", r := notSeen },
    { oldID := 1, oldName := ascii "A", newName := ascii "backslash", r := 0x5C },
    { oldID := 5, oldName := ascii "dz", newName := ascii "uni01F3", r := 0x1F3 },
    { oldID := 2, oldName := ascii "customglyph123", newName := ascii "smileface", r := 0x263A },
    { oldID := 3, oldName := ascii "logo", newName := ascii "logo", r := 0xE000 },
    { oldID := 6, oldName := ascii ".null", newName := ascii ".null", r := notSeen },
    { oldID := 4, oldName := ascii "zeta", newName := ascii "zeta", r := notSeen }]
  renames := exampleRenames
  extraNames := [ascii "logo", ascii "smileface", ascii "uni01F3", ascii "zeta"]

/-! ## The verb `%q`, the output loop as a state machine, and worked documents -/

/-- The bytes of printable ASCII, from the space to the tilde. -/
def isPrintASCII (c : Nat) : Bool := decide (0x20 ≤ c ∧ c ≤ 0x7E)

/-- The escape of a pending run of bytes outside printable ASCII, when there
is one. -/
def flushRun (quoteOther : Bytes → Bytes) (run : Bytes) : Bytes :=
  match run with
  | [] => []
  | _ :: _ => quoteOther run

/-- The body of `strconv.Quote`: a printable ASCII byte is copied, with a
backslash before it when it is the quote or the backslash; the first argument
is the run of other bytes met since the last printable one. -/
def quoteRuns (quoteOther : Bytes → Bytes) : Bytes → Bytes → Bytes
  | run, [] => flushRun quoteOther run
  | run, c :: cs =>
    if isPrintASCII c then
      flushRun quoteOther run ++ (if c = 34 ∨ c = 92 then [92, c] else [c])
        ++ quoteRuns quoteOther [] cs
    else quoteRuns quoteOther (run ++ [c]) cs

/-- The verb `%q` on a string, the library's `strconv.Quote`: the string in
double quotes, escaped.  The library decodes the bytes outside printable ASCII
as UTF-8 and escapes them by its tables of control and printable runes; a byte
of printable ASCII never belongs to such a rune, so what it does with a
maximal run of other bytes is a function of the run, here `quoteOther`. -/
def strconvQuote (quoteOther : Bytes → Bytes) (s : Bytes) : Bytes :=
  [34] ++ quoteRuns quoteOther [] s ++ [34]

/-- The output loop of `rewrite` in state-passing form.  The state is `none`
in the main loop and `some sentinel` inside the loop of `writeGlyphOrder` or
`writeExtraNames` that drops the lines before the sentinel; the result is the
text written to `out` from the given lines on. -/
def emitFrom (quote : Bytes → Bytes) (p : Plan) : Option Bytes → List Bytes → Bytes
  | _, [] => []
  | st, l :: ls =>
    if st ≠ none ∧ st ≠ some l then emitFrom quote p st ls
    else
      rewriteLine p.renames l ++ [newlineByte] ++
        (if rewriteLine p.renames l = glyphOrderBytes then
          glyphOrderRecords quote 0 p.entries ++ emitFrom quote p (some glyphOrderSentinel) ls
        else if rewriteLine p.renames l = extraNamesBytes then
          extraNamesRecords quote p.extraNames ++ emitFrom quote p (some extraNamesSentinel) ls
        else emitFrom quote p none ls)

/-- The state of the output loop after the given lines, by the lines alone:
`none` is the state NORMAL, `some sentinel` the state inside a replaced
section, left at the line equal to the sentinel. -/
def sectionState : Option Bytes → List Bytes → Option Bytes
  | st, [] => st
  | st, l :: ls =>
    if st ≠ none ∧ st ≠ some l then sectionState st ls
    else if l = glyphOrderBytes then sectionState (some glyphOrderSentinel) ls
    else if l = extraNamesBytes then sectionState (some extraNamesSentinel) ls
    else sectionState none ls

/-- The lines passed through the rewriting, each followed by a newline. -/
def emitLines (renames : Renames) : List Bytes → Bytes
  | [] => []
  | l :: ls => rewriteLine renames l ++ [newlineByte] ++ emitLines renames ls

/-- The record `writeGlyphOrder` prints for the entry `e` at position `i`. -/
def glyphOrderRecord (quote : Bytes → Bytes) (i : Nat) (e : entry) : Bytes :=
  ascii "<GlyphID id=\"" ++ sprintfD i ++ ascii "\" name=" ++ quote e.newName ++ ascii "/>\n"

/-- The record `writeExtraNames` prints for the name `n`. -/
def extraNamesRecord (quote : Bytes → Bytes) (n : Bytes) : Bytes :=
  ascii "<psName name=" ++ quote n ++ ascii "/>\n"

/-- The lines of a document before its glyph-order section. -/
def documentHead : List Bytes := [
  ascii "<?xml version=\"1.0\" encoding=\"UTF-8\"?>",
  ascii "<ttFont sfntVersion=\"OTTO\" ttLibVersion=\"3.0\">",
  ascii ""]

/-- The lines of the glyph-order section of the document, between its markers. -/
def documentGlyphs : List Bytes := [
  ascii "    <!-- The 'id' attribute is only for humans; it is ignored when parsed. -->",
  ascii "    <GlyphID id=\"0\" name=\".notdef\"/>",
  ascii "    <GlyphID id=\"1\" name=\"A\"/>",
  ascii "    <GlyphID id=\"2\" name=\"customglyph123\"/>",
  ascii "    <GlyphID id=\"3\" name=\"logo\"/>",
  ascii "    <GlyphID id=\"4\" name=\"zeta\"/>",
  ascii "    <GlyphID id=\"5\" name=\"dz\"/>",
  ascii "    <GlyphID id=\"6\" name=\".null\"/>"]

/-- The lines of the document between its glyph-order and extra-names sections. -/
def documentTables : List Bytes := [
  ascii "",
  ascii "  <hmtx>",
  ascii "    <mtx name=\".notdef\" width=\"500\" lsb=\"0\"/>",
  ascii "    <mtx name=\"A\" width=\"600\" lsb=\"10\"/>",
  ascii "    <mtx name=\"dz\" width=\"700\" lsb=\"20\"/>",
  ascii "  </hmtx>",
  ascii "",
  ascii "  <post>",
  ascii "    <psNames>",
  ascii "      <!-- This file uses unique glyph names based on the information",
  ascii "           found in the 'post' table. -->",
  ascii "    </psNames>"]

/-- The lines of the extra-names section of the document, between its markers. -/
def documentNames : List Bytes := [
  ascii "      <psName name=\"customglyph123\"/>",
  ascii "      <psName name=\"logo\"/>",
  ascii "      <psName name=\"zeta\"/>",
  ascii "      <psName name=\"dz\"/>"]

/-- The lines of the document after its extra-names section. -/
def documentTail : List Bytes := [
  ascii "  </post>",
  ascii "",
  ascii "</ttFont>",
  ascii ""]

/-- The lines of the document. -/
def documentLines : List Bytes :=
  documentHead ++ glyphOrderBytes :: (documentGlyphs ++ glyphOrderSentinel ::
    (documentTables ++ extraNamesBytes :: (documentNames ++ extraNamesSentinel :: documentTail)))

/-- A document as the converter writes it: the file that `rewrite` reads. -/
def exampleDocument : Bytes := List.intercalate [newlineByte] documentLines

/-- The lines of a document whose glyph-order section is not closed. -/
def truncatedLines : List Bytes :=
  documentHead ++ glyphOrderBytes :: (documentGlyphs ++ documentTables ++ documentTail)

/-- A document whose glyph-order section is not closed. -/
def truncatedDocument : Bytes := List.intercalate [newlineByte] truncatedLines

/-- The lines of a document with glyph records and no start marker. -/
def unmarkedLines : List Bytes :=
  documentHead ++ (documentGlyphs ++ glyphOrderSentinel :: (documentTables ++ documentTail))

/-- A document with glyph records and no start marker. -/
def unmarkedDocument : Bytes := List.intercalate [newlineByte] unmarkedLines

/-- A decoder with a glyph for the code point 0x1F3 only. -/
def clashGlyphIndex : Int → Option Nat := fun r => if r = 0x1F3 then some 2 else some 0

/-- The lines of a file in which an unmapped glyph is called `uni01F3`. -/
def clashLines : List Bytes := [
  ascii "  <GlyphOrder>",
  ascii "    <GlyphID id=\"0\" name=\".notdef\"/>",
  ascii "    <GlyphID id=\"1\" name=\"uni01F3\"/>",
  ascii "    <GlyphID id=\"2\" name=\"dz\"/>",
  ascii "  </GlyphOrder>"]

/-- The entries the first loop builds from `clashLines`. -/
def clashLoaded : List entry := [
  { oldID := 0, oldName := ascii ".notdef", newName := ascii ".notdef", r := notSeen },
  { oldID := 1, oldName := ascii "uni01F3", newName := ascii "uni01F3", r := notSeen },
  { oldID := 2, oldName := ascii "dz", newName := ascii "dz", r := notSeen }]

/-- The plan of `clashLines` with the decoder `clashGlyphIndex`. -/
def clashPlan : Plan where
  entries := [
    { oldID := 0, oldName := ascii ".notdef", newName := ascii ".notdef", r := notSeen },
    { oldID := 2, oldName := ascii "dz", newName := ascii "uni01F3", r := 0x1F3 },
    { oldID := 1, oldName := ascii "uni01F3", newName := ascii "uni01F3", r := notSeen }]
  renames := [(ascii "dz", ascii "uni01F3")]
  extraNames := [ascii "uni01F3", ascii "uni01F3"]

/-- A decoder that reports an error for the code point 5. -/
def failingGlyphIndex : Int → Option Nat := fun r => if r = 5 then none else some 0

/-- The output of `rewrite` for `exampleDocument`. -/
def exampleOutput : Bytes :=
  ascii "<?xml version=\"1.0\" encoding=\"UTF-8\"?>\n" ++
  ascii "<ttFont sfntVersion=\"OTTO\" ttLibVersion=\"3.0\">\n" ++
  ascii "\n" ++
  ascii "  <GlyphOrder>\n" ++
  ascii "<GlyphID id=\"0\" name=\".notdef\"/>\n" ++
  ascii "<GlyphID id=\"1\" name=\"backslash\"/>\n" ++
  ascii "<GlyphID id=\"2\" name=\"uni01F3\"/>\n" ++
  ascii "<GlyphID id=\"3\" name=\"smileface\"/>\n" ++
  ascii "<GlyphID id=\"4\" name=\"logo\"/>\n" ++
  ascii "<GlyphID id=\"5\" name=\".null\"/>\n" ++
  ascii "<GlyphID id=\"6\" name=\"zeta\"/>\n" ++
  ascii "  </GlyphOrder>\n" ++
  ascii "\n" ++
  ascii "  <hmtx>\n" ++
  ascii "    <mtx name=\".notdef\" width=\"500\" lsb=\"0\"/>\n" ++
  ascii "    <mtx name=\"backslash\" width=\"600\" lsb=\"10\"/>\n" ++
  ascii "    <mtx name=\"uni01F3\" width=\"700\" lsb=\"20\"/>\n" ++
  ascii "  </hmtx>\n" ++
  ascii "\n" ++
  ascii "  <post>\n" ++
  ascii "    <psNames>\n" ++
  ascii "      <!-- This file uses unique glyph names based on the information\n" ++
  ascii "           found in the 'post' table. -->\n" ++
  ascii "    </psNames>\n" ++
  ascii "    <extraNames>\n" ++
  ascii "<psName name=\"logo\"/>\n" ++
  ascii "<psName name=\"smileface\"/>\n" ++
  ascii "<psName name=\"uni01F3\"/>\n" ++
  ascii "<psName name=\"zeta\"/>\n" ++
  ascii "    </extraNames>\n" ++
  ascii "  </post>\n" ++
  ascii "\n" ++
  ascii "</ttFont>\n" ++
  ascii "\n"

/-- The output of `rewrite` for `truncatedDocument`. -/
def truncatedOutput : Bytes :=
  ascii "<?xml version=\"1.0\" encoding=\"UTF-8\"?>\n" ++
  ascii "<ttFont sfntVersion=\"OTTO\" ttLibVersion=\"3.0\">\n" ++
  ascii "\n" ++
  ascii "  <GlyphOrder>\n" ++
  ascii "<GlyphID id=\"0\" name=\".notdef\"/>\n" ++
  ascii "<GlyphID id=\"1\" name=\"backslash\"/>\n" ++
  ascii "<GlyphID id=\"2\" name=\"uni01F3\"/>\n" ++
  ascii "<GlyphID id=\"3\" name=\"smileface\"/>\n" ++
  ascii "<GlyphID id=\"4\" name=\"logo\"/>\n" ++
  ascii "<GlyphID id=\"5\" name=\".null\"/>\n" ++
  ascii "<GlyphID id=\"6\" name=\"zeta\"/>\n"

/-- The output of `rewrite` for `unmarkedDocument`. -/
def unmarkedOutput : Bytes :=
  ascii "<?xml version=\"1.0\" encoding=\"UTF-8\"?>\n" ++
  ascii "<ttFont sfntVersion=\"OTTO\" ttLibVersion=\"3.0\">\n" ++
  ascii "\n" ++
  ascii "    <!-- The 'id' attribute is only for humans; it is ignored when parsed. -->\n" ++
  ascii "    <GlyphID id=\"0\" name=\".notdef\"/>\n" ++
  ascii "    <GlyphID id=\"1\" name=\"backslash\"/>\n" ++
  ascii "    <GlyphID id=\"2\" name=\"smileface\"/>\n" ++
  ascii "    <GlyphID id=\"3\" name=\"logo\"/>\n" ++
  ascii "    <GlyphID id=\"4\" name=\"zeta\"/>\n" ++
  ascii "    <GlyphID id=\"5\" name=\"uni01F3\"/>\n" ++
  ascii "    <GlyphID id=\"6\" name=\".null\"/>\n" ++
  ascii "  </GlyphOrder>\n" ++
  ascii "\n" ++
  ascii "  <hmtx>\n" ++
  ascii "    <mtx name=\".notdef\" width=\"500\" lsb=\"0\"/>\n" ++
  ascii "    <mtx name=\"backslash\" width=\"600\" lsb=\"10\"/>\n" ++
  ascii "    <mtx name=\"uni01F3\" width=\"700\" lsb=\"20\"/>\n" ++
  ascii "  </hmtx>\n" ++
  ascii "\n" ++
  ascii "  <post>\n" ++
  ascii "    <psNames>\n" ++
  ascii "      <!-- This file uses unique glyph names based on the information\n" ++
  ascii "           found in the 'post' table. -->\n" ++
  ascii "    </psNames>\n" ++
  ascii "  </post>\n" ++
  ascii "\n" ++
  ascii "</ttFont>\n" ++
  ascii "\n"

/-! ## The records that follow a start marker -/

/-- The records the output loop writes right after a line it has written: the
glyph-order records after the line `glyphOrderBytes`, the extra-names records
after the line `extraNamesBytes`, nothing after any other line.  The test is
on the rewritten line, as in the loop. -/
def markerRecords (quote : Bytes → Bytes) (p : Plan) (l : Bytes) : Bytes :=
  if rewriteLine p.renames l = glyphOrderBytes then glyphOrderRecords quote 0 p.entries
  else if rewriteLine p.renames l = extraNamesBytes then extraNamesRecords quote p.extraNames
  else []

/-! ## The lookups of the resolver loop and the scenario of the specification -/

/-- The code points for which the second loop of `rewrite` calls
`f.GlyphIndex`, in the order of the calls: one call at the start of each
iteration, and no iteration after one that fails. -/
def resolveLookups (glyphIndex : Int → Option Nat) : List Int → ResolveState → List Int
  | [], _ => []
  | r :: rs, st =>
    r :: (match resolveStep glyphIndex st r with
      | .error _ => []
      | .ok st1 => resolveLookups glyphIndex rs st1)

/-- The decoder of the scenario: 0x5C has the glyph 1, 0x263A the glyph 2, no
other code point has a glyph. -/
def scenarioGlyphIndex : Int → Option Nat := fun r =>
  if r = 0x5C then some 1 else if r = 0x263A then some 2 else some 0

/-- A file whose glyph table is that of the scenario. -/
def scenarioLines : List Bytes := [
  ascii "  <GlyphOrder>",
  ascii "    <GlyphID id=\"0\" name=\".notdef\"/>",
  ascii "    <GlyphID id=\"1\" name=\"A\"/>",
  ascii "    <GlyphID id=\"2\" name=\"customglyph123\"/>",
  ascii "    <GlyphID id=\"3\" name=\".null\"/>",
  ascii "  </GlyphOrder>"]

/-- The entries the first loop builds from the table of the scenario. -/
def scenarioLoaded : List entry := [
  { oldID := 0, oldName := ascii ".notdef", newName := ascii ".notdef", r := notSeen },
  { oldID := 1, oldName := ascii "A", newName := ascii "A", r := notSeen },
  { oldID := 2, oldName := ascii "customglyph123", newName := ascii "customglyph123", r := notSeen },
  { oldID := 3, oldName := ascii ".null", newName := ascii ".null", r := notSeen }]

/-- The plan of the scenario. -/
def scenarioPlan : Plan where
  entries := [
    { oldID := 0, oldName := ascii ".notdef", newName := ascii ".notdef", r := notSeen },
    { oldID := 1, oldName := ascii "A", newName := ascii "backslash", r := 0x5C },
    { oldID := 2, oldName := ascii "customglyph123", newName := ascii "smileface", r := 0x263A },
    { oldID := 3, oldName := ascii ".null", newName := ascii ".null", r := notSeen }]
  renames := [(ascii "customglyph123", ascii "smileface"), (ascii "A", ascii "backslash")]
  extraNames := [ascii "smileface"]

/-! ## The names of `aglfn` in ascending order -/

/-- The positions of the entries of `aglfn`, in the ascending order of their
names: the entry 33 (`A`) has the least name, then the entry 128 (`AE`), and
so on.  The proofs check that the names are ascending along this list and that
every position is in it. -/
def aglfnOrder : List Nat := [
  33, 128, 311, 123, 188, 124, 126, 122, 339, 330, 186, 190, 127, 309, 125, 34, 340, 35, 192, 198,
  129, 194, 196, 359, 36, 200, 202, 470, 37, 131, 206, 212, 132, 133, 208, 130, 204, 252, 210, 342,
  332, 344, 333, 138, 438, 38, 39, 341, 216, 307, 214, 218, 40, 571, 562, 563, 561, 222, 220, 41,
  234, 135, 228, 136, 137, 232, 439, 134, 226, 230, 346, 361, 334, 224, 42, 236, 43, 347, 44, 239,
  348, 241, 243, 245, 45, 349, 46, 247, 249, 139, 350, 47, 260, 141, 256, 142, 144, 140, 303, 258,
  254, 444, 337, 352, 335, 146, 313, 143, 48, 358, 353, 360, 49, 50, 262, 264, 441, 354, 51, 514,
  516, 515, 517, 522, 520, 521, 518, 519, 512, 513, 540, 541, 529, 528, 542, 524, 530, 536, 535, 534,
  537, 538, 533, 527, 548, 545, 539, 523, 551, 546, 547, 543, 544, 532, 531, 525, 526, 550, 549, 266,
  272, 270, 268, 355, 52, 356, 276, 274, 345, 152, 53, 148, 282, 149, 150, 147, 305, 286, 280, 288,
  357, 398, 362, 336, 284, 278, 54, 55, 403, 290, 405, 401, 56, 351, 57, 151, 292, 294, 407, 58,
  295, 299, 297, 343, 65, 155, 189, 156, 111, 324, 158, 160, 312, 154, 446, 368, 363, 187, 6, 483,
  510, 511, 331, 191, 492, 159, 310, 457, 465, 464, 461, 463, 462, 456, 453, 455, 454, 458, 459, 62,
  94, 10, 478, 32, 157, 66, 60, 92, 369, 554, 91, 93, 59, 61, 317, 100, 422, 67, 193, 316,
  460, 199, 161, 195, 197, 115, 96, 389, 570, 503, 502, 315, 581, 26, 433, 12, 491, 103, 98, 68,
  420, 421, 201, 203, 109, 371, 583, 102, 329, 177, 559, 553, 4, 437, 318, 327, 233, 505, 69, 163,
  207, 213, 164, 165, 209, 162, 24, 472, 425, 205, 411, 469, 410, 253, 211, 372, 364, 29, 494, 445,
  374, 365, 170, 1, 431, 95, 468, 70, 578, 409, 560, 564, 21, 451, 302, 20, 432, 434, 71, 370,
  217, 308, 215, 219, 153, 471, 64, 323, 30, 496, 105, 117, 429, 430, 72, 223, 221, 582, 326, 506,
  322, 13, 73, 167, 229, 168, 169, 166, 235, 227, 481, 488, 509, 508, 486, 572, 573, 576, 231, 376,
  392, 338, 366, 225, 74, 237, 75, 377, 238, 76, 240, 378, 242, 244, 28, 495, 555, 435, 484, 106,
  485, 301, 569, 246, 557, 77, 108, 579, 477, 427, 112, 145, 584, 585, 78, 248, 251, 250, 25, 473,
  493, 499, 171, 379, 3, 79, 173, 257, 174, 176, 261, 320, 172, 304, 259, 255, 391, 400, 396, 381,
  394, 17, 423, 449, 119, 118, 447, 574, 104, 116, 482, 178, 314, 175, 80, 113, 8, 9, 467, 5,
  14, 114, 504, 426, 436, 388, 399, 382, 11, 110, 442, 475, 497, 498, 480, 390, 81, 31, 121, 2,
  419, 417, 418, 413, 416, 414, 415, 7, 82, 263, 479, 265, 500, 501, 107, 507, 383, 319, 556, 83,
  267, 273, 271, 269, 428, 101, 27, 23, 452, 558, 385, 384, 490, 22, 15, 575, 0, 580, 97, 474,
  476, 577, 84, 386, 277, 275, 489, 375, 397, 184, 19, 450, 120, 321, 325, 328, 443, 567, 568, 566,
  565, 18, 424, 448, 85, 180, 283, 181, 182, 179, 306, 287, 281, 63, 412, 487, 466, 289, 552, 387,
  393, 367, 395, 285, 279, 86, 87, 404, 291, 406, 440, 402, 88, 380, 89, 183, 293, 185, 99, 408,
  90, 296, 300, 298, 16, 373]

/-- Whether a byte is one of `0`-`9`, `A`-`F`. -/
def isHexUpper (c : Nat) : Bool := (decide (48 ≤ c) && decide (c ≤ 57)) || (decide (65 ≤ c) && decide (c ≤ 70))

/-- Whether a name is `uni` followed by four upper-case hexadecimal digits. -/
def isSynthesized : Bytes → Bool
  | [117, 110, 105, a, b, c, d] => isHexUpper a && isHexUpper b && isHexUpper c && isHexUpper d
  | _ => false

/-- Whether each name of a list is below the next one. -/
def ascending : List Bytes → Bool
  | [] => true
  | [_] => true
  | a :: b :: t => bytesLess a b && ascending (b :: t)

/-! ## A second run on the result of the worked input -/

/-- The decoder of the worked input after the reordering: each code point has
the glyph at the new position of its old glyph. -/
def secondGlyphIndex : Int → Option Nat := fun r =>
  if r = 0x5C then some 1
  else if r = 0x1F3 then some 2
  else if r = 0x263A then some 3
  else if r = 0xE000 then some 4
  else if r = 0xFF3C then some 1
  else some 0

/-- The glyph records of the worked input after the first run: the new names,
in the new order. -/
def secondLines : List Bytes := [
  ascii "  <GlyphOrder>",
  ascii "    <GlyphID id=\"0\" name=\".notdef\"/>",
  ascii "    <GlyphID id=\"1\" name=\"backslash\"/>",
  ascii "    <GlyphID id=\"2\" name=\"uni01F3\"/>",
  ascii "    <GlyphID id=\"3\" name=\"smileface\"/>",
  ascii "    <GlyphID id=\"4\" name=\"logo\"/>",
  ascii "    <GlyphID id=\"5\" name=\".null\"/>",
  ascii "    <GlyphID id=\"6\" name=\"zeta\"/>",
  ascii "  </GlyphOrder>"]

/-! ## The lines written by the output loop -/

/-- The lines `writeGlyphOrder` prints, from the index `i` on: each record
without the newline that ends it. -/
def glyphOrderLines (quote : Bytes → Bytes) : Nat → List entry → List Bytes
  | _, [] => []
  | i, e :: es =>
    (ascii "<GlyphID id=\"" ++ sprintfD i ++ ascii "\" name=" ++ quote e.newName ++ ascii "/>")
      :: glyphOrderLines quote (i + 1) es

/-- The lines `writeExtraNames` prints: each record without the newline that
ends it. -/
def extraNamesLines (quote : Bytes → Bytes) : List Bytes → List Bytes
  | [] => []
  | n :: ns => (ascii "<psName name=" ++ quote n ++ ascii "/>") :: extraNamesLines quote ns

/-- The lines the output loop writes, in the order it writes them, from the
state of `emitFrom` on: a line read by the main loop after its rewriting, and
after a start marker the records of its section. -/
def emittedLines (quote : Bytes → Bytes) (p : Plan) : Option Bytes → List Bytes → List Bytes
  | _, [] => []
  | st, l :: ls =>
    if st ≠ none ∧ st ≠ some l then emittedLines quote p st ls
    else
      rewriteLine p.renames l ::
        (if rewriteLine p.renames l = glyphOrderBytes then
          glyphOrderLines quote 0 p.entries ++ emittedLines quote p (some glyphOrderSentinel) ls
        else if rewriteLine p.renames l = extraNamesBytes then
          extraNamesLines quote p.extraNames ++ emittedLines quote p (some extraNamesSentinel) ls
        else emittedLines quote p none ls)

/-- The text of a list of lines, each followed by a newline. -/
def joinLines (ls : List Bytes) : Bytes := (ls.map (fun l => l ++ [newlineByte])).flatten

/-- A file with one glyph record and no start marker. -/
def identityDocument : Bytes := ascii "<ttFont>\n    <GlyphID id=\"0\" name=\".notdef\"/>\n</ttFont>\n"

/-- The plan of `identityDocument` for a decoder without glyphs. -/
def identityPlan : Plan where
  entries := [{ oldID := 0, oldName := ascii ".notdef", newName := ascii ".notdef", r := notSeen }]
  renames := []
  extraNames := []

end Ttfreindex

namespace UpgradeGoFonts

open Ttfreindex (Bytes ascii dropLit mapGet mapSet Renames sprintfD)

/-! ## The program `upgrade-go-fonts-to-v2010`: glyph records -/

/-- The struct `pt`, whose field `on` is `onCurve` here; an `int` has 64
bits. -/
structure pt where
  x : Int
  y : Int
  onCurve : Int
  deriving DecidableEq

/-- The type `contour`. -/
abbrev contour := List pt

/-- The type `glyph`. -/
abbrev glyph := List contour

/-- The ways in which `parseGlyph` stops without returning. -/
inductive Fault where
  /-- The calls `log.Fatalf` and `log.Fatal` of `parseString`. -/
  | fatal
  /-- The run-time fault of `g[len(g)-1]` on an empty `g`. -/
  | indexOutOfRange
  /-- The bound on the iterations of the loop was reached (it never is). -/
  | iterations
  deriving DecidableEq

/-- The call `bytes.IndexByte(b, c)`; `none` stands for the result -1. -/
def indexByte : Bytes → Nat → Option Nat
  | [], _ => none
  | x :: xs, c => if x = c then some 0 else (indexByte xs c).map (fun i => i + 1)

/-- The call `bytes.Index(b, sep)`; `none` stands for the result -1. -/
def index : Bytes → Bytes → Option Nat
  | [], sep => if sep = [] then some 0 else none
  | x :: xs, sep =>
    if (dropLit sep (x :: xs)).isSome then some 0 else (index xs sep).map (fun i => i + 1)

/-- The table `asciiSpace` of the library: tab, newline, vertical tab, form
feed, carriage return, space. -/
def isAsciiSpace (c : Nat) : Bool :=
  decide (c = 9) || decide (c = 10) || decide (c = 11) || decide (c = 12) || decide (c = 13) ||
    decide (c = 32)

/-- The second scan of `bytes.TrimSpace`, on the reversed rest of the slice:
from the end, a byte of 0x80 or more hands the slice over to the slow path,
an ASCII space is dropped, any other byte ends the scan. -/
def trimRight (trimFunc : Bytes → Bytes) : Bytes → Bytes
  | [] => []
  | c :: rev =>
    if 128 ≤ c then trimFunc (c :: rev).reverse
    else if isAsciiSpace c then trimRight trimFunc rev
    else (c :: rev).reverse

/-- The call `bytes.TrimSpace(s)`.  Its slow path, the call
`bytes.TrimFunc(s, unicode.IsSpace)` it makes when it meets a byte of 0x80 or
more, is the function `trimFunc`. -/
def trimSpace (trimFunc : Bytes → Bytes) : Bytes → Bytes
  | [] => []
  | c :: s =>
    if 128 ≤ c then trimFunc (c :: s)
    else if isAsciiSpace c then trimSpace trimFunc s
    else trimRight trimFunc (c :: s).reverse

/-- The loop of `strconv.Atoi` over the digits: `n = n*10 + int(ch)`, and a
syntax error at a byte that is no digit. -/
def digitsValue : Nat → Bytes → Option Nat
  | n, [] => some n
  | n, c :: cs => if 48 ≤ c ∧ c ≤ 57 then digitsValue (n * 10 + (c - 48)) cs else none

/-- The sign that `strconv.Atoi` takes off the front of its argument: whether
it is a minus, and the text after it. -/
def atoiSign : Bytes → Bool × Bytes
  | 45 :: t => (true, t)
  | 43 :: t => (false, t)
  | s => (false, s)

/-- The number `strconv.Atoi` returns for the digits of value `n`, negated
when `neg`: the value itself, or the nearest end of the range of a 64-bit
`int` when the value is out of it. -/
def atoiClamp (neg : Bool) (n : Nat) : Int :=
  if neg then (if 2 ^ 63 < n then -(2 ^ 63) else -(n : Int))
  else (if 2 ^ 63 ≤ n then 2 ^ 63 - 1 else (n : Int))

/-- The value `n` of `n, _ := strconv.Atoi(s)`: an optional sign and decimal
digits give the number, cut to the range of a 64-bit `int`; any other text
gives 0. -/
def atoi (s : Bytes) : Int :=
  if (atoiSign s).2 = [] then 0
  else
    match digitsValue 0 (atoiSign s).2 with
    | none => 0
    | some n => atoiClamp (atoiSign s).1 n

/-- The function `parseString`, with `pfx` for its second parameter; `none`
stands for the fatal exits. -/
def parseString (b pfx : Bytes) : Option Bytes :=
  match index b pfx with
  | none => none
  | some i =>
    let b1 := b.drop (i + pfx.length)
    match indexByte b1 34 with
    | none => none
    | some j => some (b1.take j)

/-- The function `parseInt`. -/
def parseInt (b pfx : Bytes) : Option Int := (parseString b pfx).map atoi

/-- The variable `contour0`. -/
def contour0 : Bytes := ascii "<contour>"

/-- The variable `contour1`. -/
def contour1 : Bytes := ascii "</contour>"

/-- The variable `xQuote`. -/
def xQuote : Bytes := ascii "x=\""

/-- The variable `yQuote`. -/
def yQuote : Bytes := ascii "y=\""

/-- The variable `onQuote`. -/
def onQuote : Bytes := ascii "on=\""

/-- The statements `c := &g[len(g)-1]; *c = append(*c, p)`; `none` stands for
the run-time fault on an empty `g`. -/
def appendLast : glyph → pt → Option glyph
  | [], _ => none
  | [c], p => some [c ++ [p]]
  | c :: d :: cs, p => (appendLast (d :: cs) p).map (fun g => c :: g)

/-- The loop of `parseGlyph`, from the state `b`, `inContour`, `g`.  The first
argument bounds the number of iterations. -/
def parseGlyphLoop (trimFunc : Bytes → Bytes) : Nat → Bytes → Bool → glyph → Except Fault glyph
  | 0, _, _, _ => .error .iterations
  | fuel + 1, b, inContour, g =>
    match indexByte b 10 with
    | none => .ok g
    | some i =>
      let line := trimSpace trimFunc (b.take i)
      let b1 := b.drop (i + 1)
      if !inContour then
        if line = contour0 then parseGlyphLoop trimFunc fuel b1 true (g ++ [[]])
        else parseGlyphLoop trimFunc fuel b1 false g
      else if line = contour1 then parseGlyphLoop trimFunc fuel b1 false g
      else
        match g with
        | [] => .error .indexOutOfRange
        | c0 :: cs =>
          match parseInt line xQuote, parseInt line yQuote, parseInt line onQuote with
          | some x, some y, some o =>
            match appendLast (c0 :: cs) { x := x, y := y, onCurve := o } with
            | none => .error .indexOutOfRange
            | some g1 => parseGlyphLoop trimFunc fuel b1 true g1
          | _, _, _ => .error .fatal

/-- The function `parseGlyph`: every iteration of its loop takes at least one
byte off `b`. -/
def parseGlyph (trimFunc : Bytes → Bytes) (b : Bytes) : Except Fault glyph :=
  parseGlyphLoop trimFunc (b.length + 1) b false []

/-- The variables `first`, `xMin`, `yMin`, `xMax`, `yMax` of `glyph.bounds`. -/
structure Bounds where
  first : Bool
  xMin : Int
  yMin : Int
  xMax : Int
  yMax : Int
  deriving DecidableEq

/-- The body of the inner loop of `glyph.bounds`, at the point `p`. -/
def boundsStep (s : Bounds) (p : pt) : Bounds :=
  if s.first then { first := false, xMin := p.x, yMin := p.y, xMax := p.x, yMax := p.y }
  else
    { first := false,
      xMin := if s.xMin > p.x then p.x else s.xMin,
      yMin := if s.yMin > p.y then p.y else s.yMin,
      xMax := if s.xMax < p.x then p.x else s.xMax,
      yMax := if s.yMax < p.y then p.y else s.yMax }

/-- The method `glyph.bounds`. -/
def bounds (g : glyph) : Bounds :=
  g.foldl (fun s c => c.foldl boundsStep s)
    { first := true, xMin := 0, yMin := 0, xMax := 0, yMax := 0 }

/-- The verb `%d` applied to an `int`. -/
def sprintfInt (n : Int) : Bytes :=
  if n < 0 then 45 :: sprintfD n.natAbs else sprintfD n.toNat

/-- The line `render` writes for the point `p`. -/
def renderPt (p : pt) : Bytes :=
  ascii "        <pt x=\"" ++ sprintfInt p.x ++ ascii "\" y=\"" ++ sprintfInt p.y ++
    ascii "\" on=\"" ++ sprintfInt p.onCurve ++ ascii "\"/>\n"

/-- The lines `render` writes for the contour `c`. -/
def renderContour (c : contour) : Bytes :=
  ascii "      <contour>\n" ++ (c.map renderPt).flatten ++ ascii "      </contour>\n"

/-- The method `glyph.render`. -/
def render (g : glyph) (name : Bytes) : Bytes :=
  ascii "    <TTGlyph name=\"" ++ name ++ ascii "\" xMin=\"" ++ sprintfInt (bounds g).xMin ++
    ascii "\" yMin=\"" ++ sprintfInt (bounds g).yMin ++ ascii "\" xMax=\"" ++
    sprintfInt (bounds g).xMax ++ ascii "\" yMax=\"" ++ sprintfInt (bounds g).yMax ++
    ascii "\">\n" ++ (g.map renderContour).flatten ++
    ascii "      <instructions/>\n    </TTGlyph>\n\n"

/-- The value `glyf[key]` of the map `glyf`: empty for a key the map lacks. -/
def glyfGet (glyf : Renames) (key : Bytes) : Bytes := (mapGet glyf key).getD []

/-- The function `swapUAcuteCircumflex`, returning the map it has updated. -/
def swapUAcuteCircumflex (trimFunc : Bytes → Bytes) (glyf : Renames) : Except Fault Renames :=
  match parseGlyph trimFunc (glyfGet glyf (ascii "uacute")) with
  | .error f => .error f
  | .ok g0 =>
    match parseGlyph trimFunc (glyfGet glyf (ascii "ucircumflex")) with
    | .error f => .error f
    | .ok g1 =>
      .ok (mapSet (mapSet glyf (ascii "uacute") (render g1 (ascii "uacute")))
        (ascii "ucircumflex") (render g0 (ascii "ucircumflex")))

/-- The loop of `parseGlyph` gets from the state `b`, `ic`, `g` to the state
`b1`, `ic1`, `g1` within its bound on the iterations. -/
def Steps (trimFunc : Bytes → Bytes) (b : Bytes) (ic : Bool) (g : glyph) (b1 : Bytes)
    (ic1 : Bool) (g1 : glyph) : Prop :=
  ∀ fuel, b.length < fuel → ∃ fuel1, b1.length < fuel1 ∧
    parseGlyphLoop trimFunc fuel b ic g = parseGlyphLoop trimFunc fuel1 b1 ic1 g1

/-- The line `render` writes for the point `p`, without its indentation and
its newline. -/
def ptCore (p : pt) : Bytes :=
  ascii "<pt x=\"" ++ sprintfInt p.x ++ ascii "\" y=\"" ++ sprintfInt p.y ++
    ascii "\" on=\"" ++ sprintfInt p.onCurve ++ ascii "\"/>"

/-- Whether the three numbers of a point are in the range of a 64-bit `int`. -/
def inRange (p : pt) : Prop :=
  (-(2 ^ 63) ≤ p.x ∧ p.x < 2 ^ 63) ∧ (-(2 ^ 63) ≤ p.y ∧ p.y < 2 ^ 63) ∧
    (-(2 ^ 63) ≤ p.onCurve ∧ p.onCurve < 2 ^ 63)

/-- A map `glyf` with a record for `uacute` and one for `ucircumflex`, each of
one contour with one point. -/
def exampleGlyf : Renames := [
  (ascii "uacute", render [[{ x := 1, y := 2, onCurve := 1 }]] (ascii "uacute")),
  (ascii "ucircumflex", render [[{ x := -3, y := 4, onCurve := 0 }]] (ascii "ucircumflex"))]

/-! ## Bounds, `nudge` and `writeMap` -/

/-- The method `contour.bounds`. -/
def contourBounds (c : contour) : Bounds :=
  c.foldl boundsStep { first := true, xMin := 0, yMin := 0, xMax := 0, yMax := 0 }

/-- The value an `int` of 64 bits holds after an addition whose exact result
is `v`: the result modulo 2^64, in the range from -2^63 to 2^63 - 1. -/
def wrapInt (v : Int) : Int := (v + 2 ^ 63) % 2 ^ 64 - 2 ^ 63

/-- The method `contour.nudge`, returning the contour it has updated. -/
def nudge (c : contour) (dx dy : Int) : contour :=
  c.map (fun p => { p with x := wrapInt (p.x + dx), y := wrapInt (p.y + dy) })

/-- The keys of the map, each once: the keys the loop `for k := range m`
meets, in the order of the list that stands for the map. -/
def mapKeys : Renames → List Bytes
  | [] => []
  | (k, _) :: m => if k ∈ mapKeys m then mapKeys m else k :: mapKeys m

/-- The function `writeMap`, returning the buffer.  The slice `keys` is the one
the loop `for k := range m` has built, the keys of `m` in the order in which
the iteration over the map gave them. -/
def writeMap (keys : List Bytes) (w : Bytes) (m : Renames) : Bytes :=
  w ++ ((Ttfreindex.sortStrings keys).map (fun k => glyfGet m k)).flatten

/-- The bounds `b` are those of the points `pts`: each of the four numbers is
reached by a point and no point is outside them. -/
def IsBox (b : Bounds) (pts : List pt) : Prop :=
  b.first = false ∧
  (∀ p ∈ pts, b.xMin ≤ p.x ∧ p.x ≤ b.xMax ∧ b.yMin ≤ p.y ∧ p.y ≤ b.yMax) ∧
  (∃ p ∈ pts, p.x = b.xMin) ∧ (∃ p ∈ pts, p.y = b.yMin) ∧
  (∃ p ∈ pts, p.x = b.xMax) ∧ (∃ p ∈ pts, p.y = b.yMax)

/-- The bounds `b` moved by `dx` and `dy`. -/
def shiftBounds (b : Bounds) (dx dy : Int) : Bounds :=
  { first := b.first, xMin := b.xMin + dx, yMin := b.yMin + dy, xMax := b.xMax + dx,
    yMax := b.yMax + dy }

/-- A glyph with three contours, one of them empty, and negative numbers. -/
def exampleGlyph : glyph :=
  [[{ x := 1, y := -2, onCurve := 1 }, { x := 30, y := 40, onCurve := 0 }], [],
    [{ x := -5, y := 6, onCurve := 1 }]]

end UpgradeGoFonts

namespace Wgl4SideBySide

/-! ## The program `wgl4-side-by-side` -/

/-- The constant `largeHeight`. -/
def largeHeight : Int := 64

/-- The constant `yMax` of `do`. -/
def yMax : Int := 9216

/-- The variable `repertoire`. -/
def repertoire : List Int := [
  0x0021, 0x0022, 0x0023, 0x0024, 0x0025, 0x0026, 0x0027, 0x0028,
  0x0029, 0x002a, 0x002b, 0x002c, 0x002d, 0x002e, 0x002f, 0x0030,
  0x0031, 0x0032, 0x0033, 0x0034, 0x0035, 0x0036, 0x0037, 0x0038,
  0x0039, 0x003a, 0x003b, 0x003c, 0x003d, 0x003e, 0x003f, 0x0040,
  0x0041, 0x0042, 0x0043, 0x0044, 0x0045, 0x0046, 0x0047, 0x0048,
  0x0049, 0x004a, 0x004b, 0x004c, 0x004d, 0x004e, 0x004f, 0x0050,
  0x0051, 0x0052, 0x0053, 0x0054, 0x0055, 0x0056, 0x0057, 0x0058,
  0x0059, 0x005a, 0x005b, 0x005c, 0x005d, 0x005e, 0x005f, 0x0060,
  0x0061, 0x0062, 0x0063, 0x0064, 0x0065, 0x0066, 0x0067, 0x0068,
  0x0069, 0x006a, 0x006b, 0x006c, 0x006d, 0x006e, 0x006f, 0x0070,
  0x0071, 0x0072, 0x0073, 0x0074, 0x0075, 0x0076, 0x0077, 0x0078,
  0x0079, 0x007a, 0x007b, 0x007c, 0x007d, 0x007e, 0x00a1, 0x00a2,
  0x00a3, 0x00a4, 0x00a5, 0x00a6, 0x00a7, 0x00a8, 0x00a9, 0x00aa,
  0x00ab, 0x00ac, 0x00ae, 0x00af, 0x00b0, 0x00b1, 0x00b2, 0x00b3,
  0x00b4, 0x00b5, 0x00b6, 0x00b7, 0x00b8, 0x00b9, 0x00ba, 0x00bb,
  0x00bc, 0x00bd, 0x00be, 0x00bf, 0x00c0, 0x00c1, 0x00c2, 0x00c3,
  0x00c4, 0x00c5, 0x00c6, 0x00c7, 0x00c8, 0x00c9, 0x00ca, 0x00cb,
  0x00cc, 0x00cd, 0x00ce, 0x00cf, 0x00d0, 0x00d1, 0x00d2, 0x00d3,
  0x00d4, 0x00d5, 0x00d6, 0x00d7, 0x00d8, 0x00d9, 0x00da, 0x00db,
  0x00dc, 0x00dd, 0x00de, 0x00df, 0x00e0, 0x00e1, 0x00e2, 0x00e3,
  0x00e4, 0x00e5, 0x00e6, 0x00e7, 0x00e8, 0x00e9, 0x00ea, 0x00eb,
  0x00ec, 0x00ed, 0x00ee, 0x00ef, 0x00f0, 0x00f1, 0x00f2, 0x00f3,
  0x00f4, 0x00f5, 0x00f6, 0x00f7, 0x00f8, 0x00f9, 0x00fa, 0x00fb,
  0x00fc, 0x00fd, 0x00fe, 0x00ff, 0x0100, 0x0101, 0x0102, 0x0103,
  0x0104, 0x0105, 0x0106, 0x0107, 0x0108, 0x0109, 0x010a, 0x010b,
  0x010c, 0x010d, 0x010e, 0x010f, 0x0110, 0x0111, 0x0112, 0x0113,
  0x0114, 0x0115, 0x0116, 0x0117, 0x0118, 0x0119, 0x011a, 0x011b,
  0x011c, 0x011d, 0x011e, 0x011f, 0x0120, 0x0121, 0x0122, 0x0123,
  0x0124, 0x0125, 0x0126, 0x0127, 0x0128, 0x0129, 0x012a, 0x012b,
  0x012c, 0x012d, 0x012e, 0x012f, 0x0130, 0x0131, 0x0132, 0x0133,
  0x0134, 0x0135, 0x0136, 0x0137, 0x0138, 0x0139, 0x013a, 0x013b,
  0x013c, 0x013d, 0x013e, 0x013f, 0x0140, 0x0141, 0x0142, 0x0143,
  0x0144, 0x0145, 0x0146, 0x0147, 0x0148, 0x0149, 0x014a, 0x014b,
  0x014c, 0x014d, 0x014e, 0x014f, 0x0150, 0x0151, 0x0152, 0x0153,
  0x0154, 0x0155, 0x0156, 0x0157, 0x0158, 0x0159, 0x015a, 0x015b,
  0x015c, 0x015d, 0x015e, 0x015f, 0x0160, 0x0161, 0x0162, 0x0163,
  0x0164, 0x0165, 0x0166, 0x0167, 0x0168, 0x0169, 0x016a, 0x016b,
  0x016c, 0x016d, 0x016e, 0x016f, 0x0170, 0x0171, 0x0172, 0x0173,
  0x0174, 0x0175, 0x0176, 0x0177, 0x0178, 0x0179, 0x017a, 0x017b,
  0x017c, 0x017d, 0x017e, 0x017f, 0x0192, 0x01fa, 0x01fb, 0x01fc,
  0x01fd, 0x01fe, 0x01ff, 0x02c6, 0x02c7, 0x02c9, 0x02d8, 0x02d9,
  0x02da, 0x02db, 0x02dc, 0x02dd, 0x0384, 0x0385, 0x0386, 0x0387,
  0x0388, 0x0389, 0x038a, 0x038c, 0x038e, 0x038f, 0x0390, 0x0391,
  0x0392, 0x0393, 0x0394, 0x0395, 0x0396, 0x0397, 0x0398, 0x0399,
  0x039a, 0x039b, 0x039c, 0x039d, 0x039e, 0x039f, 0x03a0, 0x03a1,
  0x03a3, 0x03a4, 0x03a5, 0x03a6, 0x03a7, 0x03a8, 0x03a9, 0x03aa,
  0x03ab, 0x03ac, 0x03ad, 0x03ae, 0x03af, 0x03b0, 0x03b1, 0x03b2,
  0x03b3, 0x03b4, 0x03b5, 0x03b6, 0x03b7, 0x03b8, 0x03b9, 0x03ba,
  0x03bb, 0x03bc, 0x03bd, 0x03be, 0x03bf, 0x03c0, 0x03c1, 0x03c2,
  0x03c3, 0x03c4, 0x03c5, 0x03c6, 0x03c7, 0x03c8, 0x03c9, 0x03ca,
  0x03cb, 0x03cc, 0x03cd, 0x03ce, 0x0400, 0x0401, 0x0402, 0x0403,
  0x0404, 0x0405, 0x0406, 0x0407, 0x0408, 0x0409, 0x040a, 0x040b,
  0x040c, 0x040d, 0x040e, 0x040f, 0x0410, 0x0411, 0x0412, 0x0413,
  0x0414, 0x0415, 0x0416, 0x0417, 0x0418, 0x0419, 0x041a, 0x041b,
  0x041c, 0x041d, 0x041e, 0x041f, 0x0420, 0x0421, 0x0422, 0x0423,
  0x0424, 0x0425, 0x0426, 0x0427, 0x0428, 0x0429, 0x042a, 0x042b,
  0x042c, 0x042d, 0x042e, 0x042f, 0x0430, 0x0431, 0x0432, 0x0433,
  0x0434, 0x0435, 0x0436, 0x0437, 0x0438, 0x0439, 0x043a, 0x043b,
  0x043c, 0x043d, 0x043e, 0x043f, 0x0440, 0x0441, 0x0442, 0x0443,
  0x0444, 0x0445, 0x0446, 0x0447, 0x0448, 0x0449, 0x044a, 0x044b,
  0x044c, 0x044d, 0x044e, 0x044f, 0x0450, 0x0451, 0x0452, 0x0453,
  0x0454, 0x0455, 0x0456, 0x0457, 0x0458, 0x0459, 0x045a, 0x045b,
  0x045c, 0x045d, 0x045e, 0x045f, 0x0490, 0x0491, 0x1e80, 0x1e81,
  0x1e82, 0x1e83, 0x1e84, 0x1e85, 0x1ef2, 0x1ef3, 0x2013, 0x2014,
  0x2015, 0x2017, 0x2018, 0x2019, 0x201a, 0x201b, 0x201c, 0x201d,
  0x201e, 0x2020, 0x2021, 0x2022, 0x2026, 0x2030, 0x2032, 0x2033,
  0x2039, 0x203a, 0x203c, 0x203e, 0x2044, 0x207f, 0x20a3, 0x20a4,
  0x20a7, 0x20ac, 0x2105, 0x2113, 0x2116, 0x2122, 0x212e, 0x215b,
  0x215c, 0x215d, 0x215e, 0x2190, 0x2191, 0x2192, 0x2193, 0x2194,
  0x2195, 0x21a8, 0x2202, 0x2206, 0x220f, 0x2211, 0x2212, 0x2215,
  0x2219, 0x221a, 0x221e, 0x221f, 0x2229, 0x222b, 0x2248, 0x2260,
  0x2261, 0x2264, 0x2265, 0x2302, 0x2310, 0x2320, 0x2321, 0x2500,
  0x2502, 0x250c, 0x2510, 0x2514, 0x2518, 0x251c, 0x2524, 0x252c,
  0x2534, 0x253c, 0x2550, 0x2551, 0x2552, 0x2553, 0x2554, 0x2555,
  0x2556, 0x2557, 0x2558, 0x2559, 0x255a, 0x255b, 0x255c, 0x255d,
  0x255e, 0x255f, 0x2560, 0x2561, 0x2562, 0x2563, 0x2564, 0x2565,
  0x2566, 0x2567, 0x2568, 0x2569, 0x256a, 0x256b, 0x256c, 0x2580,
  0x2584, 0x2588, 0x258c, 0x2590, 0x2591, 0x2592, 0x2593, 0x25a0,
  0x25a1, 0x25aa, 0x25ab, 0x25ac, 0x25b2, 0x25ba, 0x25bc, 0x25c4,
  0x25ca, 0x25cb, 0x25cf, 0x25d8, 0x25d9, 0x25e6, 0x263a, 0x263b,
  0x263c, 0x2640, 0x2642, 0x2660, 0x2663, 0x2665, 0x2666, 0x266a,
  0x266b, 0xf800, 0xfb01, 0xfb02, 0xfffd]

/-- The slice `cuts` of `main`. -/
def cuts : List Int := [0x0080, 0x0100, 0x0200, 0x0400, 0x1000, 0x2500, 0xFFFF]

/-- The calls `do(prevCut, cut)` of the loop of `main` over the cuts, as the
pairs of their arguments, in order. -/
def doCalls : Int → List Int → List (Int × Int)
  | _, [] => []
  | prevCut, cut :: rest => (prevCut, cut) :: doCalls cut rest

/-- The calls of `do` that `main` makes: the loop starts with `prevCut` 0. -/
def mainCalls : List (Int × Int) := doCalls 0 cuts

/-- The loop of `do` over the code points `cs`, with the variable `y`: the rows
drawn, each as the code point and the `y` at which it is drawn. -/
def rowsFrom (lo hi : Int) : List Int → Int → List (Int × Int)
  | [], _ => []
  | c :: cs, y =>
    if c < lo ∨ hi ≤ c then rowsFrom lo hi cs y
    else (c, y) :: rowsFrom lo hi cs (y + largeHeight)

/-- The rows `do(lo, hi)` draws: the loop over `repertoire`, from `y` 64. -/
def rows (lo hi : Int) : List (Int × Int) := rowsFrom lo hi repertoire 64

end Wgl4SideBySide

namespace Ttfreindex

/-! ## The order of `byR` -/

theorem bytesLess_irrefl (a : Bytes) : bytesLess a a = false := by
  induction a with
  | nil => rfl
  | cons x xs ih => simp [bytesLess, ih]

theorem bytesLess_asymm : ∀ (a b : Bytes), bytesLess a b = true → bytesLess b a = false
  | [], [], h => by simp [bytesLess] at h
  | [], _ :: _, _ => by simp [bytesLess]
  | _ :: _, [], h => by simp [bytesLess] at h
  | x :: xs, y :: ys, h => by
    simp only [bytesLess] at h ⊢
    by_cases h1 : x < y
    · have h2 : ¬ y < x := by omega
      simp [h1, h2]
    · by_cases h2 : y < x
      · simp [h1, h2] at h
      · simp only [h1, h2, if_false] at h ⊢
        exact bytesLess_asymm xs ys h

theorem bytesLess_trans : ∀ (a b c : Bytes), bytesLess a b = true → bytesLess b c = true →
    bytesLess a c = true
  | [], _, [], _, h2 => by cases ‹Bytes› <;> simp [bytesLess] at h2
  | [], _, _ :: _, _, _ => by simp [bytesLess]
  | _ :: _, [], _, h1, _ => by simp [bytesLess] at h1
  | _ :: _, _ :: _, [], _, h2 => by simp [bytesLess] at h2
  | x :: xs, y :: ys, z :: zs, h1, h2 => by
    simp only [bytesLess] at h1 h2 ⊢
    by_cases hxy : x < y
    · by_cases hyz : y < z
      · have : x < z := by omega
        simp [this]
      · by_cases hzy : z < y
        · simp [hyz, hzy] at h2
        · have : x < z := by omega
          simp [this]
    · by_cases hyx : y < x
      · simp [hxy, hyx] at h1
      · simp only [hxy, hyx, if_false] at h1
        have hxy' : x = y := by omega
        subst hxy'
        by_cases hxz : x < z
        · simp [hxz]
        · by_cases hzx : z < x
          · simp [hxz, hzx] at h2
          · simp only [hxz, hzx, if_false] at h2 ⊢
            exact bytesLess_trans xs ys zs h1 h2

theorem bytesLess_total : ∀ (a b : Bytes), bytesLess a b = false → bytesLess b a = false → a = b
  | [], [], _, _ => rfl
  | [], _ :: _, h, _ => by simp [bytesLess] at h
  | _ :: _, [], _, h => by simp [bytesLess] at h
  | x :: xs, y :: ys, h1, h2 => by
    simp only [bytesLess] at h1 h2
    by_cases hxy : x < y
    · simp [hxy] at h1
    · by_cases hyx : y < x
      · simp [hyx] at h2
      · simp only [hxy, hyx, if_false] at h1 h2
        have : x = y := by omega
        rw [this, bytesLess_total xs ys h1 h2]

theorem byRLess_iff (x y : entry) :
    byRLess x y = true ↔ x.r < y.r ∨ (x.r = y.r ∧ bytesLess x.oldName y.oldName = true) := by
  unfold byRLess
  by_cases h : x.r = y.r
  · simp [h]
  · simp only [ne_eq, h, not_false_eq_true, if_true, decide_eq_true_eq, false_and, or_false]

theorem byRLess_irrefl (x : entry) : byRLess x x = false := by
  cases h : byRLess x x
  · rfl
  · rw [byRLess_iff] at h
    rcases h with h | ⟨_, h⟩
    · omega
    · rw [bytesLess_irrefl] at h; cases h

theorem byRLess_asymm (x y : entry) (h : byRLess x y = true) : byRLess y x = false := by
  cases h' : byRLess y x
  · rfl
  · rw [byRLess_iff] at h h'
    rcases h with h | ⟨h1, h2⟩ <;> rcases h' with h' | ⟨h3, h4⟩
    · omega
    · omega
    · omega
    · rw [bytesLess_asymm _ _ h2] at h4; cases h4

/-- Negative transitivity: the relation "not less" of `byR` is transitive. -/
theorem byRLess_negTrans (x y z : entry) (h1 : byRLess y x = false) (h2 : byRLess z y = false) :
    byRLess z x = false := by
  cases h : byRLess z x
  · rfl
  · exfalso
    rw [byRLess_iff] at h
    have n1 : ¬ (y.r < x.r ∨ (y.r = x.r ∧ bytesLess y.oldName x.oldName = true)) := by
      rw [← byRLess_iff, h1]; simp
    have n2 : ¬ (z.r < y.r ∨ (z.r = y.r ∧ bytesLess z.oldName y.oldName = true)) := by
      rw [← byRLess_iff, h2]; simp
    simp only [not_or, not_and, not_lt, Bool.not_eq_true] at n1 n2
    rcases h with h | ⟨h3, h4⟩
    · omega
    · have e1 : y.r = x.r := by omega
      have e2 : z.r = y.r := by omega
      have b1 := n1.2 e1
      have b2 := n2.2 e2
      -- z.oldName < x.oldName, not y < x, not z < y
      cases hyz : bytesLess y.oldName z.oldName
      · have := bytesLess_total _ _ hyz b2
        rw [this] at b1
        rw [b1] at h4; cases h4
      · have := bytesLess_trans _ _ _ hyz h4
        rw [b1] at this; cases this

theorem insertByR_perm (e : entry) (xs : List entry) : (insertByR e xs).Perm (e :: xs) := by
  induction xs with
  | nil => exact List.Perm.refl _
  | cons x xs ih =>
    unfold insertByR
    split
    · exact (List.Perm.cons x ih).trans (List.Perm.swap e x xs)
    · exact List.Perm.refl _

theorem sortByR_perm (xs : List entry) : (sortByR xs).Perm xs := by
  induction xs with
  | nil => exact List.Perm.refl _
  | cons x xs ih => exact (insertByR_perm x (sortByR xs)).trans (List.Perm.cons x ih)

theorem insertByR_sorted (e : entry) (xs : List entry)
    (h : xs.Pairwise (fun a b => byRLess b a = false)) :
    (insertByR e xs).Pairwise (fun a b => byRLess b a = false) := by
  induction xs with
  | nil => simp [insertByR]
  | cons x xs ih =>
    rw [List.pairwise_cons] at h
    unfold insertByR
    by_cases hx : byRLess x e = true
    · simp only [hx, if_true]
      rw [List.pairwise_cons]
      refine ⟨?_, ih h.2⟩
      intro y hy
      rcases List.mem_cons.1 ((insertByR_perm e xs).mem_iff.1 hy) with rfl | hy
      · exact byRLess_asymm _ _ hx
      · exact h.1 y hy
    · simp only [hx]
      rw [Bool.not_eq_true] at hx
      rw [if_neg (by simp), List.pairwise_cons]
      refine ⟨?_, List.pairwise_cons.2 h⟩
      intro y hy
      rcases List.mem_cons.1 hy with rfl | hy
      · exact hx
      · exact byRLess_negTrans _ _ _ hx (h.1 y hy)

theorem sortByR_sorted (xs : List entry) :
    (sortByR xs).Pairwise (fun a b => byRLess b a = false) := by
  induction xs with
  | nil => exact List.Pairwise.nil
  | cons x xs ih => exact insertByR_sorted x _ ih

/-- In a slice ordered by `byR`, an element that is `Less` than another one
stands before it. -/
theorem sorted_position (l : List entry) (h : l.Pairwise (fun a b => byRLess b a = false))
    (i j : Nat) (g1 g2 : entry) (h1 : l[i]? = some g1) (h2 : l[j]? = some g2)
    (hl : byRLess g1 g2 = true) : i < j := by
  by_contra hij
  rw [List.pairwise_iff_getElem] at h
  obtain ⟨hi, e1⟩ := List.getElem?_eq_some.1 h1
  obtain ⟨hj, e2⟩ := List.getElem?_eq_some.1 h2
  rcases Nat.lt_or_eq_of_le (Nat.le_of_not_lt hij) with hlt | heq
  · have := h j i hj hi hlt
    rw [e1, e2, hl] at this; cases this
  · subst heq
    rw [e1] at e2; subst e2
    rw [byRLess_irrefl] at hl; cases hl

/-! ## The loaded entries -/

theorem fresh_append (acc : List entry) (name : Bytes) (h : Fresh acc) :
    Fresh (acc ++ [{ oldID := acc.length, oldName := name, newName := name, r := notSeen }]) := by
  intro i e hi
  by_cases hlt : i < acc.length
  · rw [List.getElem?_append_left hlt] at hi
    exact h i e hi
  · rw [List.getElem?_append_right (Nat.le_of_not_lt hlt)] at hi
    have hi0 : i - acc.length = 0 := by
      by_contra hne
      obtain ⟨k, hk⟩ := Nat.exists_eq_succ_of_ne_zero hne
      rw [hk] at hi
      simp at hi
    rw [hi0] at hi
    simp only [List.getElem?_cons_zero, Option.some.injEq] at hi
    subst hi
    exact ⟨by show acc.length = i; omega, rfl, rfl⟩

theorem loadEntries_fresh : ∀ (ls : List Bytes) (acc : List entry), Fresh acc →
    Fresh (loadEntries ls acc)
  | [], acc, h => by simpa [loadEntries] using h
  | l :: ls, acc, h => by
    unfold loadEntries
    have h1 : Fresh (match glyphIDRegExpFind l with
        | some name => acc ++ [{ oldID := acc.length, oldName := name, newName := name, r := notSeen }]
        | none => acc) := by
      cases glyphIDRegExpFind l with
      | none => exact h
      | some name => exact fresh_append acc name h
    by_cases hs : l = glyphOrderSentinel
    · simpa [hs] using (by simpa [hs] using h1)
    · simp only [hs, if_false]
      exact loadEntries_fresh ls _ h1

theorem fresh_loaded (lines : List Bytes) : Fresh (loadEntries lines []) :=
  loadEntries_fresh lines [] (by intro i e h; simp at h)

theorem fresh_map_oldID (l : List entry) (h : Fresh l) : l.map entry.oldID = List.range l.length := by
  apply List.ext_getElem?
  intro i
  by_cases hi : i < l.length
  · rw [List.getElem?_map, List.getElem?_range hi, List.getElem?_eq_getElem hi]
    simp only [Option.map_some', Option.some.injEq]
    exact (h i l[i] (List.getElem?_eq_getElem hi)).1
  · have hi' : l.length ≤ i := Nat.le_of_not_lt hi
    rw [List.getElem?_eq_none (by simpa using hi'), List.getElem?_eq_none (by simpa using hi')]

/-! ## The resolver loop -/

theorem set_split {α : Type} : ∀ (l : List α) (x : Nat) (e e1 : α), l[x]? = some e →
    ∃ l1 l2, l = l1 ++ e :: l2 ∧ l.set x e1 = l1 ++ e1 :: l2 ∧ l1.length = x
  | [], x, e, e1, h => by simp at h
  | a :: l, 0, e, e1, h => by
    simp only [List.getElem?_cons_zero, Option.some.injEq] at h
    subst h
    exact ⟨[], l, rfl, rfl, rfl⟩
  | a :: l, x + 1, e, e1, h => by
    simp only [List.getElem?_cons_succ] at h
    obtain ⟨l1, l2, h1, h2, h3⟩ := set_split l x e e1 h
    refine ⟨a :: l1, l2, ?_, ?_, ?_⟩
    · rw [h1]; rfl
    · rw [List.set_cons_succ, h2]; rfl
    · simp [h3]

/-- What one iteration of the resolver loop does when it goes through: either
nothing, or it resolves the unresolved entry `x` at `r`. -/
theorem resolveStep_ok (gi : Int → Option Nat) (st st1 : ResolveState) (r : Int)
    (h : resolveStep gi st r = .ok st1) :
    ∃ x, gi r = some x ∧
      ((st1 = st ∧ (x = 0 ∨ ∃ e, st.entries[x]? = some e ∧ e.r ≠ notSeen)) ∨
       (x ≠ 0 ∧ ∃ e, st.entries[x]? = some e ∧ e.r = notSeen ∧
          ((inPrivateUse r ∧ st1.entries = st.entries.set x { e with r := r } ∧
              st1.renames = st.renames) ∨
           (¬ inPrivateUse r ∧
              st1.entries = st.entries.set x { e with r := r, newName := canonicalName r } ∧
              st1.renames = (if e.oldName ≠ canonicalName r
                then mapSet st.renames e.oldName (canonicalName r) else st.renames))))) := by
  unfold resolveStep at h
  cases hg : gi r with
  | none => simp [hg] at h
  | some x =>
    refine ⟨x, rfl, ?_⟩
    simp only [hg] at h
    by_cases hx : x = 0
    · simp only [hx, if_true, Except.ok.injEq] at h
      exact Or.inl ⟨h.symm, Or.inl hx⟩
    · simp only [hx, if_false] at h
      cases he : st.entries[x]? with
      | none => simp [he] at h
      | some e =>
        simp only [he] at h
        by_cases hr : e.r = notSeen
        · simp only [hr, ne_eq, not_true_eq_false, if_false] at h
          refine Or.inr ⟨hx, e, rfl, hr, ?_⟩
          by_cases hp : (0xE000 : Int) ≤ r ∧ r ≤ 0xF8FF
          · rw [if_pos hp] at h
            simp only [Except.ok.injEq] at h
            subst h
            exact Or.inl ⟨hp, rfl, rfl⟩
          · rw [if_neg hp] at h
            simp only [Except.ok.injEq] at h
            subst h
            exact Or.inr ⟨hp, rfl, rfl⟩
        · simp only [ne_eq, hr, not_false_eq_true, if_true, Except.ok.injEq] at h
          exact Or.inl ⟨h.symm, Or.inr ⟨e, rfl, hr⟩⟩

theorem resolveInv_init (gi : Int → Option Nat) (init : List entry) (h : Fresh init) :
    ResolveInv gi init [] { entries := init, renames := [] } where
  len := rfl
  ids := rfl
  unseen := by
    intro x e hx _
    exact ⟨(h x e hx).2.1, by intro _ r hr; simp at hr⟩
  seen := by
    intro x e hx hr
    exact absurd (h x e hx).2.2 hr
  ren := by
    have : init.filter renamed = [] := by
      rw [List.filter_eq_nil_iff]
      intro e he
      obtain ⟨i, hi, rfl⟩ := List.getElem_of_mem he
      have := (h i init[i] (List.getElem?_eq_getElem hi)).2.1
      simp [renamed, this]
    simp [this]

theorem resolveInv_step (gi : Int → Option Nat) (init : List entry) (done : List Int)
    (st st1 : ResolveState) (r : Int) (hr : r ≠ notSeen)
    (hI : ResolveInv gi init done st) (h : resolveStep gi st r = .ok st1) :
    ResolveInv gi init (done ++ [r]) st1 := by
  obtain ⟨x, hg, hcase⟩ := resolveStep_ok gi st st1 r h
  rcases hcase with ⟨rfl, hx⟩ | ⟨hx0, e, he, her, hcase⟩
  · -- nothing changes
    refine ⟨hI.len, hI.ids, ?_, ?_, hI.ren⟩
    · intro y ey hy hyr
      refine ⟨(hI.unseen y ey hy hyr).1, ?_⟩
      intro hy0 r1 hr1
      rcases List.mem_append.1 hr1 with hr1 | hr1
      · exact (hI.unseen y ey hy hyr).2 hy0 r1 hr1
      · rw [List.mem_singleton] at hr1
        subst hr1
        rw [hg]
        intro hxy
        simp only [Option.some.injEq] at hxy
        subst hxy
        rcases hx with hx | ⟨e, he, her⟩
        · exact hy0 hx
        · rw [hy] at he
          simp only [Option.some.injEq] at he
          subst he
          exact her hyr
    · intro y ey hy hyr
      obtain ⟨h1, h2, ⟨a, b, h3, h4⟩, h5⟩ := hI.seen y ey hy hyr
      exact ⟨h1, h2, ⟨a, b ++ [r], by rw [h3]; simp, h4⟩, h5⟩
  · -- the entry `x` is resolved at `r`
    have hold := hI.unseen x e he her
    -- both cases write an entry with the same identity, code point `r` and a new name
    obtain ⟨e1, hent, hren, he1id, he1r, he1n, hrenamed⟩ :
        ∃ e1 : entry, st1.entries = st.entries.set x e1 ∧
          st1.renames.Perm (if renamed e1 then renamePair e1 :: st.renames else st.renames) ∧
          (e1.oldID, e1.oldName) = (e.oldID, e.oldName) ∧ e1.r = r ∧
          e1.newName = (if inPrivateUse r then e1.oldName else canonicalName r) ∧
          renamed e = false := by
      have hre : renamed e = false := by simp [renamed, hold.1]
      rcases hcase with ⟨hp, h1, h2⟩ | ⟨hp, h1, h2⟩
      · refine ⟨{ e with r := r }, h1, ?_, rfl, rfl, ?_, hre⟩
        · have : renamed { e with r := r } = false := by simp [renamed, hold.1]
          rw [this, h2]; simp
        · show e.newName = if inPrivateUse r then e.oldName else canonicalName r
          rw [if_pos hp]
          exact hold.1
      · refine ⟨{ e with r := r, newName := canonicalName r }, h1, ?_, rfl, rfl, ?_, hre⟩
        · rw [h2]
          by_cases hn : e.oldName = canonicalName r
          · have : renamed { e with r := r, newName := canonicalName r } = false := by
              simp [renamed, hn]
            rw [this]; simp [hn]
          · have : renamed { e with r := r, newName := canonicalName r } = true := by
              simp only [renamed, ne_eq, decide_eq_true_eq]
              exact fun h => hn h.symm
            rw [this]
            simp [hn, mapSet, renamePair]
        · show canonicalName r = if inPrivateUse r then e.oldName else canonicalName r
          rw [if_neg hp]
    obtain ⟨l1, l2, hl, hset, hlen⟩ := set_split st.entries x e e1 he
    have hget : ∀ (y : Nat), st1.entries[y]? = if y = x then some e1 else st.entries[y]? := by
      intro y
      rw [hent, List.getElem?_set]
      by_cases hxy : x = y
      · subst hxy
        have : x < st.entries.length := (List.getElem?_eq_some.1 he).1
        simp [this]
      · have : ¬ y = x := fun h => hxy h.symm
        simp [hxy, this]
    refine ⟨?_, ?_, ?_, ?_, ?_⟩
    · rw [hent, List.length_set]; exact hI.len
    · rw [← hI.ids, hent, hset, hl]
      simp [he1id]
    · intro y ey hy hyr
      rw [hget] at hy
      by_cases hyx : y = x
      · simp only [hyx, if_true, Option.some.injEq] at hy
        subst hy
        exact absurd (he1r ▸ hyr) hr
      · simp only [hyx, if_false] at hy
        refine ⟨(hI.unseen y ey hy hyr).1, ?_⟩
        intro hy0 r1 hr1
        rcases List.mem_append.1 hr1 with hr1 | hr1
        · exact (hI.unseen y ey hy hyr).2 hy0 r1 hr1
        · rw [List.mem_singleton] at hr1
          subst hr1
          rw [hg]
          intro hxy
          simp only [Option.some.injEq] at hxy
          exact hyx hxy.symm
    · intro y ey hy hyr
      rw [hget] at hy
      by_cases hyx : y = x
      · simp only [hyx, if_true, Option.some.injEq] at hy
        subst hy
        subst hyx
        refine ⟨hx0, by rw [he1r]; exact hg, ⟨done, [], by rw [he1r], hold.2 hx0⟩, ?_⟩
        rw [he1r]; exact he1n
      · simp only [hyx, if_false] at hy
        obtain ⟨h1, h2, ⟨a, b, h3, h4⟩, h5⟩ := hI.seen y ey hy hyr
        exact ⟨h1, h2, ⟨a, b ++ [r], by rw [h3]; simp, h4⟩, h5⟩
    · have hp := hI.ren
      rw [hl] at hp
      rw [hent, hset]
      simp only [List.filter_append, List.filter_cons, hrenamed, List.map_append] at hp ⊢
      by_cases hre1 : renamed e1 = true
      · simp only [hre1, if_true, List.map_cons] at hren ⊢
        refine hren.trans ?_
        refine (List.Perm.cons _ hp).trans ?_
        simp only [Bool.false_eq_true, if_false]
        exact List.perm_middle.symm
      · simp only [hre1, if_false] at hren ⊢
        simp only [Bool.false_eq_true, if_false] at hp
        exact hren.trans hp

theorem resolveInv_loop (gi : Int → Option Nat) (init : List entry) :
    ∀ (rs : List Int) (done : List Int) (st st1 : ResolveState), (∀ r ∈ rs, r ≠ notSeen) →
      ResolveInv gi init done st → resolveLoop gi rs st = .ok st1 →
      ResolveInv gi init (done ++ rs) st1
  | [], done, st, st1, _, hI, h => by
    simp only [resolveLoop, Except.ok.injEq] at h
    subst h
    simpa using hI
  | r :: rs, done, st, st1, hns, hI, h => by
    unfold resolveLoop at h
    cases hs : resolveStep gi st r with
    | error f => simp [hs] at h
    | ok st2 =>
      simp only [hs] at h
      have h2 := resolveInv_step gi init done st st2 r (hns r (List.mem_cons_self _ _)) hI hs
      have h3 := resolveInv_loop gi init rs (done ++ [r]) st2 st1
        (fun r1 hr1 => hns r1 (List.mem_cons_of_mem _ hr1)) h2 h
      simpa using h3

/-! ## The scanned runes -/

theorem mem_scanRunes (r : Int) : r ∈ scanRunes ↔ 0 ≤ r ∧ r < 0xffff := by
  unfold scanRunes
  rw [List.mem_map]
  constructor
  · rintro ⟨n, hn, rfl⟩
    rw [List.mem_range] at hn
    exact ⟨Int.ofNat_nonneg n, by show (n : Int) < 0xffff; omega⟩
  · rintro ⟨h0, h1⟩
    refine ⟨r.toNat, List.mem_range.2 (by omega), ?_⟩
    show (r.toNat : Int) = r
    omega

theorem scanRunes_ne_notSeen (r : Int) (h : r ∈ scanRunes) : r ≠ notSeen := by
  rw [mem_scanRunes] at h
  unfold notSeen
  omega

/-- The runes scanned before `r` are all the smaller ones. -/
theorem scanRunes_split (a b : List Int) (r : Int) (h : scanRunes = a ++ r :: b) (r1 : Int)
    (h0 : 0 ≤ r1) (h1 : r1 < r) : r1 ∈ a := by
  have hget : ∀ k : Nat, k < 0xffff → scanRunes[k]? = some (k : Int) := by
    intro k hk
    unfold scanRunes
    rw [List.getElem?_map, List.getElem?_range hk]
    rfl
  have hlen : scanRunes.length = 0xffff := by simp [scanRunes]
  have hal : a.length < 0xffff := by
    have := congrArg List.length h
    rw [hlen] at this
    simp at this
    omega
  have hr : r = (a.length : Int) := by
    have h2 := hget a.length hal
    rw [h, List.getElem?_append_right (Nat.le_refl _)] at h2
    simpa using h2
  have hk : r1.toNat < a.length := by omega
  have h3 := hget r1.toNat (by omega)
  rw [h, List.getElem?_append_left hk] at h3
  have : (r1.toNat : Int) = r1 := by omega
  rw [this] at h3
  exact List.getElem?_mem h3

/-! ## The resolver loop goes through -/

theorem resolveStep_total (gi : Int → Option Nat) (st : ResolveState) (r : Int) (x : Nat)
    (hg : gi r = some x) (hx : x < st.entries.length) :
    ∃ st1, resolveStep gi st r = .ok st1 ∧ st1.entries.length = st.entries.length := by
  unfold resolveStep
  simp only [hg]
  by_cases hx0 : x = 0
  · exact ⟨st, by simp [hx0], rfl⟩
  · simp only [hx0, if_false, List.getElem?_eq_getElem hx]
    by_cases hr : st.entries[x].r = notSeen
    · simp only [hr, ne_eq, not_true_eq_false, if_false]
      by_cases hp : (0xE000 : Int) ≤ r ∧ r ≤ 0xF8FF
      · rw [if_pos hp]
        exact ⟨_, rfl, by simp⟩
      · rw [if_neg hp]
        exact ⟨_, rfl, by simp⟩
    · exact ⟨st, by simp [hr], rfl⟩

theorem resolveLoop_total (gi : Int → Option Nat) (n : Nat) :
    ∀ (rs : List Int) (st : ResolveState), st.entries.length = n →
      (∀ r ∈ rs, ∃ x, gi r = some x ∧ x < n) → ∃ st1, resolveLoop gi rs st = .ok st1
  | [], st, _, _ => ⟨st, rfl⟩
  | r :: rs, st, hn, h => by
    obtain ⟨x, hg, hx⟩ := h r (List.mem_cons_self _ _)
    obtain ⟨st1, hs, hl⟩ := resolveStep_total gi st r x hg (by omega)
    obtain ⟨st2, h2⟩ := resolveLoop_total gi n rs st1 (by omega)
      (fun r1 hr1 => h r1 (List.mem_cons_of_mem _ hr1))
    exact ⟨st2, by simp [resolveLoop, hs, h2]⟩

/-- The invariant holds when the resolver loop of `rewrite` has run. -/
theorem resolve_inv (gi : Int → Option Nat) (lines : List Bytes) (st : ResolveState)
    (h : resolve gi (loadEntries lines []) = .ok st) :
    ResolveInv gi (loadEntries lines []) scanRunes st := by
  have := resolveInv_loop gi (loadEntries lines []) scanRunes [] _ st scanRunes_ne_notSeen
    (resolveInv_init gi _ (fresh_loaded lines)) h
  simpa using this

/-- What `plan` returns is the resolved state with the tail of its entries sorted. -/
theorem plan_ok (gi : Int → Option Nat) (lines : List Bytes) (p : Plan)
    (h : plan gi lines = .ok p) :
    ∃ st e0 rest, resolve gi (loadEntries lines []) = .ok st ∧ st.entries = e0 :: rest ∧
      p.entries = e0 :: sortByR rest ∧ p.renames = st.renames ∧
      p.extraNames = sortStrings (collectExtraNames st.entries) := by
  unfold plan at h
  cases hr : resolve gi (loadEntries lines []) with
  | error f => simp [hr] at h
  | ok st =>
    simp only [hr] at h
    cases he : st.entries with
    | nil => simp [he, sortTail] at h
    | cons e0 rest =>
      simp only [he, sortTail, Except.ok.injEq] at h
      subst h
      exact ⟨st, e0, rest, rfl, he, rfl, rfl, by rw [he]⟩

theorem plan_perm (gi : Int → Option Nat) (lines : List Bytes) (p : Plan)
    (h : plan gi lines = .ok p) :
    ∃ st, resolve gi (loadEntries lines []) = .ok st ∧ p.entries.Perm st.entries ∧
      p.renames = st.renames := by
  obtain ⟨st, e0, rest, h1, h2, h3, h4, _⟩ := plan_ok gi lines p h
  exact ⟨st, h1, by rw [h2, h3]; exact List.Perm.cons _ (sortByR_perm rest), h4⟩

/-- The facts of the invariant that speak of single entries, for the entries
of the plan. -/
theorem plan_entry (gi : Int → Option Nat) (lines : List Bytes) (p : Plan)
    (h : plan gi lines = .ok p) (e : entry) (he : e ∈ p.entries) :
    (e.r = notSeen → e.newName = e.oldName) ∧
    (e.r ≠ notSeen → e.r ∈ scanRunes ∧
      e.newName = (if inPrivateUse e.r then e.oldName else canonicalName e.r)) := by
  obtain ⟨st, h1, h2, _⟩ := plan_perm gi lines p h
  have hI := resolve_inv gi lines st h1
  have hm : e ∈ st.entries := h2.mem_iff.1 he
  obtain ⟨x, hx, rfl⟩ := List.getElem_of_mem hm
  have hx2 := List.getElem?_eq_getElem hx
  refine ⟨fun hr => (hI.unseen x _ hx2 hr).1, fun hr => ?_⟩
  obtain ⟨_, _, ⟨a, b, h3, _⟩, h5⟩ := hI.seen x _ hx2 hr
  exact ⟨by rw [h3]; simp, h5⟩

/-! ## Running the resolver loop on a sparse decoder -/

theorem resolveLoop_append (gi : Int → Option Nat) : ∀ (a b : List Int) (st : ResolveState),
    resolveLoop gi (a ++ b) st =
      (match resolveLoop gi a st with
       | .error f => .error f
       | .ok st1 => resolveLoop gi b st1)
  | [], b, st => rfl
  | r :: a, b, st => by
    simp only [List.cons_append, resolveLoop]
    cases resolveStep gi st r with
    | error f => rfl
    | ok st1 => exact resolveLoop_append gi a b st1

theorem resolveLoop_skip (gi : Int → Option Nat) : ∀ (rs : List Int) (st : ResolveState),
    (∀ r ∈ rs, gi r = some 0) → resolveLoop gi rs st = .ok st
  | [], st, _ => rfl
  | r :: rs, st, h => by
    have h0 := h r (List.mem_cons_self _ _)
    have : resolveStep gi st r = .ok st := by simp [resolveStep, h0]
    simp only [resolveLoop, this]
    exact resolveLoop_skip gi rs st (fun r1 hr1 => h r1 (List.mem_cons_of_mem _ hr1))

theorem resolveLoop_range_skip (gi : Int → Option Nat) (s n : Nat) (st : ResolveState)
    (hskip : ∀ k : Nat, s ≤ k → k < s + n → gi (Int.ofNat k) = some 0) :
    resolveLoop gi ((List.range' s n).map Int.ofNat) st = .ok st := by
  apply resolveLoop_skip
  intro r hr
  rw [List.mem_map] at hr
  obtain ⟨k, hk, rfl⟩ := hr
  rw [List.mem_range'_1] at hk
  exact hskip k hk.1 hk.2

/-- A step with glyph 0 changes nothing, so the loop may leave those runes out. -/
theorem resolveLoop_filter (gi : Int → Option Nat) : ∀ (rs : List Int) (st : ResolveState),
    resolveLoop gi rs st = resolveLoop gi (rs.filter (fun r => gi r != some 0)) st
  | [], st => rfl
  | r :: rs, st => by
    by_cases h : gi r = some 0
    · have hs : resolveStep gi st r = .ok st := by simp [resolveStep, h]
      have hf : (r :: rs).filter (fun r => gi r != some 0) = rs.filter (fun r => gi r != some 0) := by
        simp [List.filter_cons, h]
      rw [hf]
      simp only [resolveLoop, hs]
      exact resolveLoop_filter gi rs st
    · have hf : (r :: rs).filter (fun r => gi r != some 0) =
          r :: rs.filter (fun r => gi r != some 0) := by
        simp [List.filter_cons, h]
      rw [hf]
      simp only [resolveLoop]
      cases resolveStep gi st r with
      | error f => rfl
      | ok st1 => exact resolveLoop_filter gi rs st1

theorem filter_range_skip (p : Int → Bool) (s n : Nat)
    (hskip : ∀ k : Nat, s ≤ k → k < s + n → p (Int.ofNat k) = false) :
    ((List.range' s n).map Int.ofNat).filter p = [] := by
  rw [List.filter_eq_nil_iff]
  intro r hr
  rw [List.mem_map] at hr
  obtain ⟨k, hk, rfl⟩ := hr
  rw [List.mem_range'_1] at hk
  rw [hskip k hk.1 hk.2]
  exact Bool.false_ne_true

/-- Filtering the runes from `s` on, when the first `n` of them are left out
and the next one is kept. -/
theorem filter_range_step (p : Int → Bool) (s n m total s1 : Nat) (rest : List Int)
    (ht : total = n + 1 + m) (hs1 : s1 = s + n + 1)
    (hskip : ∀ k : Nat, s ≤ k → k < s + n → p (Int.ofNat k) = false)
    (hhit : p (Int.ofNat (s + n)) = true)
    (hrest : ((List.range' s1 m).map Int.ofNat).filter p = rest) :
    ((List.range' s total).map Int.ofNat).filter p = Int.ofNat (s + n) :: rest := by
  subst ht hs1
  have e1 : List.range' s (n + 1 + m) = List.range' s n ++ (s + n) :: List.range' (s + n + 1) m := by
    rw [show n + 1 + m = (m + 1) + n by omega, ← List.range'_append_1, List.range'_succ]
  rw [e1, List.map_append, List.map_cons, List.filter_append, filter_range_skip p s n hskip,
    List.filter_cons, hhit, hrest]
  rfl

/-- The resolver loop of `rewrite`, from the runes that have a glyph. -/
theorem resolve_of_filter (gi : Int → Option Nat) (entries : List entry) (hot : List Int)
    (st : ResolveState) (h1 : scanRunes.filter (fun r => gi r != some 0) = hot)
    (h2 : (resolveLoop gi hot { entries := entries, renames := [] }).toOption = some st) :
    resolve gi entries = .ok st := by
  unfold resolve
  rw [resolveLoop_filter, h1]
  cases h : resolveLoop gi hot { entries := entries, renames := [] } with
  | error f => rw [h] at h2; cases h2
  | ok st2 =>
    rw [h] at h2
    simp only [Except.toOption, Option.some.injEq] at h2
    rw [h2]

/-- The plan, from the loaded entries, the resolved state and the sorted entries. -/
theorem plan_of_resolve (gi : Int → Option Nat) (lines : List Bytes) (loaded : List entry)
    (st : ResolveState) (p : Plan) (h1 : loadEntries lines [] = loaded)
    (h2 : resolve gi loaded = .ok st)
    (h3 : (sortTail st.entries).toOption.map
        (fun es => Plan.mk es st.renames (sortStrings (collectExtraNames st.entries))) = some p) :
    plan gi lines = .ok p := by
  unfold plan
  rw [h1, h2]
  cases h : sortTail st.entries with
  | error f => rw [h] at h3; cases h3
  | ok es =>
    rw [h] at h3
    simp only [Except.toOption, Option.map_some', Option.some.injEq] at h3
    rw [← h3]
    simp only [h]

/-! ## A worked input -/

theorem example_loaded : loadEntries exampleLines [] = exampleLoaded := by decide

theorem example_skip (k : Nat) (h : k ≠ 0x5C ∧ k ≠ 0x1F3 ∧ k ≠ 0x263A ∧ k ≠ 0xE000 ∧ k ≠ 0xFF3C) :
    (exampleGlyphIndex (Int.ofNat k) != some 0) = false := by
  have e : Int.ofNat k = (k : Int) := rfl
  unfold exampleGlyphIndex
  rw [e, if_neg (by omega), if_neg (by omega), if_neg (by omega), if_neg (by omega),
    if_neg (by omega)]
  rfl

/-- The runes for which the decoder of the worked input gives a glyph. -/
theorem example_hot : scanRunes.filter (fun r => exampleGlyphIndex r != some 0) =
    [0x5C, 0x1F3, 0x263A, 0xE000, 0xFF3C] := by
  unfold scanRunes
  rw [List.range_eq_range']
  refine filter_range_step _ 0 0x5C (0xffff - 0x5D) 0xffff 0x5D _ (by decide) (by decide)
    (fun k h1 h2 => example_skip k (by omega)) (by decide) ?_
  refine filter_range_step _ 0x5D (0x1F3 - 0x5D) (0xffff - 0x1F4) _ 0x1F4 _ (by decide)
    (by decide) (fun k h1 h2 => example_skip k (by omega)) (by decide) ?_
  refine filter_range_step _ 0x1F4 (0x263A - 0x1F4) (0xffff - 0x263B) _ 0x263B _ (by decide)
    (by decide) (fun k h1 h2 => example_skip k (by omega)) (by decide) ?_
  refine filter_range_step _ 0x263B (0xE000 - 0x263B) (0xffff - 0xE001) _ 0xE001 _ (by decide)
    (by decide) (fun k h1 h2 => example_skip k (by omega)) (by decide) ?_
  refine filter_range_step _ 0xE001 (0xFF3C - 0xE001) (0xffff - 0xFF3D) _ 0xFF3D _ (by decide)
    (by decide) (fun k h1 h2 => example_skip k (by omega)) (by decide) ?_
  exact filter_range_skip _ _ _ (fun k h1 h2 => example_skip k (by omega))

set_option maxRecDepth 8000 in
theorem example_resolve :
    resolve exampleGlyphIndex exampleLoaded = .ok { entries := exampleResolved, renames := exampleRenames } :=
  resolve_of_filter exampleGlyphIndex exampleLoaded _ _ example_hot (by decide)

theorem example_plan : plan exampleGlyphIndex exampleLines = .ok examplePlan :=
  plan_of_resolve exampleGlyphIndex exampleLines exampleLoaded _ _ example_loaded example_resolve
    (by decide)

/-! ## Lookups in `renames` -/

theorem mapGet_of_mem : ∀ (m : Renames) (k v : Bytes), (m.map Prod.fst).Nodup → (k, v) ∈ m →
    mapGet m k = some v
  | [], _, _, _, h => by cases h
  | (k1, v1) :: m, k, v, hn, h => by
    rw [List.map_cons, List.nodup_cons] at hn
    unfold mapGet
    rcases List.mem_cons.1 h with h1 | h2
    · cases h1
      simp
    · have hne : k ≠ k1 := by
        intro hk
        exact hn.1 (List.mem_map.2 ⟨(k, v), h2, hk⟩)
      simp only [hne, if_false]
      exact mapGet_of_mem m k v hn.2 h2

theorem mapGet_none : ∀ (m : Renames) (k : Bytes), (∀ kv ∈ m, kv.1 ≠ k) → mapGet m k = none
  | [], _, _ => rfl
  | (k1, v1) :: m, k, h => by
    unfold mapGet
    have hne : k ≠ k1 := fun hk => h (k1, v1) (List.mem_cons_self _ _) hk.symm
    simp only [hne, if_false]
    exact mapGet_none m k (fun kv hkv => h kv (List.mem_cons_of_mem _ hkv))

/-- The pairs of `renames`, for the entries of the plan: one for each entry
whose new name differs from its old name. -/
theorem plan_renames_perm (gi : Int → Option Nat) (lines : List Bytes) (p : Plan)
    (h : plan gi lines = .ok p) :
    p.renames.Perm ((p.entries.filter renamed).map renamePair) := by
  obtain ⟨st, h1, h2, h3⟩ := plan_perm gi lines p h
  have hI := resolve_inv gi lines st h1
  rw [h3]
  exact hI.ren.trans ((h2.filter renamed).map renamePair).symm

theorem plan_ids (gi : Int → Option Nat) (lines : List Bytes) (p : Plan)
    (h : plan gi lines = .ok p) :
    (p.entries.map (fun e => (e.oldID, e.oldName))).Perm
      ((loadEntries lines []).map (fun e => (e.oldID, e.oldName))) := by
  obtain ⟨st, h1, h2, _⟩ := plan_perm gi lines p h
  have hI := resolve_inv gi lines st h1
  rw [← hI.ids]
  exact h2.map _

theorem plan_oldNames (gi : Int → Option Nat) (lines : List Bytes) (p : Plan)
    (h : plan gi lines = .ok p) :
    (p.entries.map entry.oldName).Perm ((loadEntries lines []).map entry.oldName) := by
  have := (plan_ids gi lines p h).map Prod.snd
  simpa [List.map_map, Function.comp_def] using this

/-- With distinct old names, `renames` maps the old name of each renamed entry
to its new name and has no other key. -/
theorem plan_renames_lookup (gi : Int → Option Nat) (lines : List Bytes) (p : Plan)
    (hd : ((loadEntries lines []).map entry.oldName).Nodup) (h : plan gi lines = .ok p)
    (e : entry) (he : e ∈ p.entries) :
    mapGet p.renames e.oldName = if e.newName ≠ e.oldName then some e.newName else none := by
  have hperm := plan_renames_perm gi lines p h
  have hnd : (p.entries.map entry.oldName).Nodup := (plan_oldNames gi lines p h).nodup_iff.2 hd
  have hkeys : (p.renames.map Prod.fst).Nodup := by
    rw [(hperm.map Prod.fst).nodup_iff, List.map_map]
    have : (Prod.fst ∘ renamePair) = entry.oldName := rfl
    rw [this]
    exact List.Nodup.sublist ((List.filter_sublist _).map _) hnd
  by_cases hne : e.newName ≠ e.oldName
  · rw [if_pos hne]
    apply mapGet_of_mem _ _ _ hkeys
    apply hperm.mem_iff.2
    exact List.mem_map.2 ⟨e, List.mem_filter.2 ⟨he, by simp [renamed, hne]⟩, rfl⟩
  · rw [if_neg hne]
    apply mapGet_none
    intro kv hkv hk
    obtain ⟨e1, he1, rfl⟩ := List.mem_map.1 (hperm.mem_iff.1 hkv)
    rw [List.mem_filter] at he1
    have : e1 = e := List.inj_on_of_nodup_map hnd he1.1 he hk
    subst this
    simp only [renamed, decide_eq_true_eq] at he1
    exact hne he1.2

/-! ## The claims on the planned order and on the names -/

/-- C1 (ordering invariant): in the glyph order that `rewrite` plans, of two
entries at positions 1 or more, the one with the smaller code-point key `r`
stands first, and for equal keys the one with the bytewise smaller old name
stands first. -/
theorem ordering_invariant (gi : Int → Option Nat) (lines : List Bytes) (p : Plan)
    (i j : Nat) (g1 g2 : entry) (hp : plan gi lines = .ok p) (hi : 1 ≤ i) (hj : 1 ≤ j)
    (h1 : p.entries[i]? = some g1) (h2 : p.entries[j]? = some g2) :
    (g1.r < g2.r → i < j) ∧
    (g1.r = g2.r → bytesLess g1.oldName g2.oldName = true → i < j) := by
  obtain ⟨st, e0, rest, _, _, h3, _, _⟩ := plan_ok gi lines p hp
  obtain ⟨i1, rfl⟩ : ∃ k, i = k + 1 := ⟨i - 1, by omega⟩
  obtain ⟨j1, rfl⟩ : ∃ k, j = k + 1 := ⟨j - 1, by omega⟩
  rw [h3, List.getElem?_cons_succ] at h1 h2
  have key : byRLess g1 g2 = true → i1 + 1 < j1 + 1 := fun hl =>
    Nat.succ_lt_succ (sorted_position _ (sortByR_sorted rest) i1 j1 g1 g2 h1 h2 hl)
  exact ⟨fun hr => key ((byRLess_iff g1 g2).2 (Or.inl hr)),
    fun hr hn => key ((byRLess_iff g1 g2).2 (Or.inr ⟨hr, hn⟩))⟩

/-- C2 (placeholder invariant): whenever `rewrite` plans a glyph order, the
entry with old ID 0 is the first of it, it is the only entry with old ID 0, it
carries the first old name of the file, and the first record that
`writeGlyphOrder` prints is the one with `id="0"` and the new name of that
entry. -/
theorem placeholder_invariant (quote : Bytes → Bytes) (gi : Int → Option Nat)
    (lines : List Bytes) (p : Plan) (out : Bytes) (ls : List Bytes)
    (hp : plan gi lines = .ok p) :
    ∃ e0 rest, p.entries = e0 :: rest ∧ e0.oldID = 0 ∧ (∀ e ∈ rest, e.oldID ≠ 0) ∧
      (loadEntries lines [])[0]?.map entry.oldName = some e0.oldName ∧
      (writeGlyphOrder quote out ls p.entries).1 =
        out ++ (ascii "<GlyphID id=\"0\" name=" ++ quote e0.newName ++ ascii "/>\n"
          ++ glyphOrderRecords quote 1 rest) := by
  obtain ⟨st, e0, rest, h1, h2, h3, _, _⟩ := plan_ok gi lines p hp
  have hI := resolve_inv gi lines st h1
  have hids := hI.ids
  rw [h2] at hids
  have hfresh := fresh_loaded lines
  cases hl : loadEntries lines [] with
  | nil => rw [hl] at hids; cases hids
  | cons f0 frest =>
    rw [hl, List.map_cons, List.map_cons, List.cons.injEq] at hids
    have hf0 := hfresh 0 f0 (by rw [hl]; simp)
    have hid0 : e0.oldID = 0 := by
      have := congrArg Prod.fst hids.1
      simp only at this
      rw [this]; exact hf0.1
    have hname : e0.oldName = f0.oldName := congrArg Prod.snd hids.1
    refine ⟨e0, sortByR rest, h3, hid0, ?_, ?_, ?_⟩
    · intro e he hz
      have he2 : e ∈ rest := (sortByR_perm rest).mem_iff.1 he
      have hme : (e.oldID, e.oldName) ∈ frest.map (fun e => (e.oldID, e.oldName)) := by
        rw [← hids.2]
        exact List.mem_map.2 ⟨e, he2, rfl⟩
      obtain ⟨f, hf, hfe⟩ := List.mem_map.1 hme
      obtain ⟨k, hk, rfl⟩ := List.getElem_of_mem hf
      have := hfresh (k + 1) frest[k] (by rw [hl, List.getElem?_cons_succ]; exact List.getElem?_eq_getElem hk)
      have h4 : frest[k].oldID = e.oldID := congrArg Prod.fst hfe
      omega
    · simp [hname]
    · rw [h3]
      simp only [writeGlyphOrder, glyphOrderRecords, List.append_assoc]
      rfl

/-- C3 (bijection invariant): the planned glyph order has as many entries as
were loaded, its old IDs are a permutation of `0 .. n-1` with each of them
occurring exactly once, and its (old ID, old name) pairs are a permutation
of the loaded ones. -/
theorem bijection_invariant (gi : Int → Option Nat) (lines : List Bytes) (p : Plan)
    (hp : plan gi lines = .ok p) :
    p.entries.length = (loadEntries lines []).length ∧
    (p.entries.map entry.oldID).Perm (List.range (loadEntries lines []).length) ∧
    (∀ i, i < (loadEntries lines []).length → (p.entries.map entry.oldID).count i = 1) ∧
    (p.entries.map (fun e => (e.oldID, e.oldName))).Perm
      ((loadEntries lines []).map (fun e => (e.oldID, e.oldName))) := by
  have hids := plan_ids gi lines p hp
  have hperm : (p.entries.map entry.oldID).Perm (List.range (loadEntries lines []).length) := by
    rw [← fresh_map_oldID _ (fresh_loaded lines)]
    have := hids.map Prod.fst
    simpa [List.map_map, Function.comp_def] using this
  refine ⟨?_, hperm, ?_, hids⟩
  · simpa using hids.length_eq
  · intro i hi
    rw [hperm.count_eq]
    exact List.count_eq_one_of_mem (List.nodup_range _) (List.mem_range.2 hi)

/-! ## The match of `nameRegExp` -/

theorem dropLit_some : ∀ (p l rest : Bytes), dropLit p l = some rest ↔ l = p ++ rest
  | [], l, rest => by simp [dropLit, eq_comm]
  | _ :: _, [], rest => by simp [dropLit]
  | a :: p, c :: cs, rest => by
    unfold dropLit
    by_cases h : a = c
    · subst h
      simp [dropLit_some p cs rest]
    · simp only [h, if_false, List.cons_append, List.cons.injEq, false_iff, not_and]
      constructor
      · intro hc; cases hc
      · intro hc; exact absurd hc.1.symm h

theorem notQuote_iff (c : Nat) : notQuote c = true ↔ c ≠ quoteByte := by simp [notQuote]

theorem notNewline_iff (c : Nat) : notNewline c = true ↔ c ≠ newlineByte := by simp [notNewline]

theorem isSpace_iff (c : Nat) : isSpace c = true ↔ c = 32 := by simp [isSpace]

/-- The text after `name="`, cut at its first quote. -/
theorem cut_at_quote (after : Bytes) (q : Nat) (s : Bytes)
    (h : after.dropWhile notQuote = q :: s) :
    after = after.takeWhile notQuote ++ quoteByte :: s ∧ q = quoteByte ∧
      quoteByte ∉ after.takeWhile notQuote := by
  have hsplit := List.takeWhile_append_dropWhile notQuote after
  rw [h] at hsplit
  have hqq : q = quoteByte := by
    have := List.head_dropWhile_not notQuote after (by rw [h]; simp)
    simp only [h, List.head_cons] at this
    by_contra hne
    rw [(notQuote_iff q).2 hne] at this
    cases this
  refine ⟨by rw [← hqq]; exact hsplit.symm, hqq, ?_⟩
  intro hmem
  exact (notQuote_iff _).1 (List.mem_takeWhile_imp hmem) rfl

/-- What a match of the part of `nameRegExp` after `<` tells about the text. -/
theorem nameScan_some : ∀ (l p n s : Bytes), nameScan l = some (p, n, s) →
    l = p ++ n ++ s ∧ (∃ mid, p = mid ++ ascii "name=\"" ∧ ∀ c ∈ mid, c ≠ newlineByte) ∧
      quoteByte ∉ n ∧ ∃ s1, s = quoteByte :: s1 ∧ ∀ c ∈ s1, c ≠ newlineByte
  | [], p, n, s, h => by simp [nameScan] at h
  | c :: cs, p, n, s, h => by
    unfold nameScan at h
    cases hin : (if notNewline c then nameScan cs else none) with
    | some r =>
      obtain ⟨p1, n1, s1⟩ := r
      rw [hin] at h
      simp only [Option.some.injEq, Prod.mk.injEq] at h
      obtain ⟨rfl, rfl, rfl⟩ := h
      by_cases hc : notNewline c = true
      · rw [if_pos hc] at hin
        obtain ⟨h1, ⟨mid, h2, h3⟩, h4, h5⟩ := nameScan_some cs p1 n1 s1 hin
        refine ⟨by rw [h1]; simp, ⟨c :: mid, by rw [h2]; simp, ?_⟩, h4, h5⟩
        intro d hd
        rcases List.mem_cons.1 hd with rfl | hd
        · exact (notNewline_iff _).1 hc
        · exact h3 d hd
      · rw [if_neg hc] at hin
        cases hin
    | none =>
      rw [hin] at h
      cases hd : dropLit (ascii "name=\"") (c :: cs) with
      | none => rw [hd] at h; cases h
      | some after =>
        rw [hd] at h
        dsimp only at h
        rw [dropLit_some] at hd
        cases hq : after.dropWhile notQuote with
        | nil => rw [hq] at h; cases h
        | cons q s1 =>
          rw [hq] at h
          by_cases hall : s1.all notNewline = true
          · simp only [hall, if_true, Option.some.injEq, Prod.mk.injEq] at h
            obtain ⟨rfl, rfl, rfl⟩ := h
            obtain ⟨h1, h2, h3⟩ := cut_at_quote after q s1 hq
            refine ⟨?_, ⟨[], rfl, by simp⟩, h3, s1, by rw [h2], ?_⟩
            · rw [hd, List.append_assoc, h2]
              exact congrArg _ h1
            · intro d hd2
              exact (notNewline_iff _).1 (List.all_eq_true.1 hall d hd2)
          · simp only [hall] at h
            cases h

/-- What a match of `nameRegExp` tells about the line: the three submatches
make up the line, the first ends with `name="` after spaces, `<` and text
without a newline, the second has no quote, the third starts with the quote. -/
theorem nameRegExpFind_some (line x1 n x3 : Bytes) (h : nameRegExpFind line = some (x1, n, x3)) :
    line = x1 ++ n ++ x3 ∧
    (∃ sp mid, x1 = sp ++ 60 :: mid ++ ascii "name=\"" ∧ (∀ c ∈ sp, c = 32) ∧
      ∀ c ∈ mid, c ≠ newlineByte) ∧
    quoteByte ∉ n ∧ ∃ s1, x3 = quoteByte :: s1 ∧ ∀ c ∈ s1, c ≠ newlineByte := by
  unfold nameRegExpFind at h
  have hsplit := List.takeWhile_append_dropWhile isSpace line
  cases hd : line.dropWhile isSpace with
  | nil => rw [hd] at h; cases h
  | cons c rest =>
    rw [hd] at h
    rw [hd] at hsplit
    by_cases hc : c = 60
    · subst hc
      simp only [if_true] at h
      cases hs : nameScan rest with
      | none => rw [hs] at h; cases h
      | some r =>
        obtain ⟨p1, n1, s1⟩ := r
        rw [hs] at h
        simp only [Option.some.injEq, Prod.mk.injEq] at h
        obtain ⟨rfl, rfl, rfl⟩ := h
        obtain ⟨h1, ⟨mid, h2, h3⟩, h4, h5⟩ := nameScan_some rest p1 n1 s1 hs
        refine ⟨?_, ⟨line.takeWhile isSpace, mid, ?_, ?_, h3⟩, h4, h5⟩
        · conv_lhs => rw [← hsplit, h1]
          simp
        · rw [h2]; simp
        · intro d hd2
          exact (isSpace_iff _).1 (List.mem_takeWhile_imp hd2)
    · simp only [hc, if_false] at h
      cases h

theorem nameRegExpFind_concat (line x1 n x3 : Bytes) (h : nameRegExpFind line = some (x1, n, x3)) :
    line = x1 ++ n ++ x3 :=
  (nameRegExpFind_some line x1 n x3 h).1

theorem ascii_name : ascii "name=\"" = [110, 97, 109, 101, 61, 34] := by decide

/-- An occurrence of `name="` in `ame="` followed by a text lies in that text. -/
theorem name_shift (T a b : Bytes)
    (h : [97, 109, 101, 61, 34] ++ T = a ++ [110, 97, 109, 101, 61, 34] ++ b) :
    ∃ a1, T = a1 ++ [110, 97, 109, 101, 61, 34] ++ b := by
  rcases a with _ | ⟨a0, _ | ⟨a1, _ | ⟨a2, _ | ⟨a3, _ | ⟨a4, a⟩⟩⟩⟩⟩
  · simp at h
  · simp at h
  · simp at h
  · simp at h
  · simp at h
  · refine ⟨a, ?_⟩
    simp only [List.cons_append, List.cons.injEq] at h
    simpa using h.2.2.2.2.2

/-- The match of the part of `nameRegExp` after `<` on a text with a
`name="N"` that no later `name="` with a quote after it follows. -/
theorem nameScan_last (N S : Bytes) (hN : quoteByte ∉ N) (hS : ∀ c ∈ S, c ≠ newlineByte)
    (hlast : ∀ a b, N ++ quoteByte :: S = a ++ ascii "name=\"" ++ b → quoteByte ∉ b) :
    ∀ mid : Bytes, (∀ c ∈ mid, c ≠ newlineByte) →
      nameScan (mid ++ ascii "name=\"" ++ N ++ quoteByte :: S) =
        some (mid ++ ascii "name=\"", N, quoteByte :: S)
  | [], _ => by
    have hin : nameScan ([97, 109, 101, 61, 34] ++ (N ++ quoteByte :: S)) = none := by
      cases hs : nameScan ([97, 109, 101, 61, 34] ++ (N ++ quoteByte :: S)) with
      | none => rfl
      | some r =>
        exfalso
        obtain ⟨p, n, s⟩ := r
        obtain ⟨h1, ⟨mid, h2, _⟩, _, s1, h5, _⟩ := nameScan_some _ p n s hs
        rw [h2, h5, ascii_name] at h1
        obtain ⟨a1, ha1⟩ := name_shift (N ++ quoteByte :: S) mid (n ++ quoteByte :: s1)
          (by rw [h1]; simp)
        rw [← ascii_name] at ha1
        exact hlast a1 _ ha1 (by simp)
    have hdrop : dropLit (ascii "name=\"") (ascii "name=\"" ++ (N ++ quoteByte :: S)) =
        some (N ++ quoteByte :: S) := (dropLit_some _ _ _).2 rfl
    have hNq : ∀ c ∈ N, notQuote c = true := fun c hc =>
      (notQuote_iff c).2 (fun h => hN (h ▸ hc))
    have hq : notQuote quoteByte = false := by decide
    have hdw : (N ++ quoteByte :: S).dropWhile notQuote = quoteByte :: S := by
      rw [List.dropWhile_append_of_pos hNq, List.dropWhile_cons_of_neg (by simp [hq])]
    have htw : (N ++ quoteByte :: S).takeWhile notQuote = N := by
      rw [List.takeWhile_append_of_pos hNq, List.takeWhile_cons_of_neg (by simp [hq])]
      simp
    have hall : S.all notNewline = true :=
      List.all_eq_true.2 (fun c hc => (notNewline_iff c).2 (hS c hc))
    have hshape : [] ++ ascii "name=\"" ++ N ++ quoteByte :: S =
        110 :: ([97, 109, 101, 61, 34] ++ (N ++ quoteByte :: S)) := by
      rw [ascii_name]; simp
    have hshape2 : (110 : Nat) :: ([97, 109, 101, 61, 34] ++ (N ++ quoteByte :: S)) =
        ascii "name=\"" ++ (N ++ quoteByte :: S) := by
      rw [ascii_name]; simp
    rw [hshape]
    unfold nameScan
    have hn : notNewline 110 = true := by decide
    rw [if_pos hn, hin]
    dsimp only
    rw [hshape2, hdrop]
    dsimp only
    rw [hdw]
    dsimp only
    rw [if_pos hall, htw]
    simp
  | c :: mid, hmid => by
    have ih := nameScan_last N S hN hS hlast mid (fun d hd => hmid d (List.mem_cons_of_mem _ hd))
    have hc : notNewline c = true := (notNewline_iff c).2 (hmid c (List.mem_cons_self _ _))
    have hshape : (c :: mid) ++ ascii "name=\"" ++ N ++ quoteByte :: S =
        c :: (mid ++ ascii "name=\"" ++ N ++ quoteByte :: S) := by simp
    rw [hshape]
    unfold nameScan
    rw [if_pos hc, ih]
    simp

/-- The match of `nameRegExp` on a line made of spaces, `<`, text and a
`name="N"` that no later `name="` with a quote after it follows. -/
theorem nameRegExpFind_last (sp mid N S : Bytes) (hsp : ∀ c ∈ sp, c = 32)
    (hmid : ∀ c ∈ mid, c ≠ newlineByte) (hN : quoteByte ∉ N) (hS : ∀ c ∈ S, c ≠ newlineByte)
    (hlast : ∀ a b, N ++ quoteByte :: S = a ++ ascii "name=\"" ++ b → quoteByte ∉ b) :
    nameRegExpFind (sp ++ 60 :: (mid ++ ascii "name=\"" ++ N ++ quoteByte :: S)) =
      some (sp ++ 60 :: (mid ++ ascii "name=\""), N, quoteByte :: S) := by
  have hsp1 : ∀ c ∈ sp, isSpace c = true := fun c hc => (isSpace_iff c).2 (hsp c hc)
  have h60 : isSpace 60 = false := by decide
  unfold nameRegExpFind
  rw [List.dropWhile_append_of_pos hsp1, List.dropWhile_cons_of_neg (by simp [h60]),
    List.takeWhile_append_of_pos hsp1, List.takeWhile_cons_of_neg (by simp [h60])]
  dsimp only
  rw [if_pos rfl, nameScan_last N S hN hS hlast mid hmid]
  simp

/-- The verb `%04X` on a scanned rune prints its four upper-case hexadecimal
digits, most significant first. -/
theorem sprintf04X_digits (r : Int) (h0 : 0 ≤ r) (h1 : r < 0x10000) :
    sprintf04X r = [hexDigitUpper (r.toNat / 4096), hexDigitUpper (r.toNat / 256 % 16),
      hexDigitUpper (r.toNat / 16 % 16), hexDigitUpper (r.toNat % 16)] := by
  have hn : r.natAbs = r.toNat := by omega
  have hlt : r.toNat < 65536 := by omega
  have hsign : ¬ r < 0 := by omega
  unfold sprintf04X
  simp only [hn, hsign, if_false, List.length_nil, List.nil_append, Nat.sub_zero]
  generalize r.toNat = n at hlt
  by_cases c1 : n < 16
  · have e1 : n / 4096 = 0 := by omega
    have e2 : n / 256 % 16 = 0 := by omega
    have e3 : n / 16 % 16 = 0 := by omega
    have e4 : n % 16 = n := by omega
    rw [e1, e2, e3, e4]
    simp [hexDigitsUpper, c1, hexDigitUpper, List.replicate]
  · by_cases c2 : n < 256
    · have e1 : n / 4096 = 0 := by omega
      have e2 : n / 256 % 16 = 0 := by omega
      have e3 : n / 16 % 16 = n / 16 := by omega
      have d1 : n / 16 < 16 := by omega
      rw [e1, e2, e3]
      simp [hexDigitsUpper, c1, d1, hexDigitUpper, List.replicate]
    · by_cases c3 : n < 4096
      · have e1 : n / 4096 = 0 := by omega
        have e2 : n / 256 % 16 = n / 16 / 16 := by omega
        have d1 : ¬ n / 16 < 16 := by omega
        have d2 : n / 16 / 16 < 16 := by omega
        rw [e1, e2]
        simp [hexDigitsUpper, c1, d1, d2, hexDigitUpper, List.replicate]
      · have e1 : n / 4096 = n / 16 / 16 / 16 := by omega
        have e2 : n / 256 % 16 = n / 16 / 16 % 16 := by omega
        have d1 : ¬ n / 16 < 16 := by omega
        have d2 : ¬ n / 16 / 16 < 16 := by omega
        have d3 : n / 16 / 16 / 16 < 16 := by omega
        rw [e1, e2]
        simp [hexDigitsUpper, c1, d1, d2, d3, hexDigitUpper, List.replicate]

/-- C4 (lowest code point wins): when the decoder reports no error and every
glyph index it returns for a scanned code point is below the number of
entries, the resolver loop goes through, and afterwards the entry of every
glyph `x ≥ 1` that is returned for some code point of `[0, 0xFFFF)` holds the
smallest such code point, while the entry of a glyph returned for none of them
still holds `notSeen`. -/
theorem lowest_code_point_wins (gi : Int → Option Nat) (lines : List Bytes)
    (hdec : ∀ r : Int, 0 ≤ r → r < 0xffff →
      ∃ x, gi r = some x ∧ x < (loadEntries lines []).length) :
    ∃ st, resolve gi (loadEntries lines []) = .ok st ∧
      st.entries.length = (loadEntries lines []).length ∧
      ∀ (x : Nat) (e : entry), st.entries[x]? = some e →
        (∀ r0 : Int, 1 ≤ x → 0 ≤ r0 → r0 < 0xffff → gi r0 = some x →
          (∀ r1 : Int, 0 ≤ r1 → r1 < r0 → gi r1 ≠ some x) → e.r = r0) ∧
        ((∀ r : Int, 0 ≤ r → r < 0xffff → gi r ≠ some x) → e.r = notSeen) := by
  obtain ⟨st, hst⟩ := resolveLoop_total gi (loadEntries lines []).length scanRunes
    { entries := loadEntries lines [], renames := [] } rfl
    (fun r hr => hdec r ((mem_scanRunes r).1 hr).1 ((mem_scanRunes r).1 hr).2)
  have hI := resolve_inv gi lines st hst
  refine ⟨st, hst, hI.len, ?_⟩
  intro x e hx
  constructor
  · intro r0 hx1 h0 h1 hg hmin
    by_cases hr : e.r = notSeen
    · exact absurd hg ((hI.unseen x e hx hr).2 (by omega) r0 ((mem_scanRunes r0).2 ⟨h0, h1⟩))
    · obtain ⟨_, hge, ⟨a, b, hsplit, ha⟩, _⟩ := hI.seen x e hx hr
      have hmem : e.r ∈ scanRunes := by rw [hsplit]; simp
      rw [mem_scanRunes] at hmem
      rcases Int.lt_trichotomy e.r r0 with hlt | heq | hgt
      · exact absurd hge (hmin e.r hmem.1 hlt)
      · exact heq
      · exact absurd hg (ha r0 (scanRunes_split a b e.r hsplit r0 h0 hgt))
  · intro hnone
    by_contra hr
    obtain ⟨_, hge, ⟨a, b, hsplit, _⟩, _⟩ := hI.seen x e hx hr
    have hmem : e.r ∈ scanRunes := by rw [hsplit]; simp
    rw [mem_scanRunes] at hmem
    exact hnone e.r hmem.1 hmem.2 hge

/-- C5 (name assignment): every entry of the plan whose resolved code point
`r` lies outside the Private Use Area has the new name `aglfn[r]` when `r` is
a key of `aglfn`, and otherwise the name `uni` followed by `r` printed by the
verb `%04X`, which for a scanned rune is its four upper-case hexadecimal
digits; the old name plays no part. -/
theorem name_assignment (gi : Int → Option Nat) (lines : List Bytes) (p : Plan) (e : entry)
    (hp : plan gi lines = .ok p) (he : e ∈ p.entries) (hr : e.r ≠ notSeen)
    (hpua : ¬ (0xE000 ≤ e.r ∧ e.r ≤ 0xF8FF)) :
    (∀ n, aglfnGet e.r = some n → e.newName = n) ∧
    (aglfnGet e.r = none →
      e.newName = ascii "uni" ++ sprintf04X e.r ∧
      e.newName = ascii "uni" ++ [hexDigitUpper (e.r.toNat / 4096),
        hexDigitUpper (e.r.toNat / 256 % 16), hexDigitUpper (e.r.toNat / 16 % 16),
        hexDigitUpper (e.r.toNat % 16)]) := by
  have hpe := (plan_entry gi lines p hp e he).2 hr
  have hscan := (mem_scanRunes e.r).1 hpe.1
  have h := hpe.2
  rw [if_neg (show ¬ inPrivateUse e.r from hpua)] at h
  unfold canonicalName at h
  constructor
  · intro n hn
    rw [hn] at h
    exact h
  · intro hn
    rw [hn] at h
    refine ⟨h, ?_⟩
    rw [h, sprintfUni, sprintf04X_digits e.r hscan.1 (by omega)]

/-- C6 (private-use exemption): every entry of the plan whose resolved code
point lies in `[0xE000, 0xF8FF]` keeps its old name; the pairs of `renames`
are, one for one, those of the entries whose new name differs from the old
one, so such an entry contributes none; and when the old names of the file
are pairwise distinct its old name is not a key of `renames`. -/
theorem private_use_exemption (gi : Int → Option Nat) (lines : List Bytes) (p : Plan)
    (hp : plan gi lines = .ok p) :
    (∀ e ∈ p.entries, 0xE000 ≤ e.r → e.r ≤ 0xF8FF → e.newName = e.oldName) ∧
    p.renames.Perm ((p.entries.filter (fun e => decide (e.newName ≠ e.oldName))).map
      (fun e => (e.oldName, e.newName))) ∧
    (((loadEntries lines []).map entry.oldName).Nodup →
      ∀ e ∈ p.entries, 0xE000 ≤ e.r → e.r ≤ 0xF8FF → mapGet p.renames e.oldName = none) := by
  have hkeep : ∀ e ∈ p.entries, 0xE000 ≤ e.r → e.r ≤ 0xF8FF → e.newName = e.oldName := by
    intro e he h1 h2
    have hr : e.r ≠ notSeen := by unfold notSeen; omega
    have h := ((plan_entry gi lines p hp e he).2 hr).2
    rw [if_pos (show inPrivateUse e.r from ⟨h1, h2⟩)] at h
    exact h
  refine ⟨hkeep, plan_renames_perm gi lines p hp, ?_⟩
  intro hd e he h1 h2
  rw [plan_renames_lookup gi lines p hd hp e he, if_neg (by simp [hkeep e he h1 h2])]

/-- C7 (consistent renaming): when the old names of the file are pairwise
distinct, the new name of every entry of the plan, which `writeGlyphOrder`
prints, is `renames[oldName]` when the old name is a key and the old name
otherwise, and a line in which `nameRegExp` finds the old name is rewritten to
the same line with the new name in its place. -/
theorem consistent_renaming (gi : Int → Option Nat) (lines : List Bytes) (p : Plan)
    (hd : ((loadEntries lines []).map entry.oldName).Nodup) (hp : plan gi lines = .ok p) :
    ∀ e ∈ p.entries,
      e.newName = (match mapGet p.renames e.oldName with
        | some n => n
        | none => e.oldName) ∧
      ∀ (line x1 x3 : Bytes), nameRegExpFind line = some (x1, e.oldName, x3) →
        rewriteLine p.renames line = x1 ++ e.newName ++ x3 := by
  intro e he
  have hl := plan_renames_lookup gi lines p hd hp e he
  by_cases hne : e.newName ≠ e.oldName
  · rw [if_pos hne] at hl
    refine ⟨by rw [hl], ?_⟩
    intro line x1 x3 hf
    simp only [rewriteLine, hf, hl]
  · rw [if_neg hne] at hl
    have heq : e.newName = e.oldName := by simpa using hne
    refine ⟨by rw [hl]; exact heq, ?_⟩
    intro line x1 x3 hf
    simp only [rewriteLine, hf, hl]
    rw [heq]
    exact nameRegExpFind_concat line x1 e.oldName x3 hf

/-- A text in which `name="` does not occur has no later match at all. -/
theorem last_of_absent (T : Bytes) (h : ¬ ascii "name=\"" <:+: T) :
    ∀ a b, T = a ++ ascii "name=\"" ++ b → quoteByte ∉ b :=
  fun a b hT => absurd ⟨a, b, hT.symm⟩ h

/-- A text with a single quote has no `name="` with a quote after it. -/
theorem last_of_one_quote (N S : Bytes) (hN : quoteByte ∉ N) (hS : quoteByte ∉ S) :
    ∀ a b, N ++ quoteByte :: S = a ++ ascii "name=\"" ++ b → quoteByte ∉ b := by
  intro a b hT hb
  have h1 : (N ++ quoteByte :: S).count quoteByte = 1 := by
    rw [List.count_append, List.count_cons_self, List.count_eq_zero.2 hN, List.count_eq_zero.2 hS]
  have h2 : 2 ≤ (a ++ ascii "name=\"" ++ b).count quoteByte := by
    rw [List.count_append, List.count_append]
    have h3 : (ascii "name=\"").count quoteByte = 1 := by decide
    have h4 : 0 < b.count quoteByte := List.count_pos_iff.2 hb
    omega
  rw [hT] at h1
  omega

/-- The rewriting of a line made of spaces, `<`, text and a `name="N"` that no
later `name="` with a quote after it follows, for a key `N` of `renames`. -/
theorem rewriteLine_last (renames : Renames) (sp mid N S v : Bytes) (hsp : ∀ c ∈ sp, c = 32)
    (hmid : ∀ c ∈ mid, c ≠ newlineByte) (hN : quoteByte ∉ N) (hS : ∀ c ∈ S, c ≠ newlineByte)
    (hlast : ∀ a b, N ++ quoteByte :: S = a ++ ascii "name=\"" ++ b → quoteByte ∉ b)
    (hv : mapGet renames N = some v) :
    rewriteLine renames (sp ++ 60 :: (mid ++ ascii "name=\"" ++ N ++ quoteByte :: S)) =
      sp ++ 60 :: (mid ++ ascii "name=\"" ++ v ++ quoteByte :: S) := by
  unfold rewriteLine
  rw [nameRegExpFind_last sp mid N S hsp hmid hN hS hlast]
  dsimp only
  rw [hv]
  simp

/-- The rewriting of a line made of spaces, `<`, text and a `name="N"` that no
later `name="` with a quote after it follows: `N` is replaced when it is a key
of `renames`, and nothing else of the line changes. -/
theorem rewriteLine_last_any (renames : Renames) (sp mid N S : Bytes) (hsp : ∀ c ∈ sp, c = 32)
    (hmid : ∀ c ∈ mid, c ≠ newlineByte) (hN : quoteByte ∉ N) (hS : ∀ c ∈ S, c ≠ newlineByte)
    (hlast : ∀ a b, N ++ quoteByte :: S = a ++ ascii "name=\"" ++ b → quoteByte ∉ b) :
    rewriteLine renames (sp ++ 60 :: (mid ++ ascii "name=\"" ++ N ++ quoteByte :: S)) =
      sp ++ 60 :: (mid ++ ascii "name=\"" ++ (mapGet renames N).getD N ++ quoteByte :: S) := by
  unfold rewriteLine
  rw [nameRegExpFind_last sp mid N S hsp hmid hN hS hlast]
  dsimp only
  cases mapGet renames N with
  | none => simp
  | some v => simp

/-- A line that `rewriteLine` changes starts with spaces and `<`. -/
theorem rewriteLine_other (renames : Renames) (line : Bytes)
    (h : ∀ sp t : Bytes, (∀ c ∈ sp, c = 32) → line ≠ sp ++ 60 :: t) :
    rewriteLine renames line = line := by
  unfold rewriteLine
  cases hf : nameRegExpFind line with
  | none => rfl
  | some r =>
    obtain ⟨x1, n, x3⟩ := r
    exfalso
    obtain ⟨h1, ⟨sp, mid, h2, h3, _⟩, _, _⟩ := nameRegExpFind_some line x1 n x3 hf
    refine h sp (mid ++ ascii "name=\"" ++ n ++ x3) h3 ?_
    rw [h1, h2]
    simp

/-- The iteration of the output loop on a line whose rewriting is not a start
marker: the rewritten line and a newline are written. -/
theorem rewriteLoop_line (quote : Bytes → Bytes) (p : Plan) (l : Bytes) (k : Nat)
    (rest : List Bytes) (out : Bytes) (hg : rewriteLine p.renames l ≠ glyphOrderBytes)
    (he : rewriteLine p.renames l ≠ extraNamesBytes) :
    rewriteLoop quote p (k + 1) (l :: rest) out =
      rewriteLoop quote p k rest (out ++ rewriteLine p.renames l ++ [newlineByte]) := by
  rw [rewriteLoop]
  simp only [hg, he, if_false]

/-! ## The claims on the rewriting of references -/

/-- C8, as stated, fails: on a line with two `name` attributes the one found
by `nameRegExp` is the last, so the first keeps the old name `A` although `A`
is a key of `renames`; the line is emitted as it was. -/
theorem rename_completeness_counterexample :
    mapGet [(ascii "A", ascii "B")] (ascii "A") = some (ascii "B") ∧
    rewriteLine [(ascii "A", ascii "B")] (ascii "<a name=\"A\"/><b name=\"C\"/>") =
      ascii "<a name=\"A\"/><b name=\"C\"/>" ∧
    rewriteLine [(ascii "A", ascii "B")] (ascii "<a name=\"A\"/><b name=\"C\"/>") ≠
      ascii "<a name=\"B\"/><b name=\"C\"/>" ∧
    rewriteLoop (fun s => s) { entries := [], renames := [(ascii "A", ascii "B")], extraNames := [] }
      1 [ascii "<a name=\"A\"/><b name=\"C\"/>"] [] =
      some (ascii "<a name=\"A\"/><b name=\"C\"/>\n") := by
  decide

/-- C8, amended: the output loop rewrites a line at its last `name="..."`
only.  On a line made of spaces, `<`, text without a newline and an attribute
`name="N"` that no later `name="` with a quote after it follows, the value `N`,
when it is a key of `renames`, is replaced by `renames[N]`, and the loop writes
the line so rewritten.  An earlier `name="N0"` of such a line is written as it
is, whether or not `N0` is a key: only the last value `M` is looked up.  A line
that does not start with spaces and `<` is written as it is. -/
theorem rename_completeness_last (quote : Bytes → Bytes) (p : Plan) :
    (∀ sp mid N S v : Bytes, (∀ c ∈ sp, c = 32) → (∀ c ∈ mid, c ≠ newlineByte) → quoteByte ∉ N →
      (∀ c ∈ S, c ≠ newlineByte) →
      (∀ a b, N ++ quoteByte :: S = a ++ ascii "name=\"" ++ b → quoteByte ∉ b) →
      mapGet p.renames N = some v →
      rewriteLine p.renames (sp ++ 60 :: (mid ++ ascii "name=\"" ++ N ++ quoteByte :: S)) =
        sp ++ 60 :: (mid ++ ascii "name=\"" ++ v ++ quoteByte :: S) ∧
      ∀ (k : Nat) (rest : List Bytes) (out : Bytes),
        rewriteLoop quote p (k + 1)
            ((sp ++ 60 :: (mid ++ ascii "name=\"" ++ N ++ quoteByte :: S)) :: rest) out =
          rewriteLoop quote p k rest
            (out ++ (sp ++ 60 :: (mid ++ ascii "name=\"" ++ v ++ quoteByte :: S)) ++
              [newlineByte])) ∧
    (∀ sp a N0 b M S : Bytes, (∀ c ∈ sp, c = 32) → (∀ c ∈ a, c ≠ newlineByte) →
      (∀ c ∈ N0, c ≠ newlineByte) → (∀ c ∈ b, c ≠ newlineByte) → quoteByte ∉ M →
      (∀ c ∈ S, c ≠ newlineByte) →
      (∀ x y, M ++ quoteByte :: S = x ++ ascii "name=\"" ++ y → quoteByte ∉ y) →
      rewriteLine p.renames (sp ++ 60 :: (a ++ ascii "name=\"" ++ N0 ++ quoteByte :: b ++
          ascii "name=\"" ++ M ++ quoteByte :: S)) =
        sp ++ 60 :: (a ++ ascii "name=\"" ++ N0 ++ quoteByte :: b ++
          ascii "name=\"" ++ (mapGet p.renames M).getD M ++ quoteByte :: S) ∧
      ∀ (k : Nat) (rest : List Bytes) (out : Bytes),
        rewriteLoop quote p (k + 1)
            ((sp ++ 60 :: (a ++ ascii "name=\"" ++ N0 ++ quoteByte :: b ++
              ascii "name=\"" ++ M ++ quoteByte :: S)) :: rest) out =
          rewriteLoop quote p k rest
            (out ++ (sp ++ 60 :: (a ++ ascii "name=\"" ++ N0 ++ quoteByte :: b ++
              ascii "name=\"" ++ (mapGet p.renames M).getD M ++ quoteByte :: S)) ++
              [newlineByte])) ∧
    (∀ line : Bytes, (∀ sp t : Bytes, (∀ c ∈ sp, c = 32) → line ≠ sp ++ 60 :: t) →
      rewriteLine p.renames line = line ∧
      ∀ (k : Nat) (rest : List Bytes) (out : Bytes),
        rewriteLoop quote p (k + 1) (line :: rest) out =
          rewriteLoop quote p k rest (out ++ line ++ [newlineByte])) := by
  have hq : ∀ l : Bytes, quoteByte ∈ l → l ≠ glyphOrderBytes ∧ l ≠ extraNamesBytes := by
    intro l hl
    constructor <;> (intro h; rw [h] at hl; revert hl; decide)
  refine ⟨?_, ?_, ?_⟩
  · intro sp mid N S v hsp hmid hN hS hlast hv
    have h1 := rewriteLine_last p.renames sp mid N S v hsp hmid hN hS hlast hv
    refine ⟨h1, fun k rest out => ?_⟩
    have hm := hq (sp ++ 60 :: (mid ++ ascii "name=\"" ++ v ++ quoteByte :: S)) (by simp)
    rw [← h1] at hm
    rw [rewriteLoop_line quote p _ k rest out hm.1 hm.2, h1]
  · intro sp a N0 b M S hsp ha hN0 hb hM hS hlast
    have hmid : ∀ c ∈ a ++ ascii "name=\"" ++ N0 ++ quoteByte :: b, c ≠ newlineByte := by
      intro c hc
      simp only [List.mem_append, List.mem_cons] at hc
      rcases hc with ((hc | hc) | hc) | hc | hc
      · exact ha c hc
      · intro h0
        rw [h0] at hc
        revert hc
        decide
      · exact hN0 c hc
      · rw [hc]
        decide
      · exact hb c hc
    have h1 := rewriteLine_last_any p.renames sp (a ++ ascii "name=\"" ++ N0 ++ quoteByte :: b)
      M S hsp hmid hM hS hlast
    have e : ∀ X : Bytes, sp ++ 60 :: (a ++ ascii "name=\"" ++ N0 ++ quoteByte :: b ++
          ascii "name=\"" ++ X ++ quoteByte :: S) =
        sp ++ 60 :: ((a ++ ascii "name=\"" ++ N0 ++ quoteByte :: b) ++
          ascii "name=\"" ++ X ++ quoteByte :: S) := by
      intro X
      simp only [List.append_assoc, List.cons_append]
    rw [e, e, h1]
    refine ⟨rfl, fun k rest out => ?_⟩
    have hm := hq (sp ++ 60 :: ((a ++ ascii "name=\"" ++ N0 ++ quoteByte :: b) ++
      ascii "name=\"" ++ (mapGet p.renames M).getD M ++ quoteByte :: S)) (by simp)
    rw [← h1] at hm
    rw [rewriteLoop_line quote p _ k rest out hm.1 hm.2, h1]
  · intro line hline
    have h1 := rewriteLine_other p.renames line hline
    refine ⟨h1, fun k rest out => ?_⟩
    have hg : line ≠ glyphOrderBytes := by
      have e : glyphOrderBytes = [32, 32] ++ 60 :: ascii "GlyphOrder>" := by decide
      rw [e]
      exact hline _ _ (by simp)
    have he : line ≠ extraNamesBytes := by
      have e : extraNamesBytes = [32, 32, 32, 32] ++ 60 :: ascii "extraNames>" := by decide
      rw [e]
      exact hline _ _ (by simp)
    rw [rewriteLoop_line quote p line k rest out (by rw [h1]; exact hg) (by rw [h1]; exact he),
      h1]

/-- C9 (byte-for-byte preservation): the line the output loop emits is the
input line, or the input line is `P ++ N ++ S` with `P` ending in `name="`,
`S` starting with the quote and `N` a key of `renames`, and the emitted line is
`P ++ renames[N] ++ S`. -/
theorem byte_preservation (renames : Renames) (line : Bytes) :
    rewriteLine renames line = line ∨
    ∃ P N S v, line = P ++ N ++ S ∧ ascii "name=\"" <:+ P ∧ S.head? = some quoteByte ∧
      mapGet renames N = some v ∧ rewriteLine renames line = P ++ v ++ S := by
  unfold rewriteLine
  cases hf : nameRegExpFind line with
  | none => exact Or.inl rfl
  | some r =>
    obtain ⟨x1, n, x3⟩ := r
    dsimp only
    cases hv : mapGet renames n with
    | none => exact Or.inl rfl
    | some v =>
      obtain ⟨h1, ⟨sp, mid, h2, _, _⟩, _, s1, h5, _⟩ := nameRegExpFind_some line x1 n x3 hf
      refine Or.inr ⟨x1, n, x3, v, h1, ?_, by rw [h5]; rfl, hv, rfl⟩
      rw [h2]
      exact ⟨sp ++ 60 :: mid, by simp⟩

/-- C10, as stated, fails: in the line `<x fullname="A"/>` the text `name="`
is only the tail of the identifier `fullname`, and the value is replaced all
the same when `A` is a key of `renames`. -/
theorem exact_anchoring_counterexample :
    mapGet [(ascii "A", ascii "B")] (ascii "A") = some (ascii "B") ∧
    rewriteLine [(ascii "A", ascii "B")] (ascii "<x fullname=\"A\"/>") =
      ascii "<x fullname=\"B\"/>" ∧
    rewriteLine [(ascii "A", ascii "B")] (ascii "<x fullname=\"A\"/>") ≠
      ascii "<x fullname=\"A\"/>" := by
  decide

/-- C10, amended: the rewriter replaces a value only when, on a line that
starts with spaces and `<`, the value stands between the text `name="` and the
next quote; the text before `name="` is not looked at, so in the line
`<x fullname="A"/>` the value is replaced when `A` is a key of `renames`. -/
theorem anchoring_on_text (renames : Renames) :
    (∀ line : Bytes, rewriteLine renames line ≠ line →
      ∃ sp mid N S v, line = sp ++ 60 :: (mid ++ ascii "name=\"" ++ N ++ quoteByte :: S) ∧
        (∀ c ∈ sp, c = 32) ∧ quoteByte ∉ N ∧ mapGet renames N = some v ∧
        rewriteLine renames line = sp ++ 60 :: (mid ++ ascii "name=\"" ++ v ++ quoteByte :: S)) ∧
    (∀ A v : Bytes, quoteByte ∉ A → mapGet renames A = some v →
      rewriteLine renames (ascii "<x fullname=\"" ++ A ++ ascii "\"/>") =
        ascii "<x fullname=\"" ++ v ++ ascii "\"/>") := by
  constructor
  · intro line hne
    unfold rewriteLine at hne ⊢
    cases hf : nameRegExpFind line with
    | none => rw [hf] at hne; exact absurd rfl hne
    | some r =>
      obtain ⟨x1, n, x3⟩ := r
      rw [hf] at hne
      dsimp only at hne ⊢
      cases hv : mapGet renames n with
      | none => rw [hv] at hne; exact absurd rfl hne
      | some v =>
        obtain ⟨h1, ⟨sp, mid, h2, h3, _⟩, h4, s1, h5, _⟩ := nameRegExpFind_some line x1 n x3 hf
        refine ⟨sp, mid, n, s1, v, ?_, h3, h4, hv, ?_⟩
        · rw [h1, h2, h5]; simp
        · rw [h2, h5]; simp
  · intro A v hA hv
    have h1 : ascii "<x fullname=\"" = [] ++ 60 :: (ascii "x full" ++ ascii "name=\"") := by decide
    have h2 : ascii "\"/>" = quoteByte :: ascii "/>" := by decide
    have h := rewriteLine_last renames [] (ascii "x full") A (ascii "/>") v (by simp) (by decide) hA
      (by decide) (last_of_one_quote A (ascii "/>") hA (by decide)) hv
    rw [h1, h2]
    simpa using h

/-! ## The output loop ends -/

/-- The output loop returns when its bound is at least the number of lines:
every iteration removes a line, `writeGlyphOrder` and `writeExtraNames` only
remove more. -/
theorem rewriteLoop_total (quote : Bytes → Bytes) (p : Plan) :
    ∀ (k : Nat) (lines : List Bytes) (out : Bytes), lines.length ≤ k →
      ∃ res, rewriteLoop quote p k lines out = some res
  | _, [], out, _ => ⟨out, by cases ‹Nat› <;> rfl⟩
  | 0, _ :: _, _, h => by simp at h
  | k + 1, l :: lines, out, h => by
    have hk : lines.length ≤ k := by simpa using h
    have hd : ∀ q : Bytes → Bool, (lines.dropWhile q).length ≤ k := fun q =>
      Nat.le_trans (List.dropWhile_sublist q).length_le hk
    rw [rewriteLoop]
    split
    · exact rewriteLoop_total quote p k _ _ (hd _)
    · split
      · exact rewriteLoop_total quote p k _ _ (hd _)
      · exact rewriteLoop_total quote p k _ _ hk

theorem resolveStep_iterations (gi : Int → Option Nat) (st : ResolveState) (r : Int) :
    resolveStep gi st r ≠ .error .iterations := by
  unfold resolveStep
  cases gi r with
  | none => simp
  | some x =>
    dsimp only
    split
    · simp
    · cases st.entries[x]? with
      | none => simp
      | some e =>
        dsimp only
        split
        · simp
        · split <;> simp

theorem resolveLoop_iterations (gi : Int → Option Nat) : ∀ (rs : List Int) (st : ResolveState),
    resolveLoop gi rs st ≠ .error .iterations
  | [], st => by simp [resolveLoop]
  | r :: rs, st => by
    unfold resolveLoop
    cases hs : resolveStep gi st r with
    | error f =>
      intro h
      have hf : f = .iterations := by simpa using h
      subst hf
      exact resolveStep_iterations gi st r hs
    | ok st1 => exact resolveLoop_iterations gi rs st1

/-- The function `rewrite` never stops on the bound of the output loop. -/
theorem rewrite_iterations (quote : Bytes → Bytes) (gi : Int → Option Nat) (data : Bytes) :
    rewrite quote gi data ≠ .error .iterations := by
  unfold rewrite
  cases hp : plan gi (splitLines data) with
  | error f =>
    intro h
    have hf : f = .iterations := by simpa using h
    subst hf
    unfold plan at hp
    cases hr : resolve gi (loadEntries (splitLines data) []) with
    | error f =>
      rw [hr] at hp
      have hf : f = .iterations := by simpa using hp
      subst hf
      exact resolveLoop_iterations gi _ _ hr
    | ok st =>
      rw [hr] at hp
      dsimp only at hp
      cases he : st.entries with
      | nil => simp [he, sortTail] at hp
      | cons e0 rest => simp [he, sortTail] at hp
  | ok p =>
    obtain ⟨res, hres⟩ := rewriteLoop_total quote p _ (splitLines data) [] (Nat.le_refl _)
    simp [hres]

theorem example_decoder_ok : ∀ r : Int, 0 ≤ r → r < 0xffff →
    ∃ x, exampleGlyphIndex r = some x ∧ x < (loadEntries exampleLines []).length := by
  intro r _ _
  rw [example_loaded]
  unfold exampleGlyphIndex
  split_ifs <;> exact ⟨_, rfl, by decide⟩

theorem example_distinct : ((loadEntries exampleLines []).map entry.oldName).Nodup := by
  rw [example_loaded]
  decide

/-! ## The claims at the worked input -/

/-- C1 at the worked input: `A` (code point 0x5C) stands before `dz` (0x1F3),
and of the two unresolved glyphs `.null` stands before `zeta`. -/
theorem ordering_invariant_witness :
    plan exampleGlyphIndex exampleLines = .ok examplePlan ∧
    examplePlan.entries[1]? = some ⟨1, ascii "A", ascii "backslash", 0x5C⟩ ∧
    examplePlan.entries[2]? = some ⟨5, ascii "dz", ascii "uni01F3", 0x1F3⟩ ∧
    examplePlan.entries[5]? = some ⟨6, ascii ".null", ascii ".null", notSeen⟩ ∧
    examplePlan.entries[6]? = some ⟨4, ascii "zeta", ascii "zeta", notSeen⟩ ∧
    (1 : Nat) < 2 ∧ (5 : Nat) < 6 :=
  ⟨example_plan, rfl, rfl, rfl, rfl,
    (ordering_invariant exampleGlyphIndex exampleLines examplePlan 1 2 _ _ example_plan
      (by decide) (by decide) rfl rfl).1 (by decide),
    (ordering_invariant exampleGlyphIndex exampleLines examplePlan 5 6 _ _ example_plan
      (by decide) (by decide) rfl rfl).2 rfl (by decide)⟩

/-- C2 at the worked input. -/
theorem placeholder_invariant_witness :
    plan exampleGlyphIndex exampleLines = .ok examplePlan ∧
    ∃ e0 rest, examplePlan.entries = e0 :: rest ∧ e0.oldID = 0 ∧ (∀ e ∈ rest, e.oldID ≠ 0) ∧
      (loadEntries exampleLines [])[0]?.map entry.oldName = some e0.oldName ∧
      (writeGlyphOrder (fun s => s) [] [] examplePlan.entries).1 =
        [] ++ (ascii "<GlyphID id=\"0\" name=" ++ (fun s => s) e0.newName ++ ascii "/>\n"
          ++ glyphOrderRecords (fun s => s) 1 rest) :=
  ⟨example_plan,
    placeholder_invariant (fun s => s) exampleGlyphIndex exampleLines examplePlan [] [] example_plan⟩

/-- C3 at the worked input. -/
theorem bijection_invariant_witness :
    plan exampleGlyphIndex exampleLines = .ok examplePlan ∧
    examplePlan.entries.length = (loadEntries exampleLines []).length ∧
    (examplePlan.entries.map entry.oldID).Perm (List.range (loadEntries exampleLines []).length) ∧
    (∀ i, i < (loadEntries exampleLines []).length →
      (examplePlan.entries.map entry.oldID).count i = 1) ∧
    (examplePlan.entries.map (fun e => (e.oldID, e.oldName))).Perm
      ((loadEntries exampleLines []).map (fun e => (e.oldID, e.oldName))) :=
  ⟨example_plan, bijection_invariant exampleGlyphIndex exampleLines examplePlan example_plan⟩

/-- C4 at the worked input: glyph 1 is returned for 0x5C and for 0xFF3C and
holds 0x5C; glyph 4 is returned for no code point and holds `notSeen`. -/
theorem lowest_code_point_wins_witness :
    exampleGlyphIndex 0x5C = some 1 ∧ exampleGlyphIndex 0xFF3C = some 1 ∧
    ∃ st, resolve exampleGlyphIndex (loadEntries exampleLines []) = .ok st ∧
      (∀ e, st.entries[1]? = some e → e.r = 0x5C) ∧
      (∀ e, st.entries[4]? = some e → e.r = notSeen) := by
  refine ⟨by decide, by decide, ?_⟩
  obtain ⟨st, h1, _, h3⟩ :=
    lowest_code_point_wins exampleGlyphIndex exampleLines example_decoder_ok
  refine ⟨st, h1, ?_, ?_⟩
  · intro e he
    refine (h3 1 e he).1 0x5C (by decide) (by decide) (by decide) (by decide) ?_
    intro r1 _ hlt
    unfold exampleGlyphIndex
    rw [if_neg (by omega), if_neg (by omega), if_neg (by omega), if_neg (by omega),
      if_neg (by omega)]
    decide
  · intro e he
    refine (h3 4 e he).2 ?_
    intro r _ _
    unfold exampleGlyphIndex
    split_ifs <;> decide

set_option maxRecDepth 8000 in
/-- C5 at the worked input: `dz`, resolved at 0x1F3, which is no key of
`aglfn`, is named `uni01F3`. -/
theorem name_assignment_witness :
    plan exampleGlyphIndex exampleLines = .ok examplePlan ∧
    (⟨5, ascii "dz", ascii "uni01F3", 0x1F3⟩ : entry) ∈ examplePlan.entries ∧
    aglfnGet 0x1F3 = none ∧ ascii "uni01F3" = ascii "uni" ++ sprintf04X 0x1F3 ∧
    ascii "uni01F3" = ascii "uni" ++ [hexDigitUpper ((0x1F3 : Int).toNat / 4096),
      hexDigitUpper ((0x1F3 : Int).toNat / 256 % 16), hexDigitUpper ((0x1F3 : Int).toNat / 16 % 16),
      hexDigitUpper ((0x1F3 : Int).toNat % 16)] :=
  ⟨example_plan, by decide, by decide,
    (name_assignment exampleGlyphIndex exampleLines examplePlan ⟨5, ascii "dz", ascii "uni01F3", 0x1F3⟩
      example_plan (by decide) (by decide) (by decide)).2 (by decide)⟩

/-- C6 at the worked input: `logo`, resolved at 0xE000, keeps its name and is
no key of `renames`, whose three pairs are those of the renamed entries. -/
theorem private_use_exemption_witness :
    plan exampleGlyphIndex exampleLines = .ok examplePlan ∧
    (⟨3, ascii "logo", ascii "logo", 0xE000⟩ : entry) ∈ examplePlan.entries ∧
    ((loadEntries exampleLines []).map entry.oldName).Nodup ∧
    ascii "logo" = ascii "logo" ∧
    examplePlan.renames.Perm ((examplePlan.entries.filter
      (fun e => decide (e.newName ≠ e.oldName))).map (fun e => (e.oldName, e.newName))) ∧
    mapGet examplePlan.renames (ascii "logo") = none :=
  ⟨example_plan, by decide, example_distinct,
    (private_use_exemption exampleGlyphIndex exampleLines examplePlan example_plan).1
      ⟨3, ascii "logo", ascii "logo", 0xE000⟩ (by decide) (by decide) (by decide),
    (private_use_exemption exampleGlyphIndex exampleLines examplePlan example_plan).2.1,
    (private_use_exemption exampleGlyphIndex exampleLines examplePlan example_plan).2.2
      example_distinct ⟨3, ascii "logo", ascii "logo", 0xE000⟩ (by decide) (by decide) (by decide)⟩

/-- C7 at the worked input: the entry `A` is printed as `backslash`, which is
`renames["A"]`, and the metrics record of `A` is rewritten to `backslash`. -/
theorem consistent_renaming_witness :
    ((loadEntries exampleLines []).map entry.oldName).Nodup ∧
    plan exampleGlyphIndex exampleLines = .ok examplePlan ∧
    (⟨1, ascii "A", ascii "backslash", 0x5C⟩ : entry) ∈ examplePlan.entries ∧
    nameRegExpFind (ascii "    <mtx name=\"A\" width=\"500\" lsb=\"0\"/>") =
      some (ascii "    <mtx name=\"", ascii "A", ascii "\" width=\"500\" lsb=\"0\"/>") ∧
    ascii "backslash" = (match mapGet examplePlan.renames (ascii "A") with
      | some n => n
      | none => ascii "A") ∧
    rewriteLine examplePlan.renames (ascii "    <mtx name=\"A\" width=\"500\" lsb=\"0\"/>") =
      ascii "    <mtx name=\"" ++ ascii "backslash" ++ ascii "\" width=\"500\" lsb=\"0\"/>" :=
  ⟨example_distinct, example_plan, by decide, by decide,
    (consistent_renaming exampleGlyphIndex exampleLines examplePlan example_distinct example_plan
      ⟨1, ascii "A", ascii "backslash", 0x5C⟩ (by decide)).1,
    (consistent_renaming exampleGlyphIndex exampleLines examplePlan example_distinct example_plan
      ⟨1, ascii "A", ascii "backslash", 0x5C⟩ (by decide)).2 _ _ _ (by decide)⟩

/-- C8, amended, on the worked input: in the metrics record the reference to
`A` becomes a reference to `backslash`; in a line with two attributes the first
`name="A"` stays; a line of text stays. -/
theorem rename_completeness_last_witness :
    mapGet examplePlan.renames (ascii "A") = some (ascii "backslash") ∧
    rewriteLine examplePlan.renames (ascii "    <mtx name=\"A\" width=\"500\" lsb=\"0\"/>") =
      ascii "    <mtx name=\"backslash\" width=\"500\" lsb=\"0\"/>" ∧
    rewriteLoop (fun s => s) examplePlan 1
        [ascii "    <mtx name=\"A\" width=\"500\" lsb=\"0\"/>"] [] =
      rewriteLoop (fun s => s) examplePlan 0 []
        (ascii "    <mtx name=\"backslash\" width=\"500\" lsb=\"0\"/>" ++ [newlineByte]) ∧
    rewriteLine examplePlan.renames (ascii "<a name=\"A\"/><b name=\"C\"/>") =
      ascii "<a name=\"A\"/><b name=\"C\"/>" ∧
    rewriteLine examplePlan.renames (ascii "name=\"A\"") = ascii "name=\"A\"" :=
  have h := rename_completeness_last (fun s => s) examplePlan
  have h1 := h.1 (ascii "    ") (ascii "mtx ") (ascii "A")
      (ascii " width=\"500\" lsb=\"0\"/>") (ascii "backslash") (by decide) (by decide)
      (by decide) (by decide) (last_of_absent _ (by decide)) (by decide)
  have h2 := (h.2.1 [] (ascii "a ") (ascii "A") (ascii "/><b ") (ascii "C") (ascii "/>")
      (by decide) (by decide) (by decide) (by decide) (by decide) (by decide)
      (last_of_one_quote (ascii "C") (ascii "/>") (by decide) (by decide))).1
  have h3 := (h.2.2 (ascii "name=\"A\"") (fun sp t hsp e => by
      have hm : (110 : Nat) ∈ sp ++ 60 :: t := by
        rw [← e]
        decide
      have h110 : (ascii "name=\"A\"").head? = some 110 := by decide
      rw [e] at h110
      cases sp with
      | nil => simp at h110
      | cons c sp1 =>
        simp only [List.cons_append, List.head?_cons, Option.some.injEq] at h110
        have := hsp c (List.mem_cons_self _ _)
        omega)).1
  ⟨by decide, h1.1, h1.2 0 [] [], h2, h3⟩

/-! ## The output loop as a state machine -/

theorem rewriteLine_changed (renames : Renames) (l : Bytes) (h : rewriteLine renames l ≠ l) :
    quoteByte ∈ rewriteLine renames l := by
  rcases byte_preservation renames l with h1 | ⟨P, N, S, v, _, h2, _, _, h5⟩
  · exact absurd h1 h
  · rw [h5]
    obtain ⟨t, rfl⟩ := h2
    have : quoteByte ∈ ascii "name=\"" := by decide
    simp [this]

/-- A line is a start marker after the rewriting exactly when it is one before. -/
theorem rewriteLine_eq_marker (renames : Renames) (l m : Bytes) (hm : quoteByte ∉ m)
    (hf : nameRegExpFind m = none) : rewriteLine renames l = m ↔ l = m := by
  constructor
  · intro h
    by_cases hc : rewriteLine renames l = l
    · rw [← hc, h]
    · exact absurd (h ▸ rewriteLine_changed renames l hc) hm
  · intro h
    subst h
    simp [rewriteLine, hf]

theorem rewriteLine_glyphOrderBytes (renames : Renames) (l : Bytes) :
    rewriteLine renames l = glyphOrderBytes ↔ l = glyphOrderBytes :=
  rewriteLine_eq_marker renames l _ (by decide) (by decide)

theorem rewriteLine_extraNamesBytes (renames : Renames) (l : Bytes) :
    rewriteLine renames l = extraNamesBytes ↔ l = extraNamesBytes :=
  rewriteLine_eq_marker renames l _ (by decide) (by decide)

/-- Inside a loop that drops lines, the output is that of the main loop from
the sentinel on. -/
theorem emitFrom_skip (quote : Bytes → Bytes) (p : Plan) (s : Bytes) : ∀ ls : List Bytes,
    emitFrom quote p (some s) ls = emitFrom quote p none (ls.dropWhile (fun l => l ≠ s))
  | [] => rfl
  | l :: ls => by
    by_cases h : l = s
    · subst h
      rw [List.dropWhile_cons_of_neg (by simp)]
      simp [emitFrom]
    · rw [List.dropWhile_cons_of_pos (by simpa using h)]
      rw [← emitFrom_skip quote p s ls]
      have h2 : some s ≠ some l := fun e => h (Option.some.inj e).symm
      simp [emitFrom, h2]

/-- The output loop, with a bound of at least the number of lines, writes
what the state machine gives from the state NORMAL. -/
theorem rewriteLoop_emit (quote : Bytes → Bytes) (p : Plan) :
    ∀ (k : Nat) (lines : List Bytes) (out : Bytes), lines.length ≤ k →
      rewriteLoop quote p k lines out = some (out ++ emitFrom quote p none lines)
  | k, [], out, _ => by cases k <;> simp [rewriteLoop, emitFrom]
  | 0, _ :: _, _, h => by simp at h
  | k + 1, l :: lines, out, h => by
    have hk : lines.length ≤ k := by simpa using h
    have hd : ∀ q : Bytes → Bool, (lines.dropWhile q).length ≤ k := fun q =>
      Nat.le_trans (List.dropWhile_sublist q).length_le hk
    rw [rewriteLoop]
    by_cases h1 : rewriteLine p.renames l = glyphOrderBytes
    · simp only [h1, if_true, writeGlyphOrder]
      rw [rewriteLoop_emit quote p k _ _ (hd _)]
      simp [emitFrom, h1, emitFrom_skip]
    · by_cases h2 : rewriteLine p.renames l = extraNamesBytes
      · have hne : extraNamesBytes ≠ glyphOrderBytes := by decide
        simp only [h1, h2, if_true, if_false, writeExtraNames]
        rw [rewriteLoop_emit quote p k _ _ (hd _)]
        simp [emitFrom, h2, hne, emitFrom_skip]
      · simp only [h1, h2, if_false]
        rw [rewriteLoop_emit quote p k _ _ hk]
        simp [emitFrom, h1, h2]

/-- The function `rewrite` returns what the state machine gives, whenever the
part before the output loop goes through. -/
theorem rewrite_ok (quote : Bytes → Bytes) (gi : Int → Option Nat) (data : Bytes)
    (lines : List Bytes) (p : Plan) (hd : splitLines data = lines)
    (hp : plan gi lines = .ok p) :
    rewrite quote gi data = .ok (emitFrom quote p none lines) := by
  unfold rewrite
  rw [hd, hp]
  simp [rewriteLoop_emit quote p lines.length lines [] (Nat.le_refl _)]

/-- The function `rewrite` fails as the part before the output loop does. -/
theorem rewrite_error (quote : Bytes → Bytes) (gi : Int → Option Nat) (data : Bytes)
    (f : Failure) (hp : plan gi (splitLines data) = .error f) :
    rewrite quote gi data = .error f := by
  unfold rewrite
  rw [hp]

/-- The output of the lines `pre ++ rest` is that of `pre` followed by that of
`rest` from the state in which `pre` leaves the loop. -/
theorem emitFrom_append (quote : Bytes → Bytes) (p : Plan) (rest : List Bytes) :
    ∀ (pre : List Bytes) (st : Option Bytes),
      emitFrom quote p st (pre ++ rest) =
        emitFrom quote p st pre ++ emitFrom quote p (sectionState st pre) rest
  | [], st => by simp [emitFrom, sectionState]
  | l :: pre, st => by
    have ih := emitFrom_append quote p rest pre
    have hne : extraNamesBytes ≠ glyphOrderBytes := by decide
    simp only [List.cons_append, emitFrom, sectionState, rewriteLine_glyphOrderBytes,
      rewriteLine_extraNamesBytes]
    by_cases h : st ≠ none ∧ st ≠ some l
    · simp only [if_pos h]
      exact ih st
    · simp only [if_neg h]
      by_cases h1 : l = glyphOrderBytes
      · simp [h1, ih]
      · by_cases h2 : l = extraNamesBytes
        · simp [h2, hne, ih]
        · simp [h1, h2, ih]

/-! ## The replaced sections -/

theorem example_document_lines : splitLines exampleDocument = documentLines := by decide

theorem example_document_plan : plan exampleGlyphIndex documentLines = .ok examplePlan :=
  plan_of_resolve exampleGlyphIndex documentLines exampleLoaded _ _ (by decide) example_resolve
    (by decide)

theorem flushRun_nil (quoteOther : Bytes → Bytes) : flushRun quoteOther [] = [] := rfl

/-- The verb `%q` on a name of printable ASCII without quote or backslash
writes the name between two quotes. -/
theorem strconvQuote_printable (quoteOther : Bytes → Bytes) (s : Bytes)
    (h : ∀ c ∈ s, 0x20 ≤ c ∧ c ≤ 0x7E ∧ c ≠ 34 ∧ c ≠ 92) :
    strconvQuote quoteOther s = [34] ++ s ++ [34] := by
  have key : ∀ t : Bytes, (∀ c ∈ t, 0x20 ≤ c ∧ c ≤ 0x7E ∧ c ≠ 34 ∧ c ≠ 92) →
      quoteRuns quoteOther [] t = t := by
    intro t
    induction t with
    | nil => intro _; rfl
    | cons c cs ih =>
      intro ht
      obtain ⟨h1, h2, h3, h4⟩ := ht c (List.mem_cons_self _ _)
      have hp : isPrintASCII c = true := by simp [isPrintASCII, h1, h2]
      have hn : ¬ (c = 34 ∨ c = 92) := by omega
      rw [quoteRuns, if_pos hp, if_neg hn, flushRun_nil,
        ih (fun d hd => ht d (List.mem_cons_of_mem _ hd))]
      rfl
  rw [strconvQuote, key s h]

theorem glyphOrderRecords_flatten (quote : Bytes → Bytes) : ∀ (es : List entry) (i : Nat),
    glyphOrderRecords quote i es =
      ((es.enumFrom i).map (fun ie => glyphOrderRecord quote ie.1 ie.2)).flatten
  | [], _ => rfl
  | e :: es, i => by
    rw [glyphOrderRecords, glyphOrderRecords_flatten quote es (i + 1)]
    simp [List.enumFrom, glyphOrderRecord]

theorem extraNamesRecords_flatten (quote : Bytes → Bytes) : ∀ ns : List Bytes,
    extraNamesRecords quote ns = (ns.map (extraNamesRecord quote)).flatten
  | [] => rfl
  | n :: ns => by
    rw [extraNamesRecords, extraNamesRecords_flatten quote ns]
    simp [extraNamesRecord]

/-- The output of a replaced section: the start line, the records, and then
the output from the sentinel line on; the lines before the sentinel are
dropped. -/
theorem emitFrom_section (quote : Bytes → Bytes) (p : Plan) (start s records : Bytes)
    (mid rest : List Bytes) (hmid : s ∉ mid)
    (hstart : ∀ ls, emitFrom quote p none (start :: ls) =
      start ++ [newlineByte] ++ (records ++ emitFrom quote p (some s) ls)) :
    emitFrom quote p none (start :: (mid ++ rest)) =
      start ++ [newlineByte] ++ records
        ++ emitFrom quote p none (rest.dropWhile (fun l => l ≠ s)) := by
  rw [hstart, emitFrom_skip, List.dropWhile_append_of_pos (fun l hl => by
    have : l ≠ s := fun e => hmid (e ▸ hl)
    simpa using this)]
  simp

theorem emitFrom_glyphOrderBytes (quote : Bytes → Bytes) (p : Plan) (ls : List Bytes) :
    emitFrom quote p none (glyphOrderBytes :: ls) =
      glyphOrderBytes ++ [newlineByte] ++
        (glyphOrderRecords quote 0 p.entries ++ emitFrom quote p (some glyphOrderSentinel) ls) := by
  simp [emitFrom, (rewriteLine_glyphOrderBytes p.renames glyphOrderBytes).2 rfl]

theorem emitFrom_extraNamesBytes (quote : Bytes → Bytes) (p : Plan) (ls : List Bytes) :
    emitFrom quote p none (extraNamesBytes :: ls) =
      extraNamesBytes ++ [newlineByte] ++
        (extraNamesRecords quote p.extraNames ++ emitFrom quote p (some extraNamesSentinel) ls) := by
  have hne : extraNamesBytes ≠ glyphOrderBytes := by decide
  simp [emitFrom, (rewriteLine_extraNamesBytes p.renames extraNamesBytes).2 rfl, hne]

/-- A line that is no start marker is written as the rewriting leaves it. -/
theorem emitFrom_plain (quote : Bytes → Bytes) (p : Plan) (l : Bytes) (ls : List Bytes)
    (h1 : l ≠ glyphOrderBytes) (h2 : l ≠ extraNamesBytes) :
    emitFrom quote p none (l :: ls) =
      rewriteLine p.renames l ++ [newlineByte] ++ emitFrom quote p none ls := by
  simp [emitFrom, rewriteLine_glyphOrderBytes, rewriteLine_extraNamesBytes, h1, h2]

theorem rewriteLine_sentinel (renames : Renames) (s : Bytes) (h : nameRegExpFind s = none) :
    rewriteLine renames s = s := by
  simp [rewriteLine, h]

theorem emitFrom_glyphOrderSentinel (quote : Bytes → Bytes) (p : Plan) (ls : List Bytes) :
    emitFrom quote p none (glyphOrderSentinel :: ls) =
      glyphOrderSentinel ++ [newlineByte] ++ emitFrom quote p none ls := by
  rw [emitFrom_plain quote p _ ls (by decide) (by decide),
    rewriteLine_sentinel p.renames _ (by decide)]

theorem emitFrom_extraNamesSentinel (quote : Bytes → Bytes) (p : Plan) (ls : List Bytes) :
    emitFrom quote p none (extraNamesSentinel :: ls) =
      extraNamesSentinel ++ [newlineByte] ++ emitFrom quote p none ls := by
  rw [emitFrom_plain quote p _ ls (by decide) (by decide),
    rewriteLine_sentinel p.renames _ (by decide)]

/-! ## The extra names -/

theorem bytesLess_negTrans (x y z : Bytes) (h1 : bytesLess y x = false)
    (h2 : bytesLess z y = false) : bytesLess z x = false := by
  cases h : bytesLess z x
  · rfl
  · exfalso
    cases hyz : bytesLess y z
    · have := bytesLess_total _ _ hyz h2
      rw [this] at h1
      rw [h1] at h; cases h
    · have := bytesLess_trans _ _ _ hyz h
      rw [h1] at this; cases this

theorem insertString_perm (s : Bytes) (xs : List Bytes) : (insertString s xs).Perm (s :: xs) := by
  induction xs with
  | nil => exact List.Perm.refl _
  | cons x xs ih =>
    unfold insertString
    split
    · exact (List.Perm.cons x ih).trans (List.Perm.swap s x xs)
    · exact List.Perm.refl _

theorem sortStrings_perm (xs : List Bytes) : (sortStrings xs).Perm xs := by
  induction xs with
  | nil => exact List.Perm.refl _
  | cons x xs ih => exact (insertString_perm x (sortStrings xs)).trans (List.Perm.cons x ih)

theorem insertString_sorted (s : Bytes) (xs : List Bytes)
    (h : xs.Pairwise (fun a b => bytesLess b a = false)) :
    (insertString s xs).Pairwise (fun a b => bytesLess b a = false) := by
  induction xs with
  | nil => simp [insertString]
  | cons x xs ih =>
    rw [List.pairwise_cons] at h
    unfold insertString
    by_cases hx : bytesLess x s = true
    · simp only [hx, if_true]
      rw [List.pairwise_cons]
      refine ⟨?_, ih h.2⟩
      intro y hy
      rcases List.mem_cons.1 ((insertString_perm s xs).mem_iff.1 hy) with rfl | hy
      · exact bytesLess_asymm _ _ hx
      · exact h.1 y hy
    · simp only [hx]
      rw [Bool.not_eq_true] at hx
      rw [if_neg (by simp), List.pairwise_cons]
      refine ⟨?_, List.pairwise_cons.2 h⟩
      intro y hy
      rcases List.mem_cons.1 hy with rfl | hy
      · exact hx
      · exact bytesLess_negTrans _ _ _ hx (h.1 y hy)

theorem sortStrings_sorted (xs : List Bytes) :
    (sortStrings xs).Pairwise (fun a b => bytesLess b a = false) := by
  induction xs with
  | nil => exact List.Pairwise.nil
  | cons x xs ih => exact insertString_sorted x _ ih

/-- The result of `sort.Strings` is in ascending order: of two elements the
earlier is bytewise smaller than the later, or equal to it. -/
theorem sortStrings_ascending (xs : List Bytes) :
    (sortStrings xs).Pairwise (fun a b => bytesLess a b = true ∨ a = b) := by
  refine (sortStrings_sorted xs).imp ?_
  intro a b h
  cases hab : bytesLess a b
  · exact Or.inr (bytesLess_total a b hab h)
  · exact Or.inl rfl

theorem collectExtraNames_eq (es : List entry) :
    collectExtraNames es = (es.map entry.newName).filter (fun n => !builtInsGet n) := by
  induction es with
  | nil => rfl
  | cons e es ih =>
    unfold collectExtraNames
    by_cases h : builtInsGet e.newName = true
    · simp [h, ih]
    · simp [h, ih]

theorem builtInsGet_iff (n : Bytes) : builtInsGet n = true ↔ n ∈ builtIns := by
  simp [builtInsGet]

/-- The list `extraNames` of the plan is, up to its order, the new names of
the entries of the plan that are not built in. -/
theorem plan_extraNames_perm (gi : Int → Option Nat) (lines : List Bytes) (p : Plan)
    (hp : plan gi lines = .ok p) :
    p.extraNames.Perm ((p.entries.map entry.newName).filter (fun n => !builtInsGet n)) ∧
    p.extraNames.Pairwise (fun a b => bytesLess a b = true ∨ a = b) := by
  obtain ⟨st, e0, rest, _, h2, h3, _, h5⟩ := plan_ok gi lines p hp
  have hperm : p.entries.Perm st.entries := by
    rw [h2, h3]; exact List.Perm.cons _ (sortByR_perm rest)
  rw [h5]
  refine ⟨?_, sortStrings_ascending _⟩
  rw [collectExtraNames_eq]
  exact (sortStrings_perm _).trans ((hperm.symm.map _).filter _)

/-- C13 (content of `extraNames`): after the names are assigned, a name is in
`extraNames` exactly when it is the new name of some entry and is no key of
`builtIns`, and `extraNames` is in ascending bytewise order. -/
theorem extra_names_content (gi : Int → Option Nat) (lines : List Bytes) (p : Plan)
    (hp : plan gi lines = .ok p) :
    (∀ n : Bytes, n ∈ p.extraNames ↔ (∃ e ∈ p.entries, e.newName = n) ∧ n ∉ builtIns) ∧
    p.extraNames.Pairwise (fun a b => bytesLess a b = true ∨ a = b) := by
  obtain ⟨h1, h2⟩ := plan_extraNames_perm gi lines p hp
  refine ⟨?_, h2⟩
  intro n
  rw [h1.mem_iff, List.mem_filter, List.mem_map, ← builtInsGet_iff]
  simp

/-- C14, amended: `extraNames` holds a name that is not built in once for each
entry that carries it as its new name; so it contains no name twice when the
new names of the entries are pairwise distinct. -/
theorem extra_names_count (gi : Int → Option Nat) (lines : List Bytes) (p : Plan)
    (hp : plan gi lines = .ok p) :
    (∀ n : Bytes, n ∉ builtIns →
      p.extraNames.countP (fun m => decide (m = n)) =
        p.entries.countP (fun e => decide (e.newName = n))) ∧
    ((p.entries.map entry.newName).Nodup → p.extraNames.Nodup) := by
  obtain ⟨h1, _⟩ := plan_extraNames_perm gi lines p hp
  constructor
  · intro n hn
    rw [h1.countP_eq, List.countP_filter, List.countP_map]
    apply List.countP_congr
    intro e _
    rw [← builtInsGet_iff] at hn
    constructor
    · intro h
      simp only [Function.comp, Bool.and_eq_true, decide_eq_true_eq] at h
      simpa using h.1
    · intro h
      have he : e.newName = n := by simpa using h
      simp only [Function.comp, Bool.and_eq_true, decide_eq_true_eq]
      refine ⟨he, ?_⟩
      rw [he]
      simpa using hn
  · intro hnd
    rw [h1.nodup_iff]
    exact hnd.sublist (List.filter_sublist _)

/-! ## The claims on the replaced sections -/

/-- C11 (glyph-order emission): when the output loop comes in the state NORMAL
to the line `  <GlyphOrder>` and the line `  </GlyphOrder>` follows later,
`rewrite` returns the output of the lines before, the start line, one record
for each entry of the plan in the order of the plan, the end line, and the
output of the lines after it; no line between the two markers is written.  The
record of the entry at position `i` carries `id="i"` and the new name as the
verb `%q` prints it: between two quotes, for a name of printable ASCII without
quote or backslash. -/
theorem glyph_order_emission (quoteOther : Bytes → Bytes) (gi : Int → Option Nat)
    (data : Bytes) (lines : List Bytes) (p : Plan) (pre mid post : List Bytes)
    (hd : splitLines data = lines) (hp : plan gi lines = .ok p)
    (hs : lines = pre ++ glyphOrderBytes :: (mid ++ glyphOrderSentinel :: post))
    (hpre : sectionState none pre = none) (hmid : glyphOrderSentinel ∉ mid) :
    rewrite (strconvQuote quoteOther) gi data =
      .ok (emitFrom (strconvQuote quoteOther) p none pre
        ++ (glyphOrderBytes ++ [newlineByte])
        ++ (p.entries.enum.map (fun ie =>
            ascii "<GlyphID id=\"" ++ sprintfD ie.1 ++ ascii "\" name="
              ++ strconvQuote quoteOther ie.2.newName ++ ascii "/>\n")).flatten
        ++ (glyphOrderSentinel ++ [newlineByte])
        ++ emitFrom (strconvQuote quoteOther) p none post) ∧
    ∀ e ∈ p.entries, (∀ c ∈ e.newName, 0x20 ≤ c ∧ c ≤ 0x7E ∧ c ≠ 34 ∧ c ≠ 92) →
      strconvQuote quoteOther e.newName = ascii "\"" ++ e.newName ++ ascii "\"" := by
  constructor
  · rw [rewrite_ok _ gi data lines p hd hp, hs, emitFrom_append, hpre,
      emitFrom_section _ p glyphOrderBytes glyphOrderSentinel
        (glyphOrderRecords (strconvQuote quoteOther) 0 p.entries) mid _ hmid
        (emitFrom_glyphOrderBytes _ p),
      List.dropWhile_cons_of_neg (by simp), emitFrom_glyphOrderSentinel,
      glyphOrderRecords_flatten]
    have : (fun ie : Nat × entry => glyphOrderRecord (strconvQuote quoteOther) ie.1 ie.2) =
        fun ie => ascii "<GlyphID id=\"" ++ sprintfD ie.1 ++ ascii "\" name="
          ++ strconvQuote quoteOther ie.2.newName ++ ascii "/>\n" := rfl
    rw [this]
    simp [List.enum]
  · intro e _ hc
    rw [strconvQuote_printable quoteOther e.newName hc]
    rfl

/-- C12 (auxiliary-name emission): when the output loop comes in the state
NORMAL to the line `    <extraNames>` and the line `    </extraNames>`
follows later, `rewrite` returns the output of the lines before, the start
line, one `psName` record for each element of `extraNames` in the order of that
list, which is ascending, the end line, and the output of the lines after it;
no line between the two markers is written. -/
theorem extra_names_emission (quote : Bytes → Bytes) (gi : Int → Option Nat)
    (data : Bytes) (lines : List Bytes) (p : Plan) (pre mid post : List Bytes)
    (hd : splitLines data = lines) (hp : plan gi lines = .ok p)
    (hs : lines = pre ++ extraNamesBytes :: (mid ++ extraNamesSentinel :: post))
    (hpre : sectionState none pre = none) (hmid : extraNamesSentinel ∉ mid) :
    rewrite quote gi data =
      .ok (emitFrom quote p none pre
        ++ (extraNamesBytes ++ [newlineByte])
        ++ (p.extraNames.map
            (fun n => ascii "<psName name=" ++ quote n ++ ascii "/>\n")).flatten
        ++ (extraNamesSentinel ++ [newlineByte])
        ++ emitFrom quote p none post) ∧
    p.extraNames.Pairwise (fun a b => bytesLess a b = true ∨ a = b) := by
  refine ⟨?_, (plan_extraNames_perm gi lines p hp).2⟩
  rw [rewrite_ok _ gi data lines p hd hp, hs, emitFrom_append, hpre,
    emitFrom_section _ p extraNamesBytes extraNamesSentinel
      (extraNamesRecords quote p.extraNames) mid _ hmid (emitFrom_extraNamesBytes _ p),
    List.dropWhile_cons_of_neg (by simp), emitFrom_extraNamesSentinel,
    extraNamesRecords_flatten]
  have : extraNamesRecord quote = fun n => ascii "<psName name=" ++ quote n ++ ascii "/>\n" := rfl
  rw [this]
  simp

/-! ## The claims on the map `renames` and on the unresolved glyphs -/

theorem mapGet_mem : ∀ (m : Renames) (k v : Bytes), mapGet m k = some v → (k, v) ∈ m
  | [], _, _, h => by cases h
  | (k1, v1) :: m, k, v, h => by
    unfold mapGet at h
    by_cases hk : k = k1
    · simp only [hk, if_true, Option.some.injEq] at h
      rw [hk, ← h]
      exact List.mem_cons_self _ _
    · simp only [hk, if_false] at h
      exact List.mem_cons_of_mem _ (mapGet_mem m k v h)

/-- C15 (characterisation of `renames`): when the old names of the file are
pairwise distinct, `renames[k]` is `v` exactly when some entry has the old
name `k` and the new name `v`, different from `k`; so `k` is a key exactly when
some entry with the old name `k` has another new name, and no key maps to
itself. -/
theorem rename_map_characterisation (gi : Int → Option Nat) (lines : List Bytes) (p : Plan)
    (hd : ((loadEntries lines []).map entry.oldName).Nodup) (hp : plan gi lines = .ok p) :
    (∀ k v : Bytes, mapGet p.renames k = some v ↔
      ∃ e ∈ p.entries, e.oldName = k ∧ e.newName = v ∧ v ≠ k) ∧
    (∀ k : Bytes, mapGet p.renames k ≠ none ↔
      ∃ e ∈ p.entries, e.oldName = k ∧ e.newName ≠ k) ∧
    (∀ k : Bytes, mapGet p.renames k ≠ some k) := by
  have main : ∀ k v : Bytes, mapGet p.renames k = some v ↔
      ∃ e ∈ p.entries, e.oldName = k ∧ e.newName = v ∧ v ≠ k := by
    intro k v
    constructor
    · intro h
      have hm := (plan_renames_perm gi lines p hp).mem_iff.1 (mapGet_mem _ _ _ h)
      obtain ⟨e, he, hpair⟩ := List.mem_map.1 hm
      rw [List.mem_filter] at he
      simp only [renamePair, Prod.mk.injEq] at hpair
      simp only [renamed, decide_eq_true_eq] at he
      exact ⟨e, he.1, hpair.1, hpair.2, by rw [← hpair.1, ← hpair.2]; exact he.2⟩
    · rintro ⟨e, he, rfl, rfl, hne⟩
      rw [plan_renames_lookup gi lines p hd hp e he, if_pos hne]
  refine ⟨main, ?_, ?_⟩
  · intro k
    constructor
    · intro h
      cases hv : mapGet p.renames k with
      | none => exact absurd hv h
      | some v =>
        obtain ⟨e, he, h1, h2, h3⟩ := (main k v).1 hv
        exact ⟨e, he, h1, by rw [h2]; exact h3⟩
    · rintro ⟨e, he, h1, h2⟩
      rw [(main k e.newName).2 ⟨e, he, h1, rfl, h2⟩]
      simp
  · intro k h
    obtain ⟨_, _, _, _, h3⟩ := (main k k).1 h
    exact h3 rfl

/-- An entry of the plan stood, after the resolver loop, at the position of
its old ID. -/
theorem plan_entry_index (gi : Int → Option Nat) (lines : List Bytes) (p : Plan)
    (hp : plan gi lines = .ok p) (e : entry) (he : e ∈ p.entries) :
    ∃ st, resolve gi (loadEntries lines []) = .ok st ∧ st.entries[e.oldID]? = some e := by
  obtain ⟨st, h1, h2, _⟩ := plan_perm gi lines p hp
  have hI := resolve_inv gi lines st h1
  refine ⟨st, h1, ?_⟩
  obtain ⟨i, hi, rfl⟩ := List.getElem_of_mem (h2.mem_iff.1 he)
  have hids := congrArg (fun l => l[i]?) hI.ids
  simp only [List.getElem?_map, List.getElem?_eq_getElem hi, Option.map_some'] at hids
  have hi2 : i < (loadEntries lines []).length := by rw [← hI.len]; exact hi
  rw [List.getElem?_eq_getElem hi2] at hids
  simp only [Option.map_some', Option.some.injEq, Prod.mk.injEq] at hids
  have hf := (fresh_loaded lines i _ (List.getElem?_eq_getElem hi2)).1
  rw [hids.1, hf]
  exact List.getElem?_eq_getElem hi

/-- C16 (unresolved glyphs are untouched): an entry whose glyph the decoder
returns for no code point of the scanned range has no code point, keeps its
old name as new name and, when the old names of the file are pairwise
distinct, its old name is no key of `renames`. -/
theorem unresolved_untouched (gi : Int → Option Nat) (lines : List Bytes) (p : Plan)
    (e : entry) (hp : plan gi lines = .ok p) (he : e ∈ p.entries)
    (hun : ∀ r : Int, 0 ≤ r → r < 0xffff → gi r ≠ some e.oldID) :
    e.r = notSeen ∧ e.newName = e.oldName ∧
    (((loadEntries lines []).map entry.oldName).Nodup → mapGet p.renames e.oldName = none) := by
  obtain ⟨st, h1, h2⟩ := plan_entry_index gi lines p hp e he
  have hI := resolve_inv gi lines st h1
  have hr : e.r = notSeen := by
    by_contra hr
    obtain ⟨_, hg, ⟨a, b, hsplit, _⟩, _⟩ := hI.seen e.oldID e h2 hr
    have hmem : e.r ∈ scanRunes := by rw [hsplit]; simp
    rw [mem_scanRunes] at hmem
    exact hun e.r hmem.1 hmem.2 hg
  have hn := (hI.unseen e.oldID e h2 hr).1
  refine ⟨hr, hn, ?_⟩
  intro hd
  rw [plan_renames_lookup gi lines p hd hp e he, if_neg (by simp [hn])]

/-- C17 (unresolved glyphs sort last): every code point the resolver records
is below `notSeen`, so in the planned order, from position 1 on, every entry
with a code point stands before every entry without one. -/
theorem unresolved_sort_last (gi : Int → Option Nat) (lines : List Bytes) (p : Plan)
    (i j : Nat) (g1 g2 : entry) (hp : plan gi lines = .ok p) (hi : 1 ≤ i) (hj : 1 ≤ j)
    (h1 : p.entries[i]? = some g1) (h2 : p.entries[j]? = some g2)
    (hr1 : g1.r ≠ notSeen) (hr2 : g2.r = notSeen) :
    0 ≤ g1.r ∧ g1.r < 0xffff ∧ g1.r < notSeen ∧ i < j := by
  have hm := ((plan_entry gi lines p hp g1 (List.getElem?_mem h1)).2 hr1).1
  rw [mem_scanRunes] at hm
  have hlt : g1.r < notSeen := by unfold notSeen; omega
  obtain ⟨st, e0, rest, _, _, h3, _, _⟩ := plan_ok gi lines p hp
  obtain ⟨i1, rfl⟩ : ∃ k, i = k + 1 := ⟨i - 1, by omega⟩
  obtain ⟨j1, rfl⟩ : ∃ k, j = k + 1 := ⟨j - 1, by omega⟩
  rw [h3, List.getElem?_cons_succ] at h1 h2
  have hl : byRLess g1 g2 = true := (byRLess_iff g1 g2).2 (Or.inl (by rw [hr2]; exact hlt))
  exact ⟨hm.1, hm.2, hlt,
    Nat.succ_lt_succ (sorted_position _ (sortByR_sorted rest) i1 j1 g1 g2 h1 h2 hl)⟩

/-! ## The claims on failures -/

/-- C18, amended: when the output loop comes in the state NORMAL to a start
marker and no matching end marker follows, `rewrite` does not fail: it returns
the output of the lines before, the start line and the records, and nothing of
the lines after the start marker. -/
theorem missing_end_marker (quote : Bytes → Bytes) (gi : Int → Option Nat) (data : Bytes)
    (lines : List Bytes) (p : Plan) (pre mid : List Bytes)
    (hd : splitLines data = lines) (hp : plan gi lines = .ok p)
    (hpre : sectionState none pre = none) :
    (lines = pre ++ glyphOrderBytes :: mid → glyphOrderSentinel ∉ mid →
      rewrite quote gi data = .ok (emitFrom quote p none pre
        ++ (glyphOrderBytes ++ [newlineByte]) ++ glyphOrderRecords quote 0 p.entries)) ∧
    (lines = pre ++ extraNamesBytes :: mid → extraNamesSentinel ∉ mid →
      rewrite quote gi data = .ok (emitFrom quote p none pre
        ++ (extraNamesBytes ++ [newlineByte]) ++ extraNamesRecords quote p.extraNames)) := by
  constructor
  · intro hs hmid
    have h := emitFrom_section quote p glyphOrderBytes glyphOrderSentinel
      (glyphOrderRecords quote 0 p.entries) mid [] hmid (emitFrom_glyphOrderBytes quote p)
    rw [List.append_nil] at h
    rw [rewrite_ok quote gi data lines p hd hp, hs, emitFrom_append, hpre, h]
    simp [emitFrom]
  · intro hs hmid
    have h := emitFrom_section quote p extraNamesBytes extraNamesSentinel
      (extraNamesRecords quote p.extraNames) mid [] hmid (emitFrom_extraNamesBytes quote p)
    rw [List.append_nil] at h
    rw [rewrite_ok quote gi data lines p hd hp, hs, emitFrom_append, hpre, h]
    simp [emitFrom]

/-- Without the line `  <GlyphOrder>` the output does not depend on the
entries of the plan. -/
theorem emitFrom_no_glyphOrder (quote : Bytes → Bytes) (p : Plan) (es : List entry) :
    ∀ (ls : List Bytes) (st : Option Bytes), glyphOrderBytes ∉ ls →
      emitFrom quote p st ls = emitFrom quote { p with entries := es } st ls
  | [], _, _ => rfl
  | l :: ls, st, h => by
    have h1 : l ≠ glyphOrderBytes := fun e => h (e ▸ List.mem_cons_self _ _)
    have h2 : glyphOrderBytes ∉ ls := fun e => h (List.mem_cons_of_mem _ e)
    have ih := fun st => emitFrom_no_glyphOrder quote p es ls st h2
    simp only [emitFrom, rewriteLine_glyphOrderBytes, h1, if_false]
    rw [ih st, ih (some extraNamesSentinel), ih none]

/-- Without the line `    <extraNames>` the output does not depend on the list
`extraNames` of the plan. -/
theorem emitFrom_no_extraNames (quote : Bytes → Bytes) (p : Plan) (ns : List Bytes) :
    ∀ (ls : List Bytes) (st : Option Bytes), extraNamesBytes ∉ ls →
      emitFrom quote p st ls = emitFrom quote { p with extraNames := ns } st ls
  | [], _, _ => rfl
  | l :: ls, st, h => by
    have h1 : l ≠ extraNamesBytes := fun e => h (e ▸ List.mem_cons_self _ _)
    have h2 : extraNamesBytes ∉ ls := fun e => h (List.mem_cons_of_mem _ e)
    have ih := fun st => emitFrom_no_extraNames quote p ns ls st h2
    simp only [emitFrom, rewriteLine_extraNamesBytes, h1, if_false]
    rw [ih st, ih (some glyphOrderSentinel), ih none]

/-- Without start markers every line is passed through the rewriting. -/
theorem emitFrom_no_markers (quote : Bytes → Bytes) (p : Plan) : ∀ ls : List Bytes,
    glyphOrderBytes ∉ ls → extraNamesBytes ∉ ls →
      emitFrom quote p none ls = emitLines p.renames ls
  | [], _, _ => rfl
  | l :: ls, h1, h2 => by
    rw [emitFrom_plain quote p l ls (fun e => h1 (e ▸ List.mem_cons_self _ _))
      (fun e => h2 (e ▸ List.mem_cons_self _ _)),
      emitFrom_no_markers quote p ls (fun e => h1 (List.mem_cons_of_mem _ e))
        (fun e => h2 (List.mem_cons_of_mem _ e))]
    rfl

/-- C19, amended: a missing start marker does not make `rewrite` abort.
Whenever the part before the output loop goes through, `rewrite` returns an
output; without the line `  <GlyphOrder>` that output holds no glyph-order
records (it is the same for any entries), without the line `    <extraNames>`
it holds no extra-names records, and without both it is the lines of the
input, each passed through the rewriting of references. -/
theorem missing_start_marker (quote : Bytes → Bytes) (gi : Int → Option Nat) (data : Bytes)
    (lines : List Bytes) (p : Plan) (hd : splitLines data = lines)
    (hp : plan gi lines = .ok p) :
    rewrite quote gi data = .ok (emitFrom quote p none lines) ∧
    (glyphOrderBytes ∉ lines → ∀ es : List entry,
      emitFrom quote p none lines = emitFrom quote { p with entries := es } none lines) ∧
    (extraNamesBytes ∉ lines → ∀ ns : List Bytes,
      emitFrom quote p none lines = emitFrom quote { p with extraNames := ns } none lines) ∧
    (glyphOrderBytes ∉ lines → extraNamesBytes ∉ lines →
      rewrite quote gi data = .ok (emitLines p.renames lines)) := by
  refine ⟨rewrite_ok quote gi data lines p hd hp,
    fun h es => emitFrom_no_glyphOrder quote p es lines none h,
    fun h ns => emitFrom_no_extraNames quote p ns lines none h, ?_⟩
  intro h1 h2
  rw [rewrite_ok quote gi data lines p hd hp, emitFrom_no_markers quote p lines h1 h2]

/-- The runes scanned before `r` are smaller than `r`. -/
theorem scanRunes_before (a b : List Int) (r : Int) (h : scanRunes = a ++ r :: b) (r1 : Int)
    (hr1 : r1 ∈ a) : 0 ≤ r1 ∧ r1 < r := by
  have hget : ∀ k : Nat, k < 0xffff → scanRunes[k]? = some (k : Int) := by
    intro k hk
    unfold scanRunes
    rw [List.getElem?_map, List.getElem?_range hk]
    rfl
  have hlen : scanRunes.length = 0xffff := by simp [scanRunes]
  have hal : a.length < 0xffff := by
    have := congrArg List.length h
    rw [hlen] at this
    simp at this
    omega
  have hr : r = (a.length : Int) := by
    have h2 := hget a.length hal
    rw [h, List.getElem?_append_right (Nat.le_refl _)] at h2
    simpa using h2
  obtain ⟨i, hi, rfl⟩ := List.getElem_of_mem hr1
  have h3 := hget i (by omega)
  rw [h, List.getElem?_append_left hi, List.getElem?_eq_getElem hi] at h3
  simp only [Option.some.injEq] at h3
  rw [h3, hr]
  omega

/-- The ways in which one iteration of the resolver loop stops. -/
theorem resolveStep_error (gi : Int → Option Nat) (st : ResolveState) (r : Int) (f : Failure)
    (h : resolveStep gi st r = .error f) :
    (f = .decodeError ∧ gi r = none) ∨
    (f = .indexOutOfRange ∧ ∃ x, gi r = some x ∧ x ≠ 0 ∧ st.entries.length ≤ x) := by
  unfold resolveStep at h
  cases hg : gi r with
  | none =>
    rw [hg] at h
    simp only [Except.error.injEq] at h
    exact Or.inl ⟨h.symm, rfl⟩
  | some x =>
    rw [hg] at h
    dsimp only at h
    by_cases hx : x = 0
    · simp [hx] at h
    · rw [if_neg hx] at h
      cases he : st.entries[x]? with
      | none =>
        rw [he] at h
        simp only [Except.error.injEq] at h
        rw [List.getElem?_eq_none_iff] at he
        exact Or.inr ⟨h.symm, x, rfl, hx, he⟩
      | some e =>
        rw [he] at h
        dsimp only at h
        split at h
        · cases h
        · split at h <;> cases h

theorem resolveStep_length (gi : Int → Option Nat) (st st1 : ResolveState) (r : Int)
    (h : resolveStep gi st r = .ok st1) : st1.entries.length = st.entries.length := by
  obtain ⟨x, _, hcase⟩ := resolveStep_ok gi st st1 r h
  rcases hcase with ⟨rfl, _⟩ | ⟨_, e, _, _, ⟨_, h1, _⟩ | ⟨_, h1, _⟩⟩
  · rfl
  · rw [h1, List.length_set]
  · rw [h1, List.length_set]

/-- The resolver loop stops on an error of the decoder or on a glyph index out
of range, and goes through when neither occurs. -/
theorem resolveLoop_cases (gi : Int → Option Nat) (n : Nat) :
    ∀ (rs : List Int) (st : ResolveState), st.entries.length = n →
      (∀ f, resolveLoop gi rs st = .error f → f = .decodeError ∨ f = .indexOutOfRange) ∧
      ((∀ r ∈ rs, ∃ x, gi r = some x ∧ (x = 0 ∨ x < n)) →
        ∃ st1, resolveLoop gi rs st = .ok st1 ∧ st1.entries.length = n)
  | [], st, hn => ⟨fun f h => by simp [resolveLoop] at h, fun _ => ⟨st, rfl, hn⟩⟩
  | r :: rs, st, hn => by
    unfold resolveLoop
    cases hs : resolveStep gi st r with
    | error f =>
      refine ⟨fun f1 h => ?_, fun hall => ?_⟩
      · simp only [Except.error.injEq] at h
        subst h
        rcases resolveStep_error gi st r f hs with ⟨h1, _⟩ | ⟨h1, _⟩
        · exact Or.inl h1
        · exact Or.inr h1
      · exfalso
        obtain ⟨x, hg, hx⟩ := hall r (List.mem_cons_self _ _)
        rcases resolveStep_error gi st r f hs with ⟨_, h2⟩ | ⟨_, y, h2, h3, h4⟩
        · rw [hg] at h2; cases h2
        · rw [hg] at h2
          simp only [Option.some.injEq] at h2
          omega
    | ok st1 =>
      have hl := resolveStep_length gi st st1 r hs
      obtain ⟨h1, h2⟩ := resolveLoop_cases gi n rs st1 (by omega)
      exact ⟨h1, fun hall => h2 (fun r1 hr1 => hall r1 (List.mem_cons_of_mem _ hr1))⟩

/-- C20 (decoder errors are fatal): when the decoder reports an error for a
scanned code point, `rewrite` fails and returns no output, on that error or on
a glyph index out of range met before it; it fails on the error of the decoder
when the code points before it give no error and no glyph index out of range.
So an error is never taken for a result "no glyph". -/
theorem decoder_errors_fatal (quote : Bytes → Bytes) (gi : Int → Option Nat) (data : Bytes)
    (r0 : Int) (h0 : 0 ≤ r0) (h1 : r0 < 0xffff) (herr : gi r0 = none) :
    (∃ f, rewrite quote gi data = .error f ∧ (f = .decodeError ∨ f = .indexOutOfRange)) ∧
    (∀ out, rewrite quote gi data ≠ .ok out) ∧
    ((∀ r : Int, 0 ≤ r → r < r0 →
        ∃ x, gi r = some x ∧ (x = 0 ∨ x < (loadEntries (splitLines data) []).length)) →
      rewrite quote gi data = .error .decodeError) := by
  obtain ⟨a, b, hsplit⟩ := List.append_of_mem ((mem_scanRunes r0).2 ⟨h0, h1⟩)
  have hstep : ∀ st, resolveLoop gi (r0 :: b) st = .error .decodeError := by
    intro st
    simp [resolveLoop, resolveStep, herr]
  have hres : ∃ f, resolve gi (loadEntries (splitLines data) []) = .error f ∧
      (f = .decodeError ∨ f = .indexOutOfRange) ∧
      ((∀ r : Int, 0 ≤ r → r < r0 →
        ∃ x, gi r = some x ∧ (x = 0 ∨ x < (loadEntries (splitLines data) []).length)) →
        f = .decodeError) := by
    unfold resolve
    rw [hsplit, resolveLoop_append]
    obtain ⟨hk, ht⟩ := resolveLoop_cases gi (loadEntries (splitLines data) []).length a
      { entries := loadEntries (splitLines data) [], renames := [] } rfl
    cases ha : resolveLoop gi a { entries := loadEntries (splitLines data) [], renames := [] } with
    | error f =>
      refine ⟨f, rfl, hk f ha, fun hall => ?_⟩
      obtain ⟨st1, h2, _⟩ := ht (fun r hr =>
        hall r (scanRunes_before a b r0 hsplit r hr).1 (scanRunes_before a b r0 hsplit r hr).2)
      rw [ha] at h2
      cases h2
    | ok st1 => exact ⟨.decodeError, hstep st1, Or.inl rfl, fun _ => rfl⟩
  obtain ⟨f, hf, hkind, hfirst⟩ := hres
  have hplan : plan gi (splitLines data) = .error f := by
    unfold plan
    rw [hf]
  have hrw := rewrite_error quote gi data f hplan
  refine ⟨⟨f, hrw, hkind⟩, ?_, ?_⟩
  · intro out h
    rw [hrw] at h
    cases h
  · intro hall
    rw [hrw, hfirst hall]

/-! ## The claims at the worked documents -/

theorem truncated_lines : splitLines truncatedDocument = truncatedLines := by decide

theorem truncated_plan : plan exampleGlyphIndex truncatedLines = .ok examplePlan :=
  plan_of_resolve exampleGlyphIndex truncatedLines exampleLoaded _ _ (by decide) example_resolve
    (by decide)

theorem unmarked_lines : splitLines unmarkedDocument = unmarkedLines := by decide

theorem unmarked_plan : plan exampleGlyphIndex unmarkedLines = .ok examplePlan :=
  plan_of_resolve exampleGlyphIndex unmarkedLines exampleLoaded _ _ (by decide) example_resolve
    (by decide)

theorem clash_skip (k : Nat) (h : k ≠ 0x1F3) : (clashGlyphIndex (Int.ofNat k) != some 0) = false := by
  have e : Int.ofNat k = (k : Int) := rfl
  unfold clashGlyphIndex
  rw [e, if_neg (by omega)]
  rfl

theorem clash_hot : scanRunes.filter (fun r => clashGlyphIndex r != some 0) = [0x1F3] := by
  unfold scanRunes
  rw [List.range_eq_range']
  refine filter_range_step _ 0 0x1F3 (0xffff - 0x1F4) 0xffff 0x1F4 _ (by decide) (by decide)
    (fun k h1 h2 => clash_skip k (by omega)) (by decide) ?_
  exact filter_range_skip _ _ _ (fun k h1 h2 => clash_skip k (by omega))

set_option maxRecDepth 8000 in
theorem clash_plan : plan clashGlyphIndex clashLines = .ok clashPlan :=
  plan_of_resolve clashGlyphIndex clashLines clashLoaded
    { entries := [
        { oldID := 0, oldName := ascii ".notdef", newName := ascii ".notdef", r := notSeen },
        { oldID := 1, oldName := ascii "uni01F3", newName := ascii "uni01F3", r := notSeen },
        { oldID := 2, oldName := ascii "dz", newName := ascii "uni01F3", r := 0x1F3 }],
      renames := [(ascii "dz", ascii "uni01F3")] }
    _ (by decide) (resolve_of_filter clashGlyphIndex clashLoaded _ _ clash_hot (by decide))
    (by decide)

set_option maxRecDepth 8000 in
/-- C11 at the worked document: the whole output, with the seven records in
the planned order between the two marker lines. -/
theorem glyph_order_emission_witness :
    splitLines exampleDocument = documentLines ∧
    plan exampleGlyphIndex documentLines = .ok examplePlan ∧
    sectionState none documentHead = none ∧ glyphOrderSentinel ∉ documentGlyphs ∧
    rewrite (strconvQuote (fun s => s)) exampleGlyphIndex exampleDocument = .ok exampleOutput :=
  ⟨example_document_lines, example_document_plan, by decide, by decide,
    (glyph_order_emission (fun s => s) exampleGlyphIndex exampleDocument documentLines examplePlan
      documentHead documentGlyphs
      (documentTables ++ extraNamesBytes :: (documentNames ++ extraNamesSentinel :: documentTail))
      example_document_lines example_document_plan rfl (by decide) (by decide)).1.trans
      (congrArg Except.ok (by decide))⟩

set_option maxRecDepth 8000 in
/-- C12 at the worked document: the four names that are not built in, in
ascending order, between the two marker lines. -/
theorem extra_names_emission_witness :
    splitLines exampleDocument = documentLines ∧
    plan exampleGlyphIndex documentLines = .ok examplePlan ∧
    sectionState none
      (documentHead ++ glyphOrderBytes :: (documentGlyphs ++ glyphOrderSentinel :: documentTables))
      = none ∧
    extraNamesSentinel ∉ documentNames ∧
    rewrite (strconvQuote (fun s => s)) exampleGlyphIndex exampleDocument =
      .ok (emitFrom (strconvQuote (fun s => s)) examplePlan none
          (documentHead ++ glyphOrderBytes ::
            (documentGlyphs ++ glyphOrderSentinel :: documentTables))
        ++ ascii "    <extraNames>\n"
        ++ (ascii "<psName name=\"logo\"/>\n" ++ ascii "<psName name=\"smileface\"/>\n"
          ++ ascii "<psName name=\"uni01F3\"/>\n" ++ ascii "<psName name=\"zeta\"/>\n")
        ++ ascii "    </extraNames>\n"
        ++ ascii "  </post>\n\n</ttFont>\n\n") :=
  ⟨example_document_lines, example_document_plan, by decide, by decide,
    (extra_names_emission (strconvQuote (fun s => s)) exampleGlyphIndex exampleDocument
      documentLines examplePlan
      (documentHead ++ glyphOrderBytes :: (documentGlyphs ++ glyphOrderSentinel :: documentTables))
      documentNames documentTail example_document_lines example_document_plan (by decide)
      (by decide) (by decide)).1.trans (congrArg Except.ok (by decide))⟩

/-- C13 at the worked input. -/
theorem extra_names_content_witness :
    plan exampleGlyphIndex exampleLines = .ok examplePlan ∧
    examplePlan.extraNames = [ascii "logo", ascii "smileface", ascii "uni01F3", ascii "zeta"] ∧
    (∀ n : Bytes, n ∈ examplePlan.extraNames ↔
      (∃ e ∈ examplePlan.entries, e.newName = n) ∧ n ∉ builtIns) ∧
    examplePlan.extraNames.Pairwise (fun a b => bytesLess a b = true ∨ a = b) :=
  ⟨example_plan, rfl, extra_names_content exampleGlyphIndex exampleLines examplePlan example_plan⟩

/-- C14, as stated, fails: the old names `.notdef`, `uni01F3` and `dz` are
pairwise distinct, the glyph `dz` is resolved at 0x1F3 and renamed `uni01F3`,
the name the unmapped second glyph keeps, and `extraNames` holds `uni01F3`
twice. -/
theorem extra_names_duplicate_counterexample :
    ((loadEntries clashLines []).map entry.oldName).Nodup ∧
    plan clashGlyphIndex clashLines = .ok clashPlan ∧
    clashPlan.extraNames = [ascii "uni01F3", ascii "uni01F3"] ∧
    ¬ clashPlan.extraNames.Nodup :=
  ⟨by decide, clash_plan, rfl, by decide⟩

/-- C14, amended, at the worked input, whose new names are pairwise distinct. -/
theorem extra_names_count_witness :
    plan exampleGlyphIndex exampleLines = .ok examplePlan ∧
    (examplePlan.entries.map entry.newName).Nodup ∧ examplePlan.extraNames.Nodup :=
  ⟨example_plan, by decide,
    (extra_names_count exampleGlyphIndex exampleLines examplePlan example_plan).2 (by decide)⟩

/-- C15 at the worked input: `A` is a key with the value `backslash`, and
`logo` is no key. -/
theorem rename_map_characterisation_witness :
    ((loadEntries exampleLines []).map entry.oldName).Nodup ∧
    plan exampleGlyphIndex exampleLines = .ok examplePlan ∧
    (mapGet examplePlan.renames (ascii "A") = some (ascii "backslash") ↔
      ∃ e ∈ examplePlan.entries, e.oldName = ascii "A" ∧ e.newName = ascii "backslash" ∧
        ascii "backslash" ≠ ascii "A") ∧
    (mapGet examplePlan.renames (ascii "logo") ≠ none ↔
      ∃ e ∈ examplePlan.entries, e.oldName = ascii "logo" ∧ e.newName ≠ ascii "logo") ∧
    mapGet examplePlan.renames (ascii "A") ≠ some (ascii "A") :=
  ⟨example_distinct, example_plan,
    (rename_map_characterisation exampleGlyphIndex exampleLines examplePlan example_distinct
      example_plan).1 _ _,
    (rename_map_characterisation exampleGlyphIndex exampleLines examplePlan example_distinct
      example_plan).2.1 _,
    (rename_map_characterisation exampleGlyphIndex exampleLines examplePlan example_distinct
      example_plan).2.2 _⟩

/-- C16 at the worked input: the glyph 4, `zeta`, is returned for no code point. -/
theorem unresolved_untouched_witness :
    plan exampleGlyphIndex exampleLines = .ok examplePlan ∧
    (⟨4, ascii "zeta", ascii "zeta", notSeen⟩ : entry) ∈ examplePlan.entries ∧
    (∀ r : Int, 0 ≤ r → r < 0xffff → exampleGlyphIndex r ≠ some 4) ∧
    ((loadEntries exampleLines []).map entry.oldName).Nodup ∧
    mapGet examplePlan.renames (ascii "zeta") = none := by
  have hun : ∀ r : Int, 0 ≤ r → r < 0xffff → exampleGlyphIndex r ≠ some 4 := by
    intro r _ _
    unfold exampleGlyphIndex
    split_ifs <;> decide
  exact ⟨example_plan, by decide, hun, example_distinct,
    (unresolved_untouched exampleGlyphIndex exampleLines examplePlan
      ⟨4, ascii "zeta", ascii "zeta", notSeen⟩ example_plan (by decide) hun).2.2 example_distinct⟩

/-- C17 at the worked input: `logo`, with the code point 0xE000, at position
4, and `.null`, without a code point, at position 5. -/
theorem unresolved_sort_last_witness :
    plan exampleGlyphIndex exampleLines = .ok examplePlan ∧
    examplePlan.entries[4]? = some ⟨3, ascii "logo", ascii "logo", 0xE000⟩ ∧
    examplePlan.entries[5]? = some ⟨6, ascii ".null", ascii ".null", notSeen⟩ ∧
    (0 : Int) ≤ 0xE000 ∧ (0xE000 : Int) < 0xffff ∧ (0xE000 : Int) < notSeen ∧ (4 : Nat) < 5 :=
  ⟨example_plan, rfl, rfl,
    unresolved_sort_last exampleGlyphIndex exampleLines examplePlan 4 5 _ _ example_plan
      (by decide) (by decide) rfl rfl (by decide) rfl⟩

set_option maxRecDepth 8000 in
/-- C18, as stated, fails: the document has the line `  <GlyphOrder>` and no
line `  </GlyphOrder>`, and `rewrite` returns an output, which ends after the
records. -/
theorem missing_end_marker_counterexample :
    glyphOrderBytes ∈ splitLines truncatedDocument ∧
    glyphOrderSentinel ∉ splitLines truncatedDocument ∧
    rewrite (strconvQuote (fun s => s)) exampleGlyphIndex truncatedDocument =
      .ok truncatedOutput :=
  ⟨by decide, by decide,
    (rewrite_ok _ exampleGlyphIndex truncatedDocument truncatedLines examplePlan truncated_lines
      truncated_plan).trans (congrArg Except.ok (by decide))⟩

/-- C18, amended, at the document whose glyph-order section is not closed. -/
theorem missing_end_marker_witness :
    splitLines truncatedDocument = truncatedLines ∧
    plan exampleGlyphIndex truncatedLines = .ok examplePlan ∧
    sectionState none documentHead = none ∧
    glyphOrderSentinel ∉ documentGlyphs ++ documentTables ++ documentTail ∧
    rewrite (strconvQuote (fun s => s)) exampleGlyphIndex truncatedDocument =
      .ok (emitFrom (strconvQuote (fun s => s)) examplePlan none documentHead
        ++ (glyphOrderBytes ++ [newlineByte])
        ++ glyphOrderRecords (strconvQuote (fun s => s)) 0 examplePlan.entries) :=
  ⟨truncated_lines, truncated_plan, by decide, by decide,
    (missing_end_marker (strconvQuote (fun s => s)) exampleGlyphIndex truncatedDocument
      truncatedLines examplePlan documentHead (documentGlyphs ++ documentTables ++ documentTail)
      truncated_lines truncated_plan (by decide)).1 rfl (by decide)⟩

set_option maxRecDepth 8000 in
/-- C19, as stated, fails: the document has glyph records and neither start
marker, and `rewrite` returns an output, in which the glyph records of the
input stand with their names rewritten. -/
theorem missing_start_marker_counterexample :
    loadEntries (splitLines unmarkedDocument) [] = exampleLoaded ∧
    glyphOrderBytes ∉ splitLines unmarkedDocument ∧
    extraNamesBytes ∉ splitLines unmarkedDocument ∧
    rewrite (strconvQuote (fun s => s)) exampleGlyphIndex unmarkedDocument =
      .ok unmarkedOutput :=
  ⟨by decide, by decide, by decide,
    (rewrite_ok _ exampleGlyphIndex unmarkedDocument unmarkedLines examplePlan unmarked_lines
      unmarked_plan).trans (congrArg Except.ok (by decide))⟩

/-- C19, amended, at the document without start markers. -/
theorem missing_start_marker_witness :
    splitLines unmarkedDocument = unmarkedLines ∧
    plan exampleGlyphIndex unmarkedLines = .ok examplePlan ∧
    glyphOrderBytes ∉ unmarkedLines ∧ extraNamesBytes ∉ unmarkedLines ∧
    rewrite (strconvQuote (fun s => s)) exampleGlyphIndex unmarkedDocument =
      .ok (emitLines examplePlan.renames unmarkedLines) :=
  ⟨unmarked_lines, unmarked_plan, by decide, by decide,
    (missing_start_marker (strconvQuote (fun s => s)) exampleGlyphIndex unmarkedDocument
      unmarkedLines examplePlan unmarked_lines unmarked_plan).2.2.2 (by decide) (by decide)⟩

/-- C20 at a decoder that reports an error for the code point 5. -/
theorem decoder_errors_fatal_witness :
    (0 : Int) ≤ 5 ∧ (5 : Int) < 0xffff ∧ failingGlyphIndex 5 = none ∧
    rewrite (strconvQuote (fun s => s)) failingGlyphIndex exampleDocument =
      .error .decodeError :=
  ⟨by decide, by decide, rfl,
    (decoder_errors_fatal (strconvQuote (fun s => s)) failingGlyphIndex exampleDocument 5
      (by decide) (by decide) rfl).2.2 (fun r _ hr => ⟨0, by
        unfold failingGlyphIndex
        rw [if_neg (by omega)], Or.inl rfl⟩)⟩

/-! ## Lines outside the replaced sections -/

theorem sectionState_append (rest : List Bytes) : ∀ (pre : List Bytes) (st : Option Bytes),
    sectionState st (pre ++ rest) = sectionState (sectionState st pre) rest
  | [], st => rfl
  | l :: pre, st => by
    have ih := sectionState_append rest pre
    simp only [List.cons_append, sectionState]
    split_ifs <;> exact ih _

theorem emitFrom_line (quote : Bytes → Bytes) (p : Plan) (st : Option Bytes) (l : Bytes)
    (ls : List Bytes) (h : st = none ∨ st = some l) :
    emitFrom quote p st (l :: ls) =
      rewriteLine p.renames l ++ [newlineByte] ++
        (markerRecords quote p l ++ emitFrom quote p (sectionState st [l]) ls) := by
  have hg : ¬ (st ≠ none ∧ st ≠ some l) := by
    rcases h with h | h <;> simp [h]
  have hne : extraNamesBytes ≠ glyphOrderBytes := by decide
  simp only [emitFrom, sectionState, markerRecords, if_neg hg, rewriteLine_glyphOrderBytes,
    rewriteLine_extraNamesBytes]
  by_cases h1 : l = glyphOrderBytes
  · simp [h1]
  · by_cases h2 : l = extraNamesBytes
    · simp [h2, hne]
    · simp [h1, h2]

/-- C21: pass-through.  A line `l` of the input that the main loop reads (it
lies outside the replaced sections: when the loop reaches it no section is
open, or `l` is the line that closes the open one) is written to the output,
followed by a newline, after everything written for the lines before it and
before everything written for the lines after it; so the lines written keep
their order.  When the rewriting leaves `l` unchanged, `l` is in the output
byte for byte. -/
theorem pass_through (quote : Bytes → Bytes) (gi : Int → Option Nat) (data : Bytes)
    (lines : List Bytes) (p : Plan) (pre : List Bytes) (l : Bytes) (post : List Bytes)
    (hd : splitLines data = lines) (hp : plan gi lines = .ok p)
    (hs : lines = pre ++ l :: post)
    (hout : sectionState none pre = none ∨ sectionState none pre = some l) :
    rewrite quote gi data = .ok (emitFrom quote p none pre ++
      (rewriteLine p.renames l ++ [newlineByte]) ++
      (markerRecords quote p l ++ emitFrom quote p (sectionState none (pre ++ [l])) post)) ∧
    (rewriteLine p.renames l = l →
      rewrite quote gi data = .ok (emitFrom quote p none pre ++ (l ++ [newlineByte]) ++
        (markerRecords quote p l ++
          emitFrom quote p (sectionState none (pre ++ [l])) post))) := by
  have key : rewrite quote gi data = .ok (emitFrom quote p none pre ++
      (rewriteLine p.renames l ++ [newlineByte]) ++
      (markerRecords quote p l ++ emitFrom quote p (sectionState none (pre ++ [l])) post)) := by
    rw [rewrite_ok quote gi data lines p hd hp, hs, emitFrom_append,
      emitFrom_line quote p _ l post hout, sectionState_append]
    simp [List.append_assoc]
  refine ⟨key, fun hsame => ?_⟩
  rw [key, hsame]

/-- C21 on the worked document, at its second line. -/
theorem pass_through_witness :
    rewrite (strconvQuote (fun s => s)) exampleGlyphIndex exampleDocument =
      .ok (emitFrom (strconvQuote (fun s => s)) examplePlan none
          [ascii "<?xml version=\"1.0\" encoding=\"UTF-8\"?>"] ++
        (ascii "<ttFont sfntVersion=\"OTTO\" ttLibVersion=\"3.0\">" ++ [newlineByte]) ++
        (markerRecords (strconvQuote (fun s => s)) examplePlan
            (ascii "<ttFont sfntVersion=\"OTTO\" ttLibVersion=\"3.0\">") ++
          emitFrom (strconvQuote (fun s => s)) examplePlan
            (sectionState none ([ascii "<?xml version=\"1.0\" encoding=\"UTF-8\"?>"] ++
              [ascii "<ttFont sfntVersion=\"OTTO\" ttLibVersion=\"3.0\">"]))
            (documentLines.drop 2))) :=
  (pass_through (strconvQuote (fun s => s)) exampleGlyphIndex exampleDocument documentLines
    examplePlan [ascii "<?xml version=\"1.0\" encoding=\"UTF-8\"?>"]
    (ascii "<ttFont sfntVersion=\"OTTO\" ttLibVersion=\"3.0\">") (documentLines.drop 2)
    example_document_lines example_document_plan (by decide) (by decide)).2 (by decide)

/-- C28: no index fault on well-formed input.  When the file yields at least
one entry and the decoder gives, for every code point from 0 to 0xFFFE, a glyph
index (no error) that is below the number of entries, the part of `rewrite`
before the output loop goes through and `rewrite` returns an output: neither
`entries[x]` nor `entries[1:]` is out of range and no failure is reached. -/
theorem no_index_fault (quote : Bytes → Bytes) (gi : Int → Option Nat) (data : Bytes)
    (hne : loadEntries (splitLines data) [] ≠ [])
    (hgi : ∀ r : Int, 0 ≤ r → r < 0xffff →
      ∃ x, gi r = some x ∧ x < (loadEntries (splitLines data) []).length) :
    ∃ p, plan gi (splitLines data) = .ok p ∧
      rewrite quote gi data = .ok (emitFrom quote p none (splitLines data)) ∧
      ∀ f, rewrite quote gi data ≠ .error f := by
  obtain ⟨st, hst, hlen⟩ := (resolveLoop_cases gi (loadEntries (splitLines data) []).length
    scanRunes { entries := loadEntries (splitLines data) [], renames := [] } rfl).2
    (fun r hr => by
      obtain ⟨x, hx, hlt⟩ := hgi r ((mem_scanRunes r).1 hr).1 ((mem_scanRunes r).1 hr).2
      exact ⟨x, hx, Or.inr hlt⟩)
  have hres : resolve gi (loadEntries (splitLines data) []) = .ok st := hst
  have hpos : st.entries ≠ [] := by
    intro h
    rw [h] at hlen
    exact hne (List.length_eq_zero.1 hlen.symm)
  obtain ⟨e0, rest, hcons⟩ := List.exists_cons_of_ne_nil hpos
  have hplan : plan gi (splitLines data) = .ok (Plan.mk (e0 :: sortByR rest) st.renames
      (sortStrings (collectExtraNames st.entries))) := by
    unfold plan
    rw [hres]
    simp only [hcons, sortTail]
  refine ⟨_, hplan, rewrite_ok quote gi data _ _ rfl hplan, fun f hf => ?_⟩
  rw [rewrite_ok quote gi data _ _ rfl hplan] at hf
  cases hf

/-- C28 on the worked document. -/
theorem no_index_fault_witness :
    loadEntries (splitLines exampleDocument) [] ≠ [] ∧
    ∃ p, plan exampleGlyphIndex (splitLines exampleDocument) = .ok p ∧
      rewrite (strconvQuote (fun s => s)) exampleGlyphIndex exampleDocument =
        .ok (emitFrom (strconvQuote (fun s => s)) p none (splitLines exampleDocument)) ∧
      ∀ f, rewrite (strconvQuote (fun s => s)) exampleGlyphIndex exampleDocument ≠ .error f :=
  ⟨by rw [example_document_lines]; decide,
    no_index_fault (strconvQuote (fun s => s)) exampleGlyphIndex exampleDocument
      (by rw [example_document_lines]; decide)
      (fun r _ _ => by
        rw [example_document_lines]
        unfold exampleGlyphIndex
        split_ifs <;> exact ⟨_, rfl, by decide⟩)⟩

/-! ## The order `byR` on entries with distinct names -/

theorem byRLess_trans (x y z : entry) (h1 : byRLess x y = true) (h2 : byRLess y z = true) :
    byRLess x z = true := by
  rw [byRLess_iff] at h1 h2 ⊢
  rcases h1 with h1 | ⟨h1, n1⟩
  · rcases h2 with h2 | ⟨h2, _⟩
    · exact Or.inl (lt_trans h1 h2)
    · exact Or.inl (h2 ▸ h1)
  · rcases h2 with h2 | ⟨h2, n2⟩
    · exact Or.inl (h1 ▸ h2)
    · exact Or.inr ⟨h1.trans h2, bytesLess_trans _ _ _ n1 n2⟩

theorem byRLess_total (x y : entry) (h1 : byRLess x y = false) (h2 : byRLess y x = false) :
    x.r = y.r ∧ x.oldName = y.oldName := by
  have e1 : ¬ (x.r < y.r ∨ (x.r = y.r ∧ bytesLess x.oldName y.oldName = true)) := by
    rw [← byRLess_iff, h1]; simp
  have e2 : ¬ (y.r < x.r ∨ (y.r = x.r ∧ bytesLess y.oldName x.oldName = true)) := by
    rw [← byRLess_iff, h2]; simp
  push_neg at e1 e2
  have hr : x.r = y.r := le_antisymm e2.1 e1.1
  refine ⟨hr, bytesLess_total _ _ ?_ ?_⟩
  · simpa using e1.2 hr
  · simpa using e2.2 hr.symm

theorem sorted_unique (es a b : List entry) (hd : (es.map entry.oldName).Nodup)
    (ha : a.Perm es) (hb : b.Perm es)
    (sa : a.Chain' (fun x y => byRLess y x = false))
    (sb : b.Chain' (fun x y => byRLess y x = false)) : a = b := by
  haveI : IsTrans entry (fun x y => byRLess y x = false) :=
    ⟨fun x y z h1 h2 => byRLess_negTrans x y z h1 h2⟩
  haveI : IsAntisymm entry (fun x y => byRLess x y = true) :=
    ⟨fun x y h1 h2 => by rw [byRLess_asymm x y h1] at h2; cases h2⟩
  have strict : ∀ l : List entry, l.Perm es → l.Chain' (fun x y => byRLess y x = false) →
      l.Pairwise (fun x y => byRLess x y = true) := by
    intro l hl sl
    have hn : (l.map entry.oldName).Nodup := (hl.map entry.oldName).nodup_iff.2 hd
    have hp : l.Pairwise (fun x y => x.oldName ≠ y.oldName) :=
      (List.pairwise_map.1 hn)
    have hs : l.Pairwise (fun x y => byRLess y x = false) := List.chain'_iff_pairwise.1 sl
    refine (hs.and hp).imp ?_
    rintro x y ⟨h1, h2⟩
    by_contra h3
    exact h2 (byRLess_total x y (by simpa using h3) h1).2
  exact List.eq_of_perm_of_sorted (ha.trans hb.symm) (strict a ha sa) (strict b hb sb)

/-- C24: deterministic order.  When the old names of the loaded entries are
pairwise distinct, `byR.Less` is a strict total order on the entries of the
plan (irreflexive, transitive, and any two different entries are comparable),
and the planned order of `entries[1:]` is the only arrangement of these
entries in which no element is `Less` than its predecessor: any two such
arrangements are equal, and each equals the planned one, whatever routine or
stability produced it. -/
theorem deterministic_order (gi : Int → Option Nat) (lines : List Bytes) (p : Plan)
    (hp : plan gi lines = .ok p)
    (hd : ((loadEntries lines []).map entry.oldName).Nodup) :
    (∀ x : entry, byRLess x x = false) ∧
    (∀ x y z : entry, byRLess x y = true → byRLess y z = true → byRLess x z = true) ∧
    (∀ x ∈ p.entries, ∀ y ∈ p.entries, x ≠ y → byRLess x y = true ∨ byRLess y x = true) ∧
    (∀ a b : List entry, a.Perm p.entries.tail → b.Perm p.entries.tail →
      a.Chain' (fun x y => byRLess y x = false) → b.Chain' (fun x y => byRLess y x = false) →
      a = b) ∧
    (∀ a : List entry, a.Perm p.entries.tail →
      a.Chain' (fun x y => byRLess y x = false) → a = p.entries.tail) := by
  have hn : (p.entries.map entry.oldName).Nodup :=
    (plan_oldNames gi lines p hp).nodup_iff.2 hd
  have hnt : (p.entries.tail.map entry.oldName).Nodup :=
    hn.sublist ((List.tail_sublist p.entries).map entry.oldName)
  obtain ⟨st, e0, rest, _, _, hpe, _, _⟩ := plan_ok gi lines p hp
  have hsorted : p.entries.tail.Chain' (fun x y => byRLess y x = false) := by
    rw [hpe, List.tail_cons]
    exact (sortByR_sorted rest).chain'
  refine ⟨byRLess_irrefl, byRLess_trans, ?_, ?_, ?_⟩
  · intro x hx y hy hxy
    by_contra h
    push_neg at h
    have h1 : byRLess x y = false := by simpa using h.1
    have h2 : byRLess y x = false := by simpa using h.2
    exact hxy (List.inj_on_of_nodup_map hn hx hy (byRLess_total x y h1 h2).2)
  · intro a b ha hb sa sb
    exact sorted_unique p.entries.tail a b hnt ha hb sa sb
  · intro a ha sa
    exact sorted_unique p.entries.tail a p.entries.tail hnt ha (List.Perm.refl _) sa hsorted

/-- C24 on the worked input. -/
theorem deterministic_order_witness :
    (∀ x : entry, byRLess x x = false) ∧
    (∀ x y z : entry, byRLess x y = true → byRLess y z = true → byRLess x z = true) ∧
    (∀ x ∈ examplePlan.entries, ∀ y ∈ examplePlan.entries, x ≠ y →
      byRLess x y = true ∨ byRLess y x = true) ∧
    (∀ a b : List entry, a.Perm examplePlan.entries.tail → b.Perm examplePlan.entries.tail →
      a.Chain' (fun x y => byRLess y x = false) → b.Chain' (fun x y => byRLess y x = false) →
      a = b) ∧
    (∀ a : List entry, a.Perm examplePlan.entries.tail →
      a.Chain' (fun x y => byRLess y x = false) → a = examplePlan.entries.tail) :=
  deterministic_order exampleGlyphIndex exampleLines examplePlan example_plan example_distinct

/-! ## The synthesized names -/

theorem hexDigitUpper_inj (a b : Nat) (ha : a < 16) (hb : b < 16)
    (h : hexDigitUpper a = hexDigitUpper b) : a = b := by
  unfold hexDigitUpper at h
  split_ifs at h <;> omega

theorem hexDigitUpper_range (a : Nat) (ha : a < 16) :
    (48 ≤ hexDigitUpper a ∧ hexDigitUpper a ≤ 57) ∨
      (65 ≤ hexDigitUpper a ∧ hexDigitUpper a ≤ 70) := by
  unfold hexDigitUpper
  split_ifs <;> omega

theorem sprintfUni_inj (r s : Int) (r0 : 0 ≤ r) (r1 : r < 0x10000) (s0 : 0 ≤ s)
    (s1 : s < 0x10000) (h : sprintfUni r = sprintfUni s) : r = s := by
  unfold sprintfUni at h
  rw [sprintf04X_digits r r0 r1, sprintf04X_digits s s0 s1] at h
  have h2 := List.append_cancel_left h
  simp only [List.cons.injEq, and_true] at h2
  obtain ⟨e3, e2, e1, e0⟩ := h2
  have a3 := hexDigitUpper_inj _ _ (by omega) (by omega) e3
  have a2 := hexDigitUpper_inj _ _ (by omega) (by omega) e2
  have a1 := hexDigitUpper_inj _ _ (by omega) (by omega) e1
  have a0 := hexDigitUpper_inj _ _ (by omega) (by omega) e0
  omega

/-- C25: the synthesized name.  For a code point `r` of the scan, from 0 to
0xFFFE, `fmt.Sprintf("uni%04X", r)` is `uni` followed by the four upper-case
hexadecimal digits of `r`, most significant first and padded with zeros: seven
bytes, the last four among `0`-`9` and `A`-`F`; and two code points of the scan
with the same synthesized name are equal. -/
theorem synthesized_name_format (r : Int) (h0 : 0 ≤ r) (h1 : r < 0xffff) :
    (∃ d3 d2 d1 d0 : Nat, d3 < 16 ∧ d2 < 16 ∧ d1 < 16 ∧ d0 < 16 ∧
      r = 4096 * d3 + 256 * d2 + 16 * d1 + d0 ∧
      sprintfUni r = ascii "uni" ++
        [hexDigitUpper d3, hexDigitUpper d2, hexDigitUpper d1, hexDigitUpper d0]) ∧
    (sprintfUni r).length = 7 ∧
    (sprintfUni r).take 3 = ascii "uni" ∧
    (∀ c ∈ (sprintfUni r).drop 3, (48 ≤ c ∧ c ≤ 57) ∨ (65 ≤ c ∧ c ≤ 70)) ∧
    (∀ s : Int, 0 ≤ s → s < 0xffff → sprintfUni s = sprintfUni r → s = r) := by
  have hd := sprintf04X_digits r h0 (by omega)
  have hu : sprintfUni r = ascii "uni" ++ [hexDigitUpper (r.toNat / 4096),
      hexDigitUpper (r.toNat / 256 % 16), hexDigitUpper (r.toNat / 16 % 16),
      hexDigitUpper (r.toNat % 16)] := by
    unfold sprintfUni
    rw [hd]
  have hl : (ascii "uni").length = 3 := by decide
  refine ⟨⟨r.toNat / 4096, r.toNat / 256 % 16, r.toNat / 16 % 16, r.toNat % 16, by omega,
    by omega, by omega, by omega, by omega, hu⟩, ?_, ?_, ?_, ?_⟩
  · rw [hu, List.length_append, hl]; rfl
  · rw [hu, List.take_left' hl]
  · rw [hu, List.drop_left' hl]
    intro c hc
    simp only [List.mem_cons, List.mem_singleton, List.not_mem_nil, or_false] at hc
    rcases hc with rfl | rfl | rfl | rfl <;> exact hexDigitUpper_range _ (by omega)
  · intro s s0 s1 hs
    exact sprintfUni_inj s r s0 (by omega) h0 (by omega) hs

/-- C25 at the code point 0x1F3, whose synthesized name is `uni01F3`. -/
theorem synthesized_name_format_witness :
    sprintfUni 0x1F3 = ascii "uni01F3" ∧ (sprintfUni 0x1F3).length = 7 ∧
    (∀ s : Int, 0 ≤ s → s < 0xffff → sprintfUni s = sprintfUni 0x1F3 → s = 0x1F3) :=
  ⟨by decide, (synthesized_name_format 0x1F3 (by decide) (by decide)).2.1,
    (synthesized_name_format 0x1F3 (by decide) (by decide)).2.2.2.2⟩

/-! ## The first loop -/

theorem quoteFree_split : ∀ (a rest : Bytes), quoteByte ∉ a →
    (a ++ quoteByte :: rest).takeWhile notQuote = a ∧
      (a ++ quoteByte :: rest).dropWhile notQuote = quoteByte :: rest
  | [], rest, _ => by
    have : notQuote quoteByte = false := by decide
    simp [List.takeWhile, List.dropWhile, this]
  | c :: a, rest, h => by
    have hc : notQuote c = true := (notQuote_iff c).2 (fun e => h (e ▸ List.mem_cons_self _ _))
    have ih := quoteFree_split a rest (fun e => h (List.mem_cons_of_mem _ e))
    simp [List.takeWhile, List.dropWhile, hc, ih.1, ih.2]

theorem takeWhile_quoteFree (b : Bytes) : quoteByte ∉ b.takeWhile notQuote := by
  intro h
  have := List.mem_takeWhile_imp h
  simp [notQuote] at this

/-- The lines `glyphIDRegExp` matches, and the name it captures. -/
theorem glyphIDRegExpFind_iff (l name : Bytes) :
    glyphIDRegExpFind l = some name ↔
      ∃ a : Bytes, quoteByte ∉ a ∧ quoteByte ∉ name ∧
        l = ascii "    <GlyphID id=\"" ++ a ++ ascii "\" name=\"" ++ name ++ ascii "\"/>" := by
  constructor
  · intro h
    unfold glyphIDRegExpFind at h
    cases h1 : dropLit (ascii "    <GlyphID id=\"") l with
    | none => rw [h1] at h; cases h
    | some a =>
      rw [h1] at h
      dsimp only at h
      cases h2 : dropLit (ascii "\" name=\"") (a.dropWhile notQuote) with
      | none => rw [h2] at h; cases h
      | some b =>
        rw [h2] at h
        dsimp only at h
        split_ifs at h with h3
        simp only [Option.some.injEq] at h
        refine ⟨a.takeWhile notQuote, takeWhile_quoteFree a, h ▸ takeWhile_quoteFree b, ?_⟩
        rw [(dropLit_some _ _ _).1 h1]
        have e1 := (dropLit_some _ _ _).1 h2
        have ea := List.takeWhile_append_dropWhile notQuote a
        have eb := List.takeWhile_append_dropWhile notQuote b
        rw [h3, h] at eb
        rw [List.append_assoc, List.append_assoc, List.append_assoc]
        congr 1
        rw [eb, ← e1, ea]
  · rintro ⟨a, ha, hn, rfl⟩
    have hm : ascii "\" name=\"" = quoteByte :: ascii " name=\"" := by decide
    have hs : ascii "\"/>" = quoteByte :: ascii "/>" := by decide
    unfold glyphIDRegExpFind
    have h1 : dropLit (ascii "    <GlyphID id=\"")
        (ascii "    <GlyphID id=\"" ++ a ++ ascii "\" name=\"" ++ name ++ ascii "\"/>") =
        some (a ++ quoteByte :: (ascii " name=\"" ++ name ++ ascii "\"/>")) := by
      rw [dropLit_some, hm]
      simp [List.append_assoc]
    rw [h1]
    dsimp only
    rw [(quoteFree_split a _ ha).2]
    have h2 : dropLit (ascii "\" name=\"")
        (quoteByte :: (ascii " name=\"" ++ name ++ ascii "\"/>")) =
        some (name ++ quoteByte :: ascii "/>") := by
      rw [dropLit_some, hm, hs]
      simp [List.append_assoc]
    rw [h2]
    dsimp only
    rw [(quoteFree_split name _ hn).2, (quoteFree_split name _ hn).1, ← hs]
    simp

theorem loadEntries_eq : ∀ (ls : List Bytes) (acc : List entry),
    loadEntries ls acc = acc ++
      (((ls.takeWhile (fun l => decide (l ≠ glyphOrderSentinel))).filterMap
        glyphIDRegExpFind).enumFrom acc.length).map
          (fun q => entry.mk q.1 q.2 q.2 notSeen)
  | [], acc => by simp [loadEntries]
  | l :: ls, acc => by
    have ih := loadEntries_eq ls
    unfold loadEntries
    by_cases hl : l = glyphOrderSentinel
    · subst hl
      have hf : glyphIDRegExpFind glyphOrderSentinel = none := by decide
      simp [hf]
    · cases hf : glyphIDRegExpFind l with
      | none => simp [hl, hf, ih]
      | some name => simp [hl, hf, ih, List.enumFrom]

/-- C27: entry loading.  The first loop makes one entry for each line that
matches the GlyphID record pattern among the lines before the first line
`  </GlyphOrder>`, in the order of the lines; the entry number `i` (from 0) has
`oldID = i`, the captured name as `oldName` and as `newName`, and
`r = notSeen`.  The lines after that first end marker make no entry.  A line
matches exactly when it is `    <GlyphID id="a" name="n"/>` with no quote in
`a` and `n`, and `n` is the name captured. -/
theorem entry_loading (lines : List Bytes) :
    loadEntries lines [] =
      (((lines.takeWhile (fun l => decide (l ≠ glyphOrderSentinel))).filterMap
        glyphIDRegExpFind).enum).map (fun q => entry.mk q.1 q.2 q.2 notSeen) ∧
    (∀ pre post : List Bytes, loadEntries (pre ++ glyphOrderSentinel :: post) [] =
      loadEntries (pre ++ [glyphOrderSentinel]) []) ∧
    (∀ l name : Bytes, glyphIDRegExpFind l = some name ↔
      ∃ a : Bytes, quoteByte ∉ a ∧ quoteByte ∉ name ∧
        l = ascii "    <GlyphID id=\"" ++ a ++ ascii "\" name=\"" ++ name ++ ascii "\"/>") := by
  refine ⟨?_, ?_, glyphIDRegExpFind_iff⟩
  · rw [loadEntries_eq]
    simp [List.enum]
  · intro pre post
    have key : ∀ pre : List Bytes,
        (pre ++ glyphOrderSentinel :: post).takeWhile (fun l => decide (l ≠ glyphOrderSentinel)) =
          (pre ++ [glyphOrderSentinel]).takeWhile (fun l => decide (l ≠ glyphOrderSentinel)) := by
      intro pre
      induction pre with
      | nil => simp [List.takeWhile]
      | cons l pre ih =>
        simp only [List.cons_append, List.takeWhile_cons, ih]
    rw [loadEntries_eq, loadEntries_eq, key]

/-! ## The lookups of the second loop -/

theorem resolveLookups_ok (gi : Int → Option Nat) : ∀ (rs : List Int) (st st1 : ResolveState),
    resolveLoop gi rs st = .ok st1 → resolveLookups gi rs st = rs
  | [], _, _, _ => rfl
  | r :: rs, st, st1, h => by
    unfold resolveLoop at h
    unfold resolveLookups
    cases hs : resolveStep gi st r with
    | error f => rw [hs] at h; cases h
    | ok st2 =>
      rw [hs] at h
      dsimp only at h ⊢
      rw [resolveLookups_ok gi rs st2 st1 h]

theorem resolveLookups_initial (gi : Int → Option Nat) : ∀ (rs : List Int) (st : ResolveState),
    ∃ t, resolveLookups gi rs st ++ t = rs
  | [], _ => ⟨[], rfl⟩
  | r :: rs, st => by
    unfold resolveLookups
    cases hs : resolveStep gi st r with
    | error f => exact ⟨rs, rfl⟩
    | ok st2 =>
      obtain ⟨t, ht⟩ := resolveLookups_initial gi rs st2
      exact ⟨t, by simp [ht]⟩

theorem scanRunes_length : scanRunes.length = 65535 := by
  simp [scanRunes]

theorem resolveLookups_resolve (gi : Int → Option Nat) (entries : List entry)
    (st : ResolveState) (h : resolve gi entries = .ok st) :
    resolveLookups gi scanRunes { entries := entries, renames := [] } = scanRunes :=
  resolveLookups_ok gi scanRunes _ _ h

/-- C26, as stated, fails: on the worked input the decoder reports no error
and the second loop calls it 65535 times, not 65536. -/
theorem scan_size_counterexample :
    (∀ r : Int, exampleGlyphIndex r ≠ none) ∧
    (resolveLookups exampleGlyphIndex scanRunes
      { entries := exampleLoaded, renames := [] }).length = 65535 ∧
    (resolveLookups exampleGlyphIndex scanRunes
      { entries := exampleLoaded, renames := [] }).length ≠ 65536 := by
  have h := resolveLookups_resolve exampleGlyphIndex exampleLoaded _ example_resolve
  refine ⟨fun r => ?_, ?_, ?_⟩
  · unfold exampleGlyphIndex
    split_ifs <;> simp
  · rw [h, scanRunes_length]
  · rw [h, scanRunes_length]
    decide

/-- C26, amended: the scan has 65535 code points.  On every run the calls of
the decoder by the second loop are an initial part of the scan 0, 1, ...,
0xFFFE, in its order, so 0xFFFF is never looked up; this holds in particular
on a run that stops early, with a failure.  On a run in which the loop
completes the calls are exactly the code points of the scan, one call each:
65535 calls.  The loop completes when the decoder reports no error and returns
no glyph index out of range. -/
theorem scan_size (gi : Int → Option Nat) (entries : List entry) :
    (∃ t, resolveLookups gi scanRunes { entries := entries, renames := [] } ++ t = scanRunes) ∧
    scanRunes = (List.range 65535).map Int.ofNat ∧
    (0xffff : Int) ∉ resolveLookups gi scanRunes { entries := entries, renames := [] } ∧
    (∀ f, resolve gi entries = .error f →
      (∃ t, resolveLookups gi scanRunes { entries := entries, renames := [] } ++ t = scanRunes) ∧
      (resolveLookups gi scanRunes { entries := entries, renames := [] }).length ≤ 65535) ∧
    (∀ st, resolve gi entries = .ok st →
      resolveLookups gi scanRunes { entries := entries, renames := [] } =
        (List.range 65535).map Int.ofNat ∧
      (resolveLookups gi scanRunes { entries := entries, renames := [] }).length = 65535) ∧
    ((∀ r : Int, 0 ≤ r → r < 0xffff → ∃ x, gi r = some x ∧ (x = 0 ∨ x < entries.length)) →
      ∃ st, resolve gi entries = .ok st) := by
  have hi := resolveLookups_initial gi scanRunes { entries := entries, renames := [] }
  refine ⟨hi, rfl, ?_, fun f _ => ⟨hi, ?_⟩, fun st h => ?_, fun hall => ?_⟩
  · obtain ⟨t, ht⟩ := hi
    intro hm
    have : (0xffff : Int) ∈ scanRunes := by
      rw [← ht]
      exact List.mem_append_left _ hm
    rw [mem_scanRunes] at this
    omega
  · obtain ⟨t, ht⟩ := hi
    have := congrArg List.length ht
    rw [List.length_append, scanRunes_length] at this
    omega
  · have e := resolveLookups_resolve gi entries st h
    exact ⟨by rw [e]; rfl, by rw [e, scanRunes_length]⟩
  · obtain ⟨st, hst, _⟩ := (resolveLoop_cases gi entries.length scanRunes
      { entries := entries, renames := [] } rfl).2
      (fun r hr => hall r ((mem_scanRunes r).1 hr).1 ((mem_scanRunes r).1 hr).2)
    exact ⟨st, hst⟩

/-- C26, amended, on the worked input. -/
theorem scan_size_witness :
    (resolveLookups exampleGlyphIndex scanRunes
      { entries := exampleLoaded, renames := [] }).length = 65535 :=
  ((scan_size exampleGlyphIndex exampleLoaded).2.2.2.2.1 _ example_resolve).2

/-! ## The scenario of the specification -/

theorem resolveStep_congr (gi gj : Int → Option Nat) (st : ResolveState) (r : Int)
    (h : gi r = gj r) : resolveStep gi st r = resolveStep gj st r := by
  unfold resolveStep
  rw [h]

theorem resolveLoop_congr (gi gj : Int → Option Nat) : ∀ (rs : List Int) (st : ResolveState),
    (∀ r ∈ rs, gi r = gj r) → resolveLoop gi rs st = resolveLoop gj rs st
  | [], _, _ => rfl
  | r :: rs, st, h => by
    unfold resolveLoop
    rw [resolveStep_congr gi gj st r (h r (List.mem_cons_self _ _))]
    cases resolveStep gj st r with
    | error f => rfl
    | ok st1 => exact resolveLoop_congr gi gj rs st1 (fun q hq => h q (List.mem_cons_of_mem _ hq))

theorem scenario_skip (k : Nat) (h : k ≠ 0x5C ∧ k ≠ 0x263A) :
    (scenarioGlyphIndex (Int.ofNat k) != some 0) = false := by
  have e : Int.ofNat k = (k : Int) := rfl
  unfold scenarioGlyphIndex
  rw [e, if_neg (by omega), if_neg (by omega)]
  rfl

theorem scenario_hot : scanRunes.filter (fun r => scenarioGlyphIndex r != some 0) =
    [0x5C, 0x263A] := by
  unfold scanRunes
  rw [List.range_eq_range']
  refine filter_range_step _ 0 0x5C (0xffff - 0x5D) 0xffff 0x5D _ (by decide) (by decide)
    (fun k h1 h2 => scenario_skip k (by omega)) (by decide) ?_
  refine filter_range_step _ 0x5D (0x263A - 0x5D) (0xffff - 0x263B) _ 0x263B _ (by decide)
    (by decide) (fun k h1 h2 => scenario_skip k (by omega)) (by decide) ?_
  exact filter_range_skip _ _ _ (fun k h1 h2 => scenario_skip k (by omega))

set_option maxRecDepth 8000 in
theorem scenario_resolve :
    resolve scenarioGlyphIndex scenarioLoaded =
      .ok (ResolveState.mk scenarioPlan.entries scenarioPlan.renames) :=
  resolve_of_filter scenarioGlyphIndex scenarioLoaded _ _ scenario_hot (by decide)

theorem scenario_loaded (l : List entry) (hf : Fresh l)
    (hn : l.map entry.oldName =
      [ascii ".notdef", ascii "A", ascii "customglyph123", ascii ".null"]) :
    l = scenarioLoaded := by
  rcases l with _ | ⟨e0, _ | ⟨e1, _ | ⟨e2, _ | ⟨e3, _ | ⟨e4, t⟩⟩⟩⟩⟩ <;>
    simp only [List.map_cons, List.map_nil, List.cons.injEq, and_true, reduceCtorEq,
      and_false, false_and] at hn
  obtain ⟨n0, n1, n2, n3⟩ := hn
  obtain ⟨a0, b0, c0⟩ := hf 0 e0 rfl
  obtain ⟨a1, b1, c1⟩ := hf 1 e1 rfl
  obtain ⟨a2, b2, c2⟩ := hf 2 e2 rfl
  obtain ⟨a3, b3, c3⟩ := hf 3 e3 rfl
  cases e0; cases e1; cases e2; cases e3
  simp only at n0 n1 n2 n3 a0 a1 a2 a3 b0 b1 b2 b3 c0 c1 c2 c3
  subst n0 n1 n2 n3 a0 a1 a2 a3 b0 b1 b2 b3 c0 c1 c2 c3
  rfl

/-- C23, as stated, fails: on a file with the table of the scenario and the
decoder of the scenario, the glyph 2 of the new order is not named
`uni263A`. -/
theorem worked_scenario_counterexample :
    (loadEntries scenarioLines []).map entry.oldName =
      [ascii ".notdef", ascii "A", ascii "customglyph123", ascii ".null"] ∧
    plan scenarioGlyphIndex scenarioLines = .ok scenarioPlan ∧
    scenarioPlan.entries.map entry.newName ≠
      [ascii ".notdef", ascii "backslash", ascii "uni263A", ascii ".null"] ∧
    aglfnGet 0x263A = some (ascii "smileface") := by
  refine ⟨by decide, ?_, by decide, ?_⟩
  · exact plan_of_resolve scenarioGlyphIndex scenarioLines scenarioLoaded _ _ (by decide)
      scenario_resolve (by decide)
  · set_option maxRecDepth 8000 in decide

/-- C23, amended: for a file whose glyph table is [.notdef, A, customglyph123,
.null] and a decoder that gives the glyph 1 for 0x5C, the glyph 2 for 0x263A
and no glyph for any other code point of the scan, the new glyph order is
ID0 = .notdef, ID1 = backslash, ID2 = smileface, ID3 = .null (0x263A is a key
of `aglfn`, with the name smileface); the two renamed glyphs are the content
of `renames`, and smileface is the only extra name. -/
theorem worked_scenario (gi : Int → Option Nat) (lines : List Bytes)
    (hn : (loadEntries lines []).map entry.oldName =
      [ascii ".notdef", ascii "A", ascii "customglyph123", ascii ".null"])
    (hg : ∀ r : Int, 0 ≤ r → r < 0xffff →
      gi r = some (if r = 0x5C then 1 else if r = 0x263A then 2 else 0)) :
    plan gi lines = .ok scenarioPlan ∧
    scenarioPlan.entries.map entry.newName =
      [ascii ".notdef", ascii "backslash", ascii "smileface", ascii ".null"] ∧
    scenarioPlan.entries.map entry.oldID = [0, 1, 2, 3] := by
  refine ⟨?_, by decide, by decide⟩
  have hl := scenario_loaded _ (fresh_loaded lines) hn
  have hr : resolve gi scenarioLoaded = resolve scenarioGlyphIndex scenarioLoaded := by
    unfold resolve
    refine resolveLoop_congr gi scenarioGlyphIndex _ _ (fun r hr => ?_)
    rw [hg r ((mem_scanRunes r).1 hr).1 ((mem_scanRunes r).1 hr).2]
    unfold scenarioGlyphIndex
    split_ifs <;> rfl
  exact plan_of_resolve gi lines scenarioLoaded _ _ hl (hr.trans scenario_resolve) (by decide)

/-- C23, amended, on a file with the table of the scenario. -/
theorem worked_scenario_witness :
    plan scenarioGlyphIndex scenarioLines = .ok scenarioPlan ∧
    scenarioPlan.entries.map entry.newName =
      [ascii ".notdef", ascii "backslash", ascii "smileface", ascii ".null"] ∧
    scenarioPlan.entries.map entry.oldID = [0, 1, 2, 3] :=
  worked_scenario scenarioGlyphIndex scenarioLines (by decide)
    (fun r _ _ => by unfold scenarioGlyphIndex; split_ifs <;> rfl)

/-! ## Distinct names for distinct code points -/

set_option maxRecDepth 100000 in
theorem aglfn_names_ascending :
    ascending (aglfnOrder.map (fun i => (aglfn.map Prod.snd).getD i [])) = true := by decide!

set_option maxRecDepth 100000 in
theorem aglfn_order_cover :
    (List.range 586).all (fun i => aglfnOrder.contains i) = true := by decide!

set_option maxRecDepth 100000 in
theorem aglfn_length : (aglfn.map Prod.snd).length = 586 := by decide!

set_option maxRecDepth 100000 in
theorem aglfn_not_synthesized : aglfn.all (fun q => !isSynthesized q.2) = true := by decide!

theorem ascending_pairwise : ∀ l : List Bytes, ascending l = true →
    l.Pairwise (fun a b => bytesLess a b = true)
  | [], _ => List.Pairwise.nil
  | [_], _ => List.pairwise_singleton _ _
  | a :: b :: t, h => by
    simp only [ascending, Bool.and_eq_true] at h
    have ih := ascending_pairwise (b :: t) h.2
    refine List.Pairwise.cons ?_ ih
    intro c hc
    rcases List.mem_cons.1 hc with rfl | hc
    · exact h.1
    · exact bytesLess_trans _ _ _ h.1 (List.rel_of_pairwise_cons ih hc)

/-- No name occurs twice in `aglfn`. -/
theorem aglfn_values_nodup : (aglfn.map Prod.snd).Nodup := by
  have hp := ascending_pairwise _ aglfn_names_ascending
  have hn : (aglfnOrder.map (fun i => (aglfn.map Prod.snd).getD i [])).Nodup := by
    refine hp.imp ?_
    intro a b hab e
    rw [e, bytesLess_irrefl] at hab
    cases hab
  have hc : ∀ i, i < 586 → i ∈ aglfnOrder := by
    intro i hi
    have := List.all_eq_true.1 aglfn_order_cover i (List.mem_range.2 hi)
    simpa using this
  rw [List.nodup_iff_getElem?_ne_getElem?]
  intro i j hij hj e
  rw [aglfn_length] at hj
  have hi : i < 586 := lt_trans hij hj
  have e2 : (aglfn.map Prod.snd).getD i [] = (aglfn.map Prod.snd).getD j [] := by
    rw [List.getD_eq_getElem?_getD, List.getD_eq_getElem?_getD, e]
  have := List.inj_on_of_nodup_map hn (hc i hi) (hc j hj) e2
  omega

theorem lookup_mem {α β : Type} [BEq α] [LawfulBEq α] : ∀ (l : List (α × β)) (k : α) (v : β),
    l.lookup k = some v → (k, v) ∈ l
  | [], _, _, h => by simp at h
  | (a, b) :: l, k, v, h => by
    rw [List.lookup_cons] at h
    by_cases hk : k == a
    · rw [hk] at h
      simp only [Option.some.injEq] at h
      rw [eq_of_beq hk, h]
      exact List.mem_cons_self _ _
    · simp only [hk] at h
      exact List.mem_cons_of_mem _ (lookup_mem l k v h)

theorem isHexUpper_digit (d : Nat) (h : d < 16) : isHexUpper (hexDigitUpper d) = true := by
  unfold isHexUpper hexDigitUpper
  split_ifs <;> simp <;> omega

theorem sprintfUni_synthesized (r : Int) (h0 : 0 ≤ r) (h1 : r < 0x10000) :
    isSynthesized (sprintfUni r) = true := by
  unfold sprintfUni
  rw [sprintf04X_digits r h0 h1]
  have e : ascii "uni" = [117, 110, 105] := by decide
  rw [e]
  simp only [List.cons_append, List.nil_append, isSynthesized, Bool.and_eq_true]
  exact ⟨⟨⟨isHexUpper_digit _ (by omega), isHexUpper_digit _ (by omega)⟩,
    isHexUpper_digit _ (by omega)⟩, isHexUpper_digit _ (by omega)⟩

theorem aglfnGet_not_synthesized (r : Int) (n : Bytes) (h : aglfnGet r = some n) :
    isSynthesized n = false := by
  have hm := lookup_mem aglfn r n h
  have := List.all_eq_true.1 aglfn_not_synthesized (r, n) hm
  simpa using this

/-- Two code points of the scan with the same name are equal. -/
theorem canonicalName_inj (r s : Int) (r0 : 0 ≤ r) (r1 : r < 0x10000) (s0 : 0 ≤ s)
    (s1 : s < 0x10000) (h : canonicalName r = canonicalName s) : r = s := by
  unfold canonicalName at h
  cases hr : aglfnGet r with
  | some n =>
    cases hs : aglfnGet s with
    | some m =>
      rw [hr, hs] at h
      dsimp only at h
      subst h
      have e := List.inj_on_of_nodup_map aglfn_values_nodup (lookup_mem aglfn r n hr)
        (lookup_mem aglfn s n hs) rfl
      exact congrArg Prod.fst e
    | none =>
      rw [hr, hs] at h
      dsimp only at h
      have h1 := aglfnGet_not_synthesized r n hr
      rw [h, sprintfUni_synthesized s s0 s1] at h1
      cases h1
  | none =>
    cases hs : aglfnGet s with
    | some m =>
      rw [hr, hs] at h
      dsimp only at h
      have h1 := aglfnGet_not_synthesized s m hs
      rw [← h, sprintfUni_synthesized r r0 r1] at h1
      cases h1
    | none =>
      rw [hr, hs] at h
      exact sprintfUni_inj r s r0 r1 s0 s1 h

theorem plan_nodup (gi : Int → Option Nat) (lines : List Bytes) (p : Plan)
    (hp : plan gi lines = .ok p) : p.entries.Nodup := by
  have h1 := plan_ids gi lines p hp
  have h2 : ((loadEntries lines []).map (fun e => (e.oldID, e.oldName))).Nodup := by
    refine List.Nodup.of_map Prod.fst ?_
    rw [List.map_map]
    have : (Prod.fst ∘ fun e : entry => (e.oldID, e.oldName)) = entry.oldID := rfl
    rw [this, fresh_map_oldID _ (fresh_loaded lines)]
    exact List.nodup_range _
  exact List.Nodup.of_map _ (h1.nodup_iff.2 h2)

theorem plan_names_differ (gi : Int → Option Nat) (lines : List Bytes) (p : Plan)
    (hp : plan gi lines = .ok p) (e1 e2 : entry) (h1 : e1 ∈ p.entries) (h2 : e2 ∈ p.entries)
    (hne : e1 ≠ e2) (n1 : e1.r ≠ notSeen) (n2 : e2.r ≠ notSeen) (u1 : ¬ inPrivateUse e1.r)
    (u2 : ¬ inPrivateUse e2.r) : e1.newName ≠ e2.newName := by
  obtain ⟨st, hst, i1⟩ := plan_entry_index gi lines p hp e1 h1
  obtain ⟨st2, hst2, i2⟩ := plan_entry_index gi lines p hp e2 h2
  rw [hst] at hst2
  cases hst2
  have hI := resolve_inv gi lines st hst
  obtain ⟨_, g1, _, _⟩ := hI.seen _ _ i1 n1
  obtain ⟨_, g2, _, _⟩ := hI.seen _ _ i2 n2
  obtain ⟨s1, m1⟩ := (plan_entry gi lines p hp e1 h1).2 n1
  obtain ⟨s2, m2⟩ := (plan_entry gi lines p hp e2 h2).2 n2
  rw [if_neg u1] at m1
  rw [if_neg u2] at m2
  rw [mem_scanRunes] at s1 s2
  intro e
  rw [m1, m2] at e
  have hr := canonicalName_inj _ _ s1.1 (by omega) s2.1 (by omega) e
  rw [hr, g2] at g1
  simp only [Option.some.injEq] at g1
  rw [g1, i1] at i2
  simp only [Option.some.injEq] at i2
  exact hne i2

/-- C30: distinct code points get distinct names.  No name occurs twice in
`aglfn` and no name of `aglfn` is `uni` followed by four upper-case hexadecimal
digits, so two different code points of the scan never get the same name from
the second loop.  Hence, in the plan, two different glyphs that are both
resolved outside the Private Use Area have different new names; and when
every glyph other than the glyph 0 is resolved outside the Private Use Area,
the new names of these glyphs are pairwise distinct. -/
theorem distinct_names (gi : Int → Option Nat) (lines : List Bytes) (p : Plan)
    (hp : plan gi lines = .ok p) :
    (aglfn.map Prod.snd).Nodup ∧
    (∀ q ∈ aglfn, isSynthesized q.2 = false) ∧
    (∀ r s : Int, 0 ≤ r → r < 0xffff → 0 ≤ s → s < 0xffff → r ≠ s →
      canonicalName r ≠ canonicalName s) ∧
    (∀ e1 ∈ p.entries, ∀ e2 ∈ p.entries, e1 ≠ e2 → e1.r ≠ notSeen → e2.r ≠ notSeen →
      ¬ inPrivateUse e1.r → ¬ inPrivateUse e2.r → e1.newName ≠ e2.newName) ∧
    ((∀ e ∈ p.entries.tail, e.r ≠ notSeen ∧ ¬ inPrivateUse e.r) →
      (p.entries.tail.map entry.newName).Nodup) := by
  refine ⟨aglfn_values_nodup, ?_, ?_, ?_, ?_⟩
  · intro q hq
    have := List.all_eq_true.1 aglfn_not_synthesized q hq
    simpa using this
  · intro r s r0 r1 s0 s1 hrs e
    exact hrs (canonicalName_inj r s r0 (by omega) s0 (by omega) e)
  · intro e1 h1 e2 h2 hne n1 n2 u1 u2
    exact plan_names_differ gi lines p hp e1 e2 h1 h2 hne n1 n2 u1 u2
  · intro hall
    refine List.Nodup.map_on ?_ ((plan_nodup gi lines p hp).sublist (List.tail_sublist _))
    intro x hx y hy hxy
    by_contra hne
    exact plan_names_differ gi lines p hp x y (List.mem_of_mem_tail hx) (List.mem_of_mem_tail hy)
      hne (hall x hx).1 (hall y hy).1 (hall x hx).2 (hall y hy).2 hxy

/-- C30 on the worked input: the glyphs resolved at 0x5C and at 0x1F3, named
from `aglfn` and by synthesis. -/
theorem distinct_names_witness :
    canonicalName 0x5C ≠ canonicalName 0x1F3 ∧
    (∀ e1 ∈ examplePlan.entries, ∀ e2 ∈ examplePlan.entries, e1 ≠ e2 → e1.r ≠ notSeen →
      e2.r ≠ notSeen → ¬ inPrivateUse e1.r → ¬ inPrivateUse e2.r → e1.newName ≠ e2.newName) :=
  ⟨(distinct_names exampleGlyphIndex exampleLines examplePlan example_plan).2.2.1 0x5C 0x1F3
      (by decide) (by decide) (by decide) (by decide) (by decide),
    (distinct_names exampleGlyphIndex exampleLines examplePlan example_plan).2.2.2.1⟩

/-! ## A second run on the names of a first run -/

theorem resolveStep_lookup (gi : Int → Option Nat) (st st1 : ResolveState) (r : Int)
    (h : resolveStep gi st r = .ok st1) :
    ∃ x, gi r = some x ∧ (x = 0 ∨ x < st.entries.length) := by
  unfold resolveStep at h
  cases hg : gi r with
  | none => rw [hg] at h; cases h
  | some x =>
    refine ⟨x, rfl, ?_⟩
    by_cases hx : x = 0
    · exact Or.inl hx
    · right
      by_contra hlt
      rw [hg] at h
      simp only [hx, if_false, List.getElem?_eq_none (not_lt.1 hlt)] at h
      cases h

theorem resolveLoop_lookup (gi : Int → Option Nat) : ∀ (rs : List Int) (st st1 : ResolveState),
    resolveLoop gi rs st = .ok st1 →
      ∀ r ∈ rs, ∃ x, gi r = some x ∧ (x = 0 ∨ x < st.entries.length)
  | [], _, _, _ => fun r hr => by cases hr
  | q :: rs, st, st1, h => by
    unfold resolveLoop at h
    cases hs : resolveStep gi st q with
    | error f => rw [hs] at h; cases h
    | ok st2 =>
      rw [hs] at h
      dsimp only at h
      intro r hr
      rcases List.mem_cons.1 hr with rfl | hr
      · exact resolveStep_lookup gi st st2 _ hs
      · have := resolveLoop_lookup gi rs st2 st1 h r hr
        rwa [resolveStep_length gi st st2 q hs] at this

theorem resolve_lookup (gi : Int → Option Nat) (entries : List entry) (st : ResolveState)
    (h : resolve gi entries = .ok st) (r : Int) (hr : r ∈ scanRunes) :
    ∃ x, gi r = some x ∧ (x = 0 ∨ x < entries.length) :=
  resolveLoop_lookup gi scanRunes { entries := entries, renames := [] } st h r hr

theorem resolved_oldID (gi : Int → Option Nat) (lines : List Bytes) (st : ResolveState)
    (h : resolve gi (loadEntries lines []) = .ok st) (x : Nat) (e : entry)
    (he : st.entries[x]? = some e) : e.oldID = x ∧ (loadEntries lines [])[x]?.map entry.oldName =
      some e.oldName := by
  have hI := resolve_inv gi lines st h
  have hx : x < st.entries.length := by
    by_contra hc
    rw [List.getElem?_eq_none (not_lt.1 hc)] at he
    cases he
  have hx2 : x < (loadEntries lines []).length := by rw [← hI.len]; exact hx
  have hids := congrArg (fun l => l[x]?) hI.ids
  simp only [List.getElem?_map, he, Option.map_some'] at hids
  rw [List.getElem?_eq_getElem hx2] at hids
  simp only [Option.map_some', Option.some.injEq, Prod.mk.injEq] at hids
  have hf := (fresh_loaded lines x _ (List.getElem?_eq_getElem hx2)).1
  refine ⟨by rw [hids.1, hf], ?_⟩
  rw [List.getElem?_eq_getElem hx2, Option.map_some', hids.2]

theorem renames_nil_of_unchanged (st : ResolveState)
    (hr : st.renames.Perm ((st.entries.filter renamed).map renamePair))
    (h : ∀ e ∈ st.entries, e.newName = e.oldName) : st.renames = [] := by
  have : st.entries.filter renamed = [] := by
    rw [List.filter_eq_nil_iff]
    intro e he
    simp [renamed, h e he]
  rw [this] at hr
  exact List.Perm.eq_nil hr

/-- C22: idempotence of naming.  Take the plan `p1` of a first run, any table
`tbl` that lists the entries of that plan with the glyph 0 first (the planned
order is one), a file whose glyph records carry, in the order of `tbl`, the new
names of the first run, and a decoder with the same association of glyphs and
code points (a code point has the glyph at the position `i` of `tbl` exactly
when, in the first run, it had the glyph now at that position).  Then the run
on that file goes through, no name changes and `renames` is empty. -/
theorem naming_idempotent (gi1 gi2 : Int → Option Nat) (lines1 lines2 : List Bytes)
    (p1 : Plan) (tbl : List entry)
    (hp1 : plan gi1 lines1 = .ok p1)
    (ht : tbl.Perm p1.entries)
    (h0 : ∀ e, tbl[0]? = some e → e.oldID = 0)
    (hn : (loadEntries lines2 []).map entry.oldName = tbl.map entry.newName)
    (hg : ∀ (r : Int) (i : Nat) (e : entry), 0 ≤ r → r < 0xffff → tbl[i]? = some e →
      (gi2 r = some i ↔ gi1 r = some e.oldID)) :
    ∃ p2, plan gi2 lines2 = .ok p2 ∧ p2.renames = [] ∧
      (∀ e ∈ p2.entries, e.newName = e.oldName) ∧
      (p2.entries.map entry.newName).Perm (tbl.map entry.newName) := by
  obtain ⟨st1, e0, rest, hr1, hcons, hpe, _, _⟩ := plan_ok gi1 lines1 p1 hp1
  have htst : tbl.Perm st1.entries := by
    refine ht.trans ?_
    rw [hpe, hcons]
    exact (sortByR_perm rest).cons e0
  have I1 := resolve_inv gi1 lines1 st1 hr1
  have hlen2 : (loadEntries lines2 []).length = tbl.length := by
    have := congrArg List.length hn
    simpa using this
  have hpos : 0 < tbl.length := by
    rw [htst.length_eq, hcons]
    simp
  obtain ⟨t0, ht0⟩ : ∃ t, tbl[0]? = some t := ⟨tbl[0], List.getElem?_eq_getElem hpos⟩
  have ht0id := h0 t0 ht0
  have hA : ∀ r ∈ scanRunes, ∃ j, gi2 r = some j ∧ j < (loadEntries lines2 []).length := by
    intro r hr
    obtain ⟨r0, r1⟩ := (mem_scanRunes r).1 hr
    obtain ⟨x, hx, hx2⟩ := resolve_lookup gi1 _ st1 hr1 r hr
    have hxn : x < st1.entries.length := by
      rcases hx2 with rfl | h
      · rw [hcons]; simp
      · rw [I1.len]; exact h
    have he : st1.entries[x]? = some st1.entries[x] := List.getElem?_eq_getElem hxn
    have heid := (resolved_oldID gi1 lines1 st1 hr1 x _ he).1
    have hmem : st1.entries[x] ∈ tbl := htst.mem_iff.2 (List.getElem_mem _)
    obtain ⟨i, hi, hie⟩ := List.getElem_of_mem hmem
    have hti : tbl[i]? = some st1.entries[x] := by rw [List.getElem?_eq_getElem hi, hie]
    refine ⟨i, (hg r i _ r0 r1 hti).2 (by rw [heid]; exact hx), by rw [hlen2]; exact hi⟩
  obtain ⟨st2, hst2⟩ := resolveLoop_total gi2 (loadEntries lines2 []).length scanRunes
    { entries := loadEntries lines2 [], renames := [] } rfl hA
  have hr2 : resolve gi2 (loadEntries lines2 []) = .ok st2 := hst2
  have I2 := resolve_inv gi2 lines2 st2 hr2
  have hC : ∀ e ∈ st2.entries, e.newName = e.oldName := by
    intro e2 he2
    obtain ⟨y, hy, hye⟩ := List.getElem_of_mem he2
    have hy2 : st2.entries[y]? = some e2 := by rw [List.getElem?_eq_getElem hy, hye]
    by_cases hns : e2.r = notSeen
    · exact (I2.unseen y e2 hy2 hns).1
    · obtain ⟨hy0, hg2, ⟨a, b, hsplit, hmin⟩, hname⟩ := I2.seen y e2 hy2 hns
      by_cases hpu : inPrivateUse e2.r
      · rw [hname, if_pos hpu]
      · rw [hname, if_neg hpu]
        have hr2mem : e2.r ∈ scanRunes := by rw [hsplit]; simp
        obtain ⟨r20, r21⟩ := (mem_scanRunes _).1 hr2mem
        have hyt : y < tbl.length := by rw [← hlen2, ← I2.len]; exact hy
        obtain ⟨t, hty⟩ : ∃ t, tbl[y]? = some t := ⟨tbl[y], List.getElem?_eq_getElem hyt⟩
        have hold : e2.oldName = t.newName := by
          have h1 := (resolved_oldID gi2 lines2 st2 hr2 y e2 hy2).2
          have h2 := congrArg (fun l => l[y]?) hn
          simp only [List.getElem?_map] at h2
          rw [h1, hty] at h2
          simpa using h2
        have hg1 : gi1 e2.r = some t.oldID := (hg e2.r y t r20 r21 hty).1 hg2
        have htm : t ∈ st1.entries := htst.mem_iff.1 (List.mem_iff_getElem?.2 ⟨y, hty⟩)
        obtain ⟨x, hx, hxe⟩ := List.getElem_of_mem htm
        have hx1 : st1.entries[x]? = some t := by rw [List.getElem?_eq_getElem hx, hxe]
        have hxid := (resolved_oldID gi1 lines1 st1 hr1 x t hx1).1
        have hx0 : x ≠ 0 := by
          intro hx0
          have h1 : gi2 e2.r = some 0 :=
            (hg e2.r 0 t0 r20 r21 ht0).2 (by rw [ht0id, ← hx0, ← hxid]; exact hg1)
          rw [hg2] at h1
          exact hy0 (Option.some.inj h1)
        have htns : t.r ≠ notSeen := by
          intro hc
          exact (I1.unseen x t hx1 hc).2 hx0 e2.r hr2mem (by rw [← hxid]; exact hg1)
        obtain ⟨_, hg1t, ⟨a1, b1, hsplit1, hmin1⟩, hname1⟩ := I1.seen x t hx1 htns
        have htmem : t.r ∈ scanRunes := by rw [hsplit1]; simp
        obtain ⟨t0r, t1r⟩ := (mem_scanRunes _).1 htmem
        have hreq : t.r = e2.r := by
          rcases lt_trichotomy t.r e2.r with hlt | heq | hgt
          · exfalso
            have hin := scanRunes_split a b e2.r hsplit _ t0r hlt
            exact hmin _ hin ((hg _ y t t0r t1r hty).2 (by rw [hxid]; exact hg1t))
          · exact heq
          · exfalso
            have hin := scanRunes_split a1 b1 _ hsplit1 _ r20 hgt
            exact hmin1 _ hin (by rw [← hxid]; exact hg1)
        rw [hold, hname1, hreq, if_neg hpu]
  have hren : st2.renames = [] := renames_nil_of_unchanged st2 I2.ren hC
  have hne2 : st2.entries ≠ [] := by
    intro h
    have := I2.len
    rw [h, hlen2] at this
    simp only [List.length_nil] at this
    omega
  obtain ⟨f0, rest2, hc2⟩ := List.exists_cons_of_ne_nil hne2
  have hplan : plan gi2 lines2 = .ok (Plan.mk (f0 :: sortByR rest2) st2.renames
      (sortStrings (collectExtraNames st2.entries))) := by
    unfold plan
    rw [hr2]
    simp only [hc2, sortTail]
  have hperm2 : (f0 :: sortByR rest2).Perm st2.entries := by
    rw [hc2]
    exact (sortByR_perm rest2).cons f0
  refine ⟨_, hplan, hren, fun e he => hC e (hperm2.mem_iff.1 he), ?_⟩
  refine (hperm2.map entry.newName).trans ?_
  have e1 : st2.entries.map entry.newName = st2.entries.map entry.oldName :=
    List.map_congr_left hC
  have e2 : st2.entries.map entry.oldName = (loadEntries lines2 []).map entry.oldName := by
    have := congrArg (List.map Prod.snd) I2.ids
    simpa [List.map_map, Function.comp_def] using this
  rw [e1, e2, hn]

theorem second_decoder (r : Int) (i : Nat) (e : entry) (he : examplePlan.entries[i]? = some e) :
    secondGlyphIndex r = some i ↔ exampleGlyphIndex r = some e.oldID := by
  have hi : i < 7 := by
    by_contra hc
    rw [List.getElem?_eq_none (by simpa [examplePlan] using hc)] at he
    cases he
  unfold secondGlyphIndex exampleGlyphIndex
  interval_cases i <;>
    simp only [examplePlan, List.getElem?_cons_zero, List.getElem?_cons_succ,
      Option.some.injEq] at he <;>
    subst he <;> split_ifs <;> simp

/-- C22 on the worked input: the second run, on the names and the order the
first run planned. -/
theorem naming_idempotent_witness :
    ∃ p2, plan secondGlyphIndex secondLines = .ok p2 ∧ p2.renames = [] ∧
      (∀ e ∈ p2.entries, e.newName = e.oldName) ∧
      (p2.entries.map entry.newName).Perm (examplePlan.entries.map entry.newName) :=
  naming_idempotent exampleGlyphIndex secondGlyphIndex exampleLines secondLines examplePlan
    examplePlan.entries example_plan (List.Perm.refl _)
    (fun e he => by
      simp only [examplePlan, List.getElem?_cons_zero, Option.some.injEq] at he
      rw [← he])
    (by decide) (fun r i e _ _ he => second_decoder r i e he)

/-! ## The glyph 0 -/

/-- C31: the glyph 0 is never resolved or renamed.  After the resolver loop the
entry at the index 0 has `r = notSeen` and its old name as new name (and the
old ID 0), whatever the decoder; and an iteration in which the decoder returns
the glyph index 0 leaves the entries and `renames` as they are. -/
theorem glyph_zero_untouched (gi : Int → Option Nat) (lines : List Bytes) (st : ResolveState)
    (h : resolve gi (loadEntries lines []) = .ok st) :
    (∀ e, st.entries[0]? = some e → e.r = notSeen ∧ e.newName = e.oldName ∧ e.oldID = 0) ∧
    (∀ (s : ResolveState) (r : Int), gi r = some 0 → resolveStep gi s r = .ok s) := by
  have hI := resolve_inv gi lines st h
  refine ⟨fun e he => ?_, fun s r hr => ?_⟩
  · have hr : e.r = notSeen := by
      by_contra hc
      exact (hI.seen 0 e he hc).1 rfl
    exact ⟨hr, (hI.unseen 0 e he hr).1, (resolved_oldID gi lines st h 0 e he).1⟩
  · unfold resolveStep
    rw [hr]
    rfl

/-- C31 on the worked input. -/
theorem glyph_zero_untouched_witness :
    (∀ e, exampleResolved[0]? = some e → e.r = notSeen ∧ e.newName = e.oldName ∧ e.oldID = 0) ∧
    (∀ (s : ResolveState) (r : Int), exampleGlyphIndex r = some 0 →
      resolveStep exampleGlyphIndex s r = .ok s) :=
  glyph_zero_untouched exampleGlyphIndex exampleLines
    { entries := exampleResolved, renames := exampleRenames }
    (by rw [example_loaded]; exact example_resolve)

/-! ## The output as lines -/

theorem joinLines_cons (l : Bytes) (ls : List Bytes) :
    joinLines (l :: ls) = l ++ [newlineByte] ++ joinLines ls := by
  simp [joinLines]

theorem joinLines_append (a b : List Bytes) : joinLines (a ++ b) = joinLines a ++ joinLines b := by
  simp [joinLines]

theorem glyphOrderRecords_lines (quote : Bytes → Bytes) : ∀ (es : List entry) (i : Nat),
    glyphOrderRecords quote i es = joinLines (glyphOrderLines quote i es)
  | [], _ => rfl
  | e :: es, i => by
    have e1 : ascii "/>\n" = ascii "/>" ++ [newlineByte] := by decide
    rw [glyphOrderRecords, glyphOrderLines, joinLines_cons, glyphOrderRecords_lines quote es, e1]
    simp only [List.append_assoc]

theorem extraNamesRecords_lines (quote : Bytes → Bytes) : ∀ ns : List Bytes,
    extraNamesRecords quote ns = joinLines (extraNamesLines quote ns)
  | [] => rfl
  | n :: ns => by
    have e1 : ascii "/>\n" = ascii "/>" ++ [newlineByte] := by decide
    rw [extraNamesRecords, extraNamesLines, joinLines_cons, extraNamesRecords_lines quote ns, e1]
    simp only [List.append_assoc]

theorem emitFrom_lines (quote : Bytes → Bytes) (p : Plan) : ∀ (ls : List Bytes)
    (st : Option Bytes), emitFrom quote p st ls = joinLines (emittedLines quote p st ls)
  | [], _ => rfl
  | l :: ls, st => by
    have ih := emitFrom_lines quote p ls
    unfold emitFrom emittedLines
    by_cases hg : st ≠ none ∧ st ≠ some l
    · rw [if_pos hg, if_pos hg]
      exact ih st
    · rw [if_neg hg, if_neg hg, joinLines_cons]
      congr 1
      split_ifs
      · rw [joinLines_append, ← glyphOrderRecords_lines, ih]
      · rw [joinLines_append, ← extraNamesRecords_lines, ih]
      · exact ih none

theorem splitLines_ne_nil : ∀ d : Bytes, splitLines d ≠ []
  | [] => by simp [splitLines]
  | c :: cs => by
    unfold splitLines
    split_ifs
    · simp
    · split <;> simp

/-- The lines of a text, each followed by a newline, are the text and one more
newline. -/
theorem joinLines_splitLines : ∀ d : Bytes, joinLines (splitLines d) = d ++ [newlineByte]
  | [] => by simp [splitLines, joinLines]
  | c :: cs => by
    have ih := joinLines_splitLines cs
    unfold splitLines
    by_cases hc : c = newlineByte
    · rw [if_pos hc, joinLines_cons, ih, hc]
      rfl
    · rw [if_neg hc]
      cases hs : splitLines cs with
      | nil => exact absurd hs (splitLines_ne_nil cs)
      | cons l ls =>
        rw [hs] at ih
        rw [joinLines_cons] at ih ⊢
        simp only [List.cons_append, List.append_assoc] at ih ⊢
        rw [ih]

theorem emitLines_nil : ∀ ls : List Bytes, emitLines [] ls = joinLines ls
  | [] => rfl
  | l :: ls => by
    have hl : rewriteLine [] l = l := by
      unfold rewriteLine
      split
      · rfl
      · simp [mapGet]
    rw [emitLines, joinLines_cons, emitLines_nil ls, hl]

/-- C32: the identity case and the trailing newline.  In general the output of
`rewrite` is the text of the lines the output loop writes, each followed by a
newline.  When the input has neither start-marker line and `renames` is empty,
the output is the input followed by one more newline byte. -/
theorem identity_case (quote : Bytes → Bytes) (gi : Int → Option Nat) (data : Bytes) (p : Plan)
    (hp : plan gi (splitLines data) = .ok p) :
    rewrite quote gi data = .ok (joinLines (emittedLines quote p none (splitLines data))) ∧
    (p.renames = [] → glyphOrderBytes ∉ splitLines data → extraNamesBytes ∉ splitLines data →
      rewrite quote gi data = .ok (data ++ [newlineByte])) := by
  have h := rewrite_ok quote gi data _ p rfl hp
  refine ⟨by rw [h, emitFrom_lines], fun hr h1 h2 => ?_⟩
  rw [h, emitFrom_no_markers quote p _ h1 h2, hr, emitLines_nil, joinLines_splitLines]

theorem identity_plan : plan (fun _ => some 0) (splitLines identityDocument) = .ok identityPlan :=
  plan_of_resolve (fun _ => some 0) (splitLines identityDocument) identityPlan.entries
    { entries := identityPlan.entries, renames := [] } identityPlan (by decide)
    (resolveLoop_skip (fun _ => some 0) scanRunes
      { entries := identityPlan.entries, renames := [] } (fun _ _ => rfl))
    (by decide)

/-- C32 on a file without start markers, with a decoder that gives no glyph to
any code point. -/
theorem identity_case_witness :
    rewrite (strconvQuote (fun s => s)) (fun _ => some 0) identityDocument =
      .ok (identityDocument ++ [newlineByte]) :=
  (identity_case (strconvQuote (fun s => s)) (fun _ => some 0) identityDocument identityPlan
    identity_plan).2 rfl (by decide) (by decide)

/-! ## The records of the glyph order and the pattern of the first loop -/

theorem glyphIDRegExpFind_bracket (t : Bytes) : glyphIDRegExpFind (60 :: t) = none := by
  have e : ascii "    <GlyphID id=\"" = 32 :: ascii "   <GlyphID id=\"" := by decide
  unfold glyphIDRegExpFind
  rw [e]
  simp [dropLit]

theorem glyphOrderLines_bracket (quote : Bytes → Bytes) : ∀ (es : List entry) (i : Nat),
    ∀ l ∈ glyphOrderLines quote i es, ∃ t, l = 60 :: t
  | [], _, l, h => by cases h
  | e :: es, i, l, h => by
    have e1 : ascii "<GlyphID id=\"" = 60 :: ascii "GlyphID id=\"" := by decide
    rw [glyphOrderLines, e1] at h
    rcases List.mem_cons.1 h with rfl | h
    · exact ⟨ascii "GlyphID id=\"" ++ sprintfD i ++ ascii "\" name=" ++ quote e.newName ++
        ascii "/>", by simp only [List.cons_append]⟩
    · exact glyphOrderLines_bracket quote es (i + 1) l h

theorem loadEntries_none : ∀ (ls : List Bytes) (acc : List entry),
    (∀ l ∈ ls, glyphIDRegExpFind l = none) → loadEntries ls acc = acc
  | [], _, _ => rfl
  | l :: ls, acc, h => by
    unfold loadEntries
    rw [h l (List.mem_cons_self _ _)]
    simp only
    split_ifs
    · rfl
    · exact loadEntries_none ls acc (fun m hm => h m (List.mem_cons_of_mem _ hm))

theorem toDigitsCore_digits : ∀ (fuel n : Nat) (acc : List Char),
    (∀ c ∈ acc, 48 ≤ c.toNat ∧ c.toNat ≤ 57) →
      ∀ c ∈ Nat.toDigitsCore 10 fuel n acc, 48 ≤ c.toNat ∧ c.toNat ≤ 57
  | 0, _, acc, h => by
    unfold Nat.toDigitsCore
    exact h
  | fuel + 1, n, acc, h => by
    have hd : 48 ≤ (Nat.digitChar (n % 10)).toNat ∧ (Nat.digitChar (n % 10)).toNat ≤ 57 := by
      have : n % 10 < 10 := Nat.mod_lt _ (by decide)
      interval_cases (n % 10) <;> decide
    have hacc : ∀ c ∈ Nat.digitChar (n % 10) :: acc, 48 ≤ c.toNat ∧ c.toNat ≤ 57 := by
      intro c hc
      rcases List.mem_cons.1 hc with rfl | hc
      · exact hd
      · exact h c hc
    unfold Nat.toDigitsCore
    dsimp only
    split_ifs
    · exact hacc
    · exact toDigitsCore_digits fuel _ _ hacc

theorem sprintfD_digits (i : Nat) : ∀ c ∈ sprintfD i, 48 ≤ c ∧ c ≤ 57 := by
  intro c hc
  unfold sprintfD Nat.toDigits at hc
  obtain ⟨d, hd, rfl⟩ := List.mem_map.1 hc
  exact toDigitsCore_digits _ _ [] (fun _ h => by cases h) d hd

theorem splitLines_line : ∀ (l rest : Bytes), newlineByte ∉ l →
    splitLines (l ++ newlineByte :: rest) = l :: splitLines rest
  | [], rest, _ => by simp [splitLines]
  | c :: l, rest, h => by
    have hc : c ≠ newlineByte := fun e => h (e ▸ List.mem_cons_self _ _)
    have ih := splitLines_line l rest (fun e => h (List.mem_cons_of_mem _ e))
    simp only [List.cons_append]
    rw [splitLines, if_neg hc, ih]

theorem splitLines_joinLines : ∀ ls : List Bytes, (∀ l ∈ ls, newlineByte ∉ l) →
    splitLines (joinLines ls) = ls ++ [[]]
  | [], _ => by simp [joinLines, splitLines]
  | l :: ls, h => by
    rw [joinLines_cons]
    have : l ++ [newlineByte] ++ joinLines ls = l ++ newlineByte :: joinLines ls := by simp
    rw [this, splitLines_line l _ (h l (List.mem_cons_self _ _)),
      splitLines_joinLines ls (fun m hm => h m (List.mem_cons_of_mem _ hm))]
    rfl

theorem glyphOrderLines_no_newline (quote : Bytes → Bytes) (hq : ∀ s, newlineByte ∉ quote s) :
    ∀ (es : List entry) (i : Nat), ∀ l ∈ glyphOrderLines quote i es, newlineByte ∉ l
  | [], _, l, h => by cases h
  | e :: es, i, l, h => by
    rw [glyphOrderLines] at h
    rcases List.mem_cons.1 h with rfl | h
    · simp only [List.mem_append, not_or]
      refine ⟨⟨⟨⟨by decide, ?_⟩, by decide⟩, hq _⟩, by decide⟩
      intro hc
      have := sprintfD_digits i _ hc
      simp [newlineByte] at this
    · exact glyphOrderLines_no_newline quote hq es (i + 1) l h

theorem glyphOrderLines_length (quote : Bytes → Bytes) : ∀ (es : List entry) (i : Nat),
    (glyphOrderLines quote i es).length = es.length
  | [], _ => rfl
  | e :: es, i => by
    rw [glyphOrderLines, List.length_cons, glyphOrderLines_length quote es, List.length_cons]

/-- C33: the records of the glyph order are not loadable.  The pattern of the
first loop matches only lines that start with four spaces and `<`, while every
line `writeGlyphOrder` prints starts with `<`; so no printed line matches, and
the first loop run on the printed lines makes no entry, however many records
there are.  When `%q` writes no newline (the library never does), the printed
lines are the lines of the printed text, which ends with a newline. -/
theorem records_not_loadable (quote : Bytes → Bytes) (es : List entry) (i : Nat) :
    (∀ l n : Bytes, glyphIDRegExpFind l = some n → ∃ t, l = ascii "    <" ++ t) ∧
    (∀ l ∈ glyphOrderLines quote i es, (∃ t, l = ascii "<" ++ t) ∧ glyphIDRegExpFind l = none) ∧
    (glyphOrderLines quote i es).length = es.length ∧
    loadEntries (glyphOrderLines quote i es) [] = [] ∧
    glyphOrderRecords quote i es = joinLines (glyphOrderLines quote i es) ∧
    ((∀ s, newlineByte ∉ quote s) →
      splitLines (glyphOrderRecords quote i es) = glyphOrderLines quote i es ++ [[]] ∧
      loadEntries (splitLines (glyphOrderRecords quote i es)) [] = []) := by
  have hnone : ∀ l ∈ glyphOrderLines quote i es, glyphIDRegExpFind l = none := by
    intro l hl
    obtain ⟨t, rfl⟩ := glyphOrderLines_bracket quote es i l hl
    exact glyphIDRegExpFind_bracket t
  refine ⟨?_, ?_, glyphOrderLines_length quote es i, loadEntries_none _ _ hnone,
    glyphOrderRecords_lines quote es i, ?_⟩
  · intro l n h
    obtain ⟨a, _, _, rfl⟩ := (glyphIDRegExpFind_iff l n).1 h
    have e : ascii "    <GlyphID id=\"" = ascii "    <" ++ ascii "GlyphID id=\"" := by decide
    exact ⟨ascii "GlyphID id=\"" ++ a ++ ascii "\" name=\"" ++ n ++ ascii "\"/>", by
      rw [e]
      simp only [List.append_assoc]⟩
  · intro l hl
    obtain ⟨t, rfl⟩ := glyphOrderLines_bracket quote es i l hl
    exact ⟨⟨t, rfl⟩, glyphIDRegExpFind_bracket t⟩
  · intro hq
    have hs : splitLines (glyphOrderRecords quote i es) = glyphOrderLines quote i es ++ [[]] := by
      rw [glyphOrderRecords_lines, splitLines_joinLines _
        (glyphOrderLines_no_newline quote hq es i)]
    refine ⟨hs, ?_⟩
    rw [hs]
    refine loadEntries_none _ _ (fun l hl => ?_)
    rcases List.mem_append.1 hl with h1 | h1
    · exact hnone l h1
    · simp only [List.mem_singleton] at h1
      subst h1
      decide

end Ttfreindex

namespace UpgradeGoFonts

open Ttfreindex (Bytes ascii dropLit mapGet mapSet Renames sprintfD)

/-! ## Numbers written by `%d` and read by `strconv.Atoi` -/

theorem digitChar_toNat (d : Nat) (h : d < 10) : (Nat.digitChar d).toNat = 48 + d := by
  interval_cases d <;> rfl

theorem digitsValue_append : ∀ (a b : Bytes) (n : Nat),
    digitsValue n (a ++ b) = (digitsValue n a).bind (fun m => digitsValue m b)
  | [], b, n => rfl
  | c :: a, b, n => by
    simp only [List.cons_append, digitsValue]
    split_ifs
    · exact digitsValue_append a b _
    · rfl

theorem toDigitsCore_spec : ∀ (fuel n : Nat) (acc : List Char), n < fuel →
    ∃ front : List Char, Nat.toDigitsCore 10 fuel n acc = front ++ acc ∧ front ≠ [] ∧
      (∀ a, digitsValue a (front.map Char.toNat) = some (a * 10 ^ front.length + n)) ∧
      (∀ c ∈ front.map Char.toNat, 48 ≤ c ∧ c ≤ 57)
  | 0, n, acc, h => by omega
  | fuel + 1, n, acc, h => by
    have hd : (Nat.digitChar (n % 10)).toNat = 48 + n % 10 :=
      digitChar_toNat _ (Nat.mod_lt _ (by decide))
    unfold Nat.toDigitsCore
    by_cases h0 : n / 10 = 0
    · refine ⟨[Nat.digitChar (n % 10)], by simp [h0], by simp, ?_, ?_⟩
      · intro a
        simp only [List.map_cons, List.map_nil, digitsValue, hd, List.length_singleton]
        rw [if_pos (by omega)]
        congr 1
        omega
      · intro c hc
        simp only [List.map_cons, List.map_nil, List.mem_singleton] at hc
        omega
    · obtain ⟨front, e, _, hv, hc⟩ := toDigitsCore_spec fuel (n / 10)
        (Nat.digitChar (n % 10) :: acc) (by omega)
      refine ⟨front ++ [Nat.digitChar (n % 10)], by simp [h0, e], by simp, ?_, ?_⟩
      · intro a
        rw [List.map_append, digitsValue_append, hv a]
        simp only [Option.some_bind, List.map_cons, List.map_nil, digitsValue, hd,
          List.length_append, List.length_singleton]
        rw [if_pos (by omega)]
        congr 1
        rw [pow_succ]
        have := Nat.div_add_mod n 10
        have e1 : 48 + n % 10 - 48 = n % 10 := by omega
        rw [e1]
        nlinarith [this]
      · intro c hcm
        rw [List.map_append, List.mem_append] at hcm
        rcases hcm with h1 | h1
        · exact hc c h1
        · simp only [List.map_cons, List.map_nil, List.mem_singleton] at h1
          omega

theorem sprintfD_spec (n : Nat) :
    digitsValue 0 (sprintfD n) = some n ∧ sprintfD n ≠ [] ∧
      ∀ c ∈ sprintfD n, 48 ≤ c ∧ c ≤ 57 := by
  obtain ⟨front, e, hne, hv, hc⟩ := toDigitsCore_spec (n + 1) n [] (by omega)
  have : sprintfD n = front.map Char.toNat := by
    unfold sprintfD Nat.toDigits
    rw [e, List.append_nil]
  rw [this]
  refine ⟨by simpa using hv 0, by simpa using hne, hc⟩

theorem sprintfInt_chars (n : Int) : ∀ c ∈ sprintfInt n, c = 45 ∨ (48 ≤ c ∧ c ≤ 57) := by
  intro c hc
  unfold sprintfInt at hc
  split_ifs at hc
  · rcases List.mem_cons.1 hc with h | h
    · exact Or.inl h
    · exact Or.inr ((sprintfD_spec _).2.2 c h)
  · exact Or.inr ((sprintfD_spec _).2.2 c hc)

theorem atoiClamp_range (neg : Bool) (n : Nat) :
    -(2 ^ 63) ≤ atoiClamp neg n ∧ atoiClamp neg n < 2 ^ 63 := by
  have p63 : (2 : Int) ^ 63 = 9223372036854775808 := by norm_num
  have q63 : (2 : Nat) ^ 63 = 9223372036854775808 := by norm_num
  unfold atoiClamp
  simp only [p63, q63]
  split_ifs <;> constructor <;> omega

theorem atoiClamp_neg (n : Nat) (h : n ≤ 2 ^ 63) : atoiClamp true n = -(n : Int) := by
  unfold atoiClamp
  rw [if_pos rfl, if_neg (by omega)]

theorem atoiClamp_pos (n : Nat) (h : n < 2 ^ 63) : atoiClamp false n = (n : Int) := by
  unfold atoiClamp
  rw [if_neg (by simp), if_neg (by omega)]

theorem atoiSign_digit (c : Nat) (t : Bytes) (h : 48 ≤ c) :
    atoiSign (c :: t) = (false, c :: t) := by
  unfold atoiSign
  split <;> rename_i hm
  · simp only [List.cons.injEq] at hm
    omega
  · simp only [List.cons.injEq] at hm
    omega
  · rfl

/-- A number of the range of `int`, written by `%d`, is read back by `Atoi`. -/
theorem atoi_sprintfInt (n : Int) (h0 : -(2 ^ 63) ≤ n) (h1 : n < 2 ^ 63) :
    atoi (sprintfInt n) = n := by
  have p63 : (2 : Int) ^ 63 = 9223372036854775808 := by norm_num
  have q63 : (2 : Nat) ^ 63 = 9223372036854775808 := by norm_num
  rw [p63] at h0 h1
  unfold sprintfInt
  by_cases hn : n < 0
  · rw [if_pos hn]
    obtain ⟨hv, hne, _⟩ := sprintfD_spec n.natAbs
    have hs : atoiSign (45 :: sprintfD n.natAbs) = (true, sprintfD n.natAbs) := rfl
    unfold atoi
    rw [hs]
    simp only [hne, if_false, hv]
    rw [atoiClamp_neg _ (by omega)]
    omega
  · rw [if_neg hn]
    obtain ⟨hv, hne, hc⟩ := sprintfD_spec n.toNat
    cases hs : sprintfD n.toNat with
    | nil => exact absurd hs hne
    | cons c t =>
      have hcr := hc c (by rw [hs]; exact List.mem_cons_self _ _)
      rw [hs] at hv
      unfold atoi
      rw [atoiSign_digit c t hcr.1]
      simp only [reduceCtorEq, if_false, hv]
      rw [atoiClamp_pos _ (by omega)]
      omega

theorem atoi_range (s : Bytes) : -(2 ^ 63) ≤ atoi s ∧ atoi s < 2 ^ 63 := by
  unfold atoi
  split_ifs
  · constructor <;> norm_num
  · split
    · constructor <;> norm_num
    · exact atoiClamp_range _ _

/-! ## Searching and trimming a line -/

theorem indexByte_first : ∀ (pre rest : Bytes) (c : Nat), c ∉ pre →
    indexByte (pre ++ c :: rest) c = some pre.length
  | [], rest, c, _ => by simp [indexByte]
  | x :: pre, rest, c, h => by
    have hx : x ≠ c := fun e => h (e ▸ List.mem_cons_self _ _)
    have ih := indexByte_first pre rest c (fun e => h (List.mem_cons_of_mem _ e))
    simp [indexByte, hx, ih]

theorem indexByte_none : ∀ (b : Bytes) (c : Nat), c ∉ b → indexByte b c = none
  | [], _, _ => rfl
  | x :: b, c, h => by
    have hx : x ≠ c := fun e => h (e ▸ List.mem_cons_self _ _)
    have ih := indexByte_none b c (fun e => h (List.mem_cons_of_mem _ e))
    simp [indexByte, hx, ih]

theorem index_first (s0 : Nat) (srest rest : Bytes) : ∀ pre : Bytes, s0 ∉ pre →
    index (pre ++ (s0 :: srest) ++ rest) (s0 :: srest) = some pre.length
  | [], _ => by
    have : dropLit (s0 :: srest) ((s0 :: srest) ++ rest) = some rest :=
      (Ttfreindex.dropLit_some _ _ _).2 rfl
    simp only [List.nil_append, List.cons_append] at this ⊢
    simp [index, this]
  | x :: pre, h => by
    have hx : s0 ≠ x := fun e => h (e ▸ List.mem_cons_self _ _)
    have ih := index_first s0 srest rest pre (fun e => h (List.mem_cons_of_mem _ e))
    simp only [List.cons_append, List.append_assoc] at ih ⊢
    simp [index, dropLit, hx, ih]

/-- The text between the first `sep` and the next quote. -/
theorem parseString_first (pre v rest : Bytes) (s0 : Nat) (srest : Bytes) (h1 : s0 ∉ pre)
    (h2 : 34 ∉ v) :
    parseString (pre ++ (s0 :: srest) ++ (v ++ 34 :: rest)) (s0 :: srest) = some v := by
  unfold parseString
  rw [index_first s0 srest _ pre h1]
  dsimp only
  have e : (pre ++ (s0 :: srest) ++ (v ++ 34 :: rest)).drop (pre.length + (s0 :: srest).length) =
      v ++ 34 :: rest := by
    rw [List.drop_left' (by simp)]
  rw [e, indexByte_first v rest 34 h2]
  dsimp only
  rw [List.take_left' rfl]

theorem trimRight_keep (tf : Bytes → Bytes) (z : Nat) (rev : Bytes) (h1 : z < 128)
    (h2 : isAsciiSpace z = false) : trimRight tf (z :: rev) = (z :: rev).reverse := by
  unfold trimRight
  rw [if_neg (by omega), h2]
  simp

theorem trimSpace_core (tf : Bytes → Bytes) (a z : Nat) (mid : Bytes) (ha : a < 128)
    (ha2 : isAsciiSpace a = false) (hz : z < 128) (hz2 : isAsciiSpace z = false) :
    ∀ k : Nat, trimSpace tf (List.replicate k 32 ++ a :: (mid ++ [z])) = a :: (mid ++ [z])
  | 0 => by
    simp only [List.replicate_zero, List.nil_append]
    unfold trimSpace
    rw [if_neg (by omega), ha2]
    simp only [Bool.false_eq_true, if_false]
    have : (a :: (mid ++ [z])).reverse = z :: (a :: mid).reverse := by simp
    rw [this, trimRight_keep tf z _ hz hz2]
    simp
  | k + 1 => by
    simp only [List.replicate_succ, List.cons_append]
    unfold trimSpace
    rw [if_neg (by decide)]
    have : isAsciiSpace 32 = true := by decide
    rw [this]
    simp only [if_true]
    exact trimSpace_core tf a z mid ha ha2 hz hz2 k

/-! ## The line of a point -/

theorem sprintfInt_not_mem (n : Int) (c : Nat) (h1 : c ≠ 45) (h2 : c < 48 ∨ 57 < c) :
    c ∉ sprintfInt n := by
  intro hc
  rcases sprintfInt_chars n c hc with h | h
  · exact h1 h
  · omega

theorem renderPt_eq (p : pt) : renderPt p = List.replicate 8 32 ++ ptCore p ++ [10] := by
  have e1 : ascii "        <pt x=\"" = List.replicate 8 32 ++ ascii "<pt x=\"" := by decide
  have e2 : ascii "\"/>\n" = ascii "\"/>" ++ [10] := by decide
  unfold renderPt ptCore
  rw [e1, e2]
  simp only [List.append_assoc]

theorem ptCore_shape (p : pt) : ∃ mid : Bytes, ptCore p = 60 :: (112 :: mid ++ [62]) := by
  have e1 : ascii "<pt x=\"" = 60 :: 112 :: ascii "t x=\"" := by decide
  have e2 : ascii "\"/>" = ascii "\"/" ++ [62] := by decide
  refine ⟨ascii "t x=\"" ++ sprintfInt p.x ++ ascii "\" y=\"" ++ sprintfInt p.y ++
    ascii "\" on=\"" ++ sprintfInt p.onCurve ++ ascii "\"/", ?_⟩
  unfold ptCore
  rw [e1, e2]
  simp only [List.append_assoc, List.cons_append]

theorem ptCore_no_newline (p : pt) : 10 ∉ ptCore p := by
  unfold ptCore
  simp only [List.mem_append, not_or]
  refine ⟨⟨⟨⟨⟨⟨by decide, ?_⟩, by decide⟩, ?_⟩, by decide⟩, ?_⟩, by decide⟩ <;>
    exact sprintfInt_not_mem _ 10 (by decide) (Or.inl (by decide))

theorem parseInt_x (p : pt) (h : -(2 ^ 63) ≤ p.x ∧ p.x < 2 ^ 63) :
    parseInt (ptCore p) xQuote = some p.x := by
  have e1 : ascii "<pt x=\"" = ascii "<pt " ++ (120 :: [61, 34]) := by decide
  have e2 : ascii "\" y=\"" = 34 :: ascii " y=\"" := by decide
  have e3 : xQuote = 120 :: [61, 34] := by decide
  have e : ptCore p = ascii "<pt " ++ (120 :: [61, 34]) ++ (sprintfInt p.x ++ 34 ::
      (ascii " y=\"" ++ sprintfInt p.y ++ ascii "\" on=\"" ++ sprintfInt p.onCurve ++
        ascii "\"/>")) := by
    unfold ptCore
    rw [e1, e2]
    simp only [List.append_assoc, List.cons_append, List.nil_append]
  unfold parseInt
  rw [e, e3, parseString_first _ _ _ _ _ (by decide)
    (sprintfInt_not_mem _ 34 (by decide) (Or.inl (by decide)))]
  simp only [Option.map_some', atoi_sprintfInt p.x h.1 h.2]

theorem parseInt_y (p : pt) (h : -(2 ^ 63) ≤ p.y ∧ p.y < 2 ^ 63) :
    parseInt (ptCore p) yQuote = some p.y := by
  have e1 : ascii "\" y=\"" = ascii "\" " ++ (121 :: [61, 34]) := by decide
  have e2 : ascii "\" on=\"" = 34 :: ascii " on=\"" := by decide
  have e3 : yQuote = 121 :: [61, 34] := by decide
  have e : ptCore p = (ascii "<pt x=\"" ++ sprintfInt p.x ++ ascii "\" ") ++ (121 :: [61, 34]) ++
      (sprintfInt p.y ++ 34 :: (ascii " on=\"" ++ sprintfInt p.onCurve ++ ascii "\"/>")) := by
    unfold ptCore
    rw [e1, e2]
    simp only [List.append_assoc, List.cons_append, List.nil_append]
  have hpre : 121 ∉ ascii "<pt x=\"" ++ sprintfInt p.x ++ ascii "\" " := by
    simp only [List.mem_append, not_or]
    exact ⟨⟨by decide, sprintfInt_not_mem _ 121 (by decide) (Or.inr (by decide))⟩, by decide⟩
  unfold parseInt
  rw [e, e3, parseString_first _ _ _ _ _ hpre
    (sprintfInt_not_mem _ 34 (by decide) (Or.inl (by decide)))]
  simp only [Option.map_some', atoi_sprintfInt p.y h.1 h.2]

theorem parseInt_on (p : pt) (h : -(2 ^ 63) ≤ p.onCurve ∧ p.onCurve < 2 ^ 63) :
    parseInt (ptCore p) onQuote = some p.onCurve := by
  have e1 : ascii "\" on=\"" = ascii "\" " ++ (111 :: [110, 61, 34]) := by decide
  have e2 : ascii "\"/>" = 34 :: ascii "/>" := by decide
  have e3 : onQuote = 111 :: [110, 61, 34] := by decide
  have e : ptCore p = (ascii "<pt x=\"" ++ sprintfInt p.x ++ ascii "\" y=\"" ++ sprintfInt p.y ++
      ascii "\" ") ++ (111 :: [110, 61, 34]) ++ (sprintfInt p.onCurve ++ 34 :: ascii "/>") := by
    unfold ptCore
    rw [e1, e2]
    simp only [List.append_assoc, List.cons_append, List.nil_append]
  have hpre : 111 ∉ ascii "<pt x=\"" ++ sprintfInt p.x ++ ascii "\" y=\"" ++ sprintfInt p.y ++
      ascii "\" " := by
    simp only [List.mem_append, not_or]
    exact ⟨⟨⟨⟨by decide, sprintfInt_not_mem _ 111 (by decide) (Or.inr (by decide))⟩, by decide⟩,
      sprintfInt_not_mem _ 111 (by decide) (Or.inr (by decide))⟩, by decide⟩
  unfold parseInt
  rw [e, e3, parseString_first _ _ _ _ _ hpre
    (sprintfInt_not_mem _ 34 (by decide) (Or.inl (by decide)))]
  simp only [Option.map_some', atoi_sprintfInt p.onCurve h.1 h.2]

theorem trimSpace_pt (tf : Bytes → Bytes) (p : pt) :
    trimSpace tf (List.replicate 8 32 ++ ptCore p) = ptCore p := by
  obtain ⟨mid, e⟩ := ptCore_shape p
  rw [e]
  have := trimSpace_core tf 60 62 (112 :: mid) (by decide) (by decide) (by decide) (by decide) 8
  simpa using this

/-! ## The loop of `parseGlyph`, line by line -/

theorem steps_refl (tf : Bytes → Bytes) (b : Bytes) (ic : Bool) (g : glyph) :
    Steps tf b ic g b ic g :=
  fun fuel h => ⟨fuel, h, rfl⟩

theorem steps_trans (tf : Bytes → Bytes) (b1 b2 b3 : Bytes) (i1 i2 i3 : Bool)
    (g1 g2 g3 : glyph) (h1 : Steps tf b1 i1 g1 b2 i2 g2) (h2 : Steps tf b2 i2 g2 b3 i3 g3) :
    Steps tf b1 i1 g1 b3 i3 g3 := by
  intro fuel hf
  obtain ⟨f1, hf1, e1⟩ := h1 fuel hf
  obtain ⟨f2, hf2, e2⟩ := h2 f1 hf1
  exact ⟨f2, hf2, e1.trans e2⟩

theorem loop_line (tf : Bytes → Bytes) (fuel : Nat) (l rest : Bytes) (ic : Bool) (g : glyph)
    (hl : 10 ∉ l) :
    parseGlyphLoop tf (fuel + 1) (l ++ 10 :: rest) ic g =
      if !ic then
        if trimSpace tf l = contour0 then parseGlyphLoop tf fuel rest true (g ++ [[]])
        else parseGlyphLoop tf fuel rest false g
      else if trimSpace tf l = contour1 then parseGlyphLoop tf fuel rest false g
      else
        match g with
        | [] => .error .indexOutOfRange
        | c0 :: cs =>
          match parseInt (trimSpace tf l) xQuote, parseInt (trimSpace tf l) yQuote,
            parseInt (trimSpace tf l) onQuote with
          | some x, some y, some o =>
            match appendLast (c0 :: cs) { x := x, y := y, onCurve := o } with
            | none => .error .indexOutOfRange
            | some g1 => parseGlyphLoop tf fuel rest true g1
          | _, _, _ => .error .fatal := by
  have e1 : (l ++ 10 :: rest).take l.length = l := List.take_left' rfl
  have e2 : (l ++ 10 :: rest).drop (l.length + 1) = rest := by
    have : l ++ 10 :: rest = (l ++ [10]) ++ rest := by simp
    rw [this, List.drop_left' (by simp)]
  rw [parseGlyphLoop, indexByte_first l rest 10 hl]
  simp only [e1, e2]

theorem steps_of_line (tf : Bytes → Bytes) (l rest : Bytes) (ic ic1 : Bool) (g g1 : glyph)
    (h : ∀ fuel, parseGlyphLoop tf (fuel + 1) (l ++ 10 :: rest) ic g =
      parseGlyphLoop tf fuel rest ic1 g1) :
    Steps tf (l ++ 10 :: rest) ic g rest ic1 g1 := by
  intro fuel hf
  cases fuel with
  | zero => omega
  | succ f =>
    refine ⟨f, ?_, h f⟩
    simp only [List.length_append, List.length_cons] at hf
    omega

theorem steps_skip (tf : Bytes → Bytes) (l rest : Bytes) (g : glyph) (hl : 10 ∉ l)
    (h : trimSpace tf l ≠ contour0) : Steps tf (l ++ 10 :: rest) false g rest false g :=
  steps_of_line tf l rest false false g g (fun fuel => by
    rw [loop_line tf fuel l rest false g hl]
    simp [h])

theorem steps_open (tf : Bytes → Bytes) (l rest : Bytes) (g : glyph) (hl : 10 ∉ l)
    (h : trimSpace tf l = contour0) :
    Steps tf (l ++ 10 :: rest) false g rest true (g ++ [[]]) :=
  steps_of_line tf l rest false true g _ (fun fuel => by
    rw [loop_line tf fuel l rest false g hl]
    simp [h])

theorem steps_close (tf : Bytes → Bytes) (l rest : Bytes) (g : glyph) (hl : 10 ∉ l)
    (h : trimSpace tf l = contour1) : Steps tf (l ++ 10 :: rest) true g rest false g :=
  steps_of_line tf l rest true false g g (fun fuel => by
    rw [loop_line tf fuel l rest true g hl]
    simp [h])

theorem appendLast_snoc (cur : contour) (p : pt) : ∀ g0 : glyph,
    appendLast (g0 ++ [cur]) p = some (g0 ++ [cur ++ [p]])
  | [] => rfl
  | [c] => by simp [appendLast]
  | c :: d :: g0 => by
    have ih := appendLast_snoc cur p (d :: g0)
    simp only [List.cons_append] at ih ⊢
    simp [appendLast, ih]

theorem steps_pt (tf : Bytes → Bytes) (p : pt) (hp : inRange p) (rest : Bytes) (g0 : glyph)
    (cur : contour) :
    Steps tf (renderPt p ++ rest) true (g0 ++ [cur]) rest true (g0 ++ [cur ++ [p]]) := by
  have e : renderPt p ++ rest = (List.replicate 8 32 ++ ptCore p) ++ 10 :: rest := by
    rw [renderPt_eq]
    simp
  have hl : 10 ∉ List.replicate 8 32 ++ ptCore p := by
    simp only [List.mem_append, not_or]
    exact ⟨by decide, ptCore_no_newline p⟩
  have hne : ptCore p ≠ contour1 := by
    obtain ⟨mid, em⟩ := ptCore_shape p
    rw [em]
    have : contour1 = 60 :: 47 :: ascii "contour>" := by decide
    rw [this]
    simp
  rw [e]
  refine steps_of_line tf _ rest true true _ _ (fun fuel => ?_)
  rw [loop_line tf fuel _ rest true _ hl, trimSpace_pt, parseInt_x p hp.1, parseInt_y p hp.2.1,
    parseInt_on p hp.2.2]
  have hg : ∃ c0 cs, g0 ++ [cur] = c0 :: cs := by
    cases g0 with
    | nil => exact ⟨cur, [], rfl⟩
    | cons c g0 => exact ⟨c, g0 ++ [cur], rfl⟩
  obtain ⟨c0, cs, hcs⟩ := hg
  have ha := appendLast_snoc cur p g0
  rw [hcs] at ha ⊢
  simp [hne, ha]

theorem steps_pts (tf : Bytes → Bytes) (rest : Bytes) (g0 : glyph) : ∀ (c : contour)
    (cur : contour), (∀ p ∈ c, inRange p) →
      Steps tf ((c.map renderPt).flatten ++ rest) true (g0 ++ [cur]) rest true (g0 ++ [cur ++ c])
  | [], cur, _ => by
    simpa using steps_refl tf rest true (g0 ++ [cur])
  | p :: c, cur, h => by
    have h1 := steps_pt tf p (h p (List.mem_cons_self _ _)) ((c.map renderPt).flatten ++ rest)
      g0 cur
    have h2 := steps_pts tf rest g0 c (cur ++ [p]) (fun q hq => h q (List.mem_cons_of_mem _ hq))
    have := steps_trans tf _ _ _ _ _ _ _ _ _ h1 h2
    simpa [List.append_assoc] using this

theorem steps_contour (tf : Bytes → Bytes) (rest : Bytes) (g : glyph) (c : contour)
    (h : ∀ p ∈ c, inRange p) :
    Steps tf (renderContour c ++ rest) false g rest false (g ++ [c]) := by
  have e1 : ascii "      <contour>\n" = ascii "      <contour>" ++ [10] := by decide
  have e2 : ascii "      </contour>\n" = ascii "      </contour>" ++ [10] := by decide
  have e : renderContour c ++ rest = ascii "      <contour>" ++ 10 ::
      ((c.map renderPt).flatten ++ (ascii "      </contour>" ++ 10 :: rest)) := by
    unfold renderContour
    rw [e1, e2]
    simp [List.append_assoc]
  rw [e]
  have s1 := steps_open tf (ascii "      <contour>")
    ((c.map renderPt).flatten ++ (ascii "      </contour>" ++ 10 :: rest)) g (by decide)
    (by rfl)
  have s2 := steps_pts tf (ascii "      </contour>" ++ 10 :: rest) g c [] h
  have s3 := steps_close tf (ascii "      </contour>") rest (g ++ [c]) (by decide) (by rfl)
  rw [List.nil_append] at s2
  exact steps_trans tf _ _ _ _ _ _ _ _ _ (steps_trans tf _ _ _ _ _ _ _ _ _ s1 s2) s3

theorem steps_contours (tf : Bytes → Bytes) (rest : Bytes) : ∀ (cs : glyph) (g : glyph),
    (∀ c ∈ cs, ∀ p ∈ c, inRange p) →
      Steps tf ((cs.map renderContour).flatten ++ rest) false g rest false (g ++ cs)
  | [], g, _ => by
    simpa using steps_refl tf rest false g
  | c :: cs, g, h => by
    have h1 := steps_contour tf ((cs.map renderContour).flatten ++ rest) g c
      (h c (List.mem_cons_self _ _))
    have h2 := steps_contours tf rest cs (g ++ [c]) (fun d hd => h d (List.mem_cons_of_mem _ hd))
    have := steps_trans tf _ _ _ _ _ _ _ _ _ h1 h2
    simpa [List.append_assoc] using this

/-- The first line of a record and what follows it. -/
theorem render_shape (tf : Bytes → Bytes) (g : glyph) (name : Bytes) (hn : 10 ∉ name) :
    ∃ h : Bytes, 10 ∉ h ∧ trimSpace tf h ≠ contour0 ∧
      render g name = h ++ 10 :: ((g.map renderContour).flatten ++
        (ascii "      <instructions/>" ++ 10 :: (ascii "    </TTGlyph>" ++ 10 :: ([] ++ 10 :: [])))) := by
  have e1 : ascii "    <TTGlyph name=\"" = List.replicate 4 32 ++ 60 :: 84 :: ascii "TGlyph name=\"" := by
    decide
  have e2 : ascii "\">\n" = ascii "\"" ++ [62] ++ [10] := by decide
  have e3 : ascii "      <instructions/>\n    </TTGlyph>\n\n" =
      ascii "      <instructions/>" ++ 10 :: (ascii "    </TTGlyph>" ++ 10 :: ([] ++ 10 :: [])) := by
    decide
  have nn : ∀ n : Int, 10 ∉ sprintfInt n := fun n =>
    sprintfInt_not_mem n 10 (by decide) (Or.inl (by decide))
  refine ⟨List.replicate 4 32 ++ 60 :: (84 :: (ascii "TGlyph name=\"" ++ name ++
    ascii "\" xMin=\"" ++ sprintfInt (bounds g).xMin ++ ascii "\" yMin=\"" ++
    sprintfInt (bounds g).yMin ++ ascii "\" xMax=\"" ++ sprintfInt (bounds g).xMax ++
    ascii "\" yMax=\"" ++ sprintfInt (bounds g).yMax ++ ascii "\"") ++ [62]), ?_, ?_, ?_⟩
  · have app : ∀ a b : Bytes, 10 ∉ a → 10 ∉ b → 10 ∉ a ++ b :=
      fun a b ha hb hc => (List.mem_append.1 hc).elim ha hb
    have cns : ∀ (x : Nat) (a : Bytes), 10 ≠ x → 10 ∉ a → 10 ∉ x :: a :=
      fun x a hx ha hc => (List.mem_cons.1 hc).elim hx ha
    refine app _ _ (by decide) (cns _ _ (by decide) (app _ _ (cns _ _ (by decide) ?_) (by decide)))
    exact app _ _ (app _ _ (app _ _ (app _ _ (app _ _ (app _ _ (app _ _ (app _ _ (app _ _
      (app _ _ (by decide) hn) (by decide)) (nn _)) (by decide)) (nn _)) (by decide)) (nn _))
      (by decide)) (nn _)) (by decide)
  · rw [trimSpace_core tf 60 62 _ (by decide) (by decide) (by decide) (by decide) 4]
    have : contour0 = 60 :: 99 :: ascii "ontour>" := by decide
    rw [this]
    simp
  · unfold render
    rw [e1, e2, e3]
    simp only [List.append_assoc, List.cons_append, List.nil_append]

/-- A record written by `render` is read back by `parseGlyph`. -/
theorem parse_render (tf : Bytes → Bytes) (g : glyph) (name : Bytes) (hn : 10 ∉ name)
    (hg : ∀ c ∈ g, ∀ p ∈ c, inRange p) : parseGlyph tf (render g name) = .ok g := by
  obtain ⟨h, h1, h2, e⟩ := render_shape tf g name hn
  have s1 := steps_skip tf h ((g.map renderContour).flatten ++
    (ascii "      <instructions/>" ++ 10 :: (ascii "    </TTGlyph>" ++ 10 :: ([] ++ 10 :: []))))
    [] h1 h2
  have s2 := steps_contours tf
    (ascii "      <instructions/>" ++ 10 :: (ascii "    </TTGlyph>" ++ 10 :: ([] ++ 10 :: [])))
    g [] hg
  have t3 : trimSpace tf (ascii "      <instructions/>") = ascii "<instructions/>" := by rfl
  have t4 : trimSpace tf (ascii "    </TTGlyph>") = ascii "</TTGlyph>" := by rfl
  have t5 : trimSpace tf [] = [] := by rfl
  have s3 := steps_skip tf (ascii "      <instructions/>")
    (ascii "    </TTGlyph>" ++ 10 :: ([] ++ 10 :: [])) ([] ++ g) (by decide)
    (by rw [t3]; decide)
  have s4 := steps_skip tf (ascii "    </TTGlyph>") ([] ++ 10 :: []) ([] ++ g) (by decide)
    (by rw [t4]; decide)
  have s5 := steps_skip tf [] [] ([] ++ g) (by decide) (by rw [t5]; decide)
  have S := steps_trans tf _ _ _ _ _ _ _ _ _ (steps_trans tf _ _ _ _ _ _ _ _ _
    (steps_trans tf _ _ _ _ _ _ _ _ _ (steps_trans tf _ _ _ _ _ _ _ _ _ s1 s2) s3) s4) s5
  rw [← e] at S
  obtain ⟨f1, hf1, e1⟩ := S ((render g name).length + 1) (by omega)
  unfold parseGlyph
  rw [e1]
  cases f1 with
  | zero => simp at hf1
  | succ f => simp [parseGlyphLoop, indexByte]

/-! ## The numbers `parseGlyph` returns -/

theorem parseInt_range (l s : Bytes) (v : Int) (h : parseInt l s = some v) :
    -(2 ^ 63) ≤ v ∧ v < 2 ^ 63 := by
  unfold parseInt at h
  obtain ⟨t, _, rfl⟩ := Option.map_eq_some'.1 h
  exact atoi_range t

theorem appendLast_range (p : pt) (hp : inRange p) : ∀ (g g1 : glyph),
    appendLast g p = some g1 → (∀ c ∈ g, ∀ q ∈ c, inRange q) → ∀ c ∈ g1, ∀ q ∈ c, inRange q
  | [], _, h, _ => by cases h
  | [c0], g1, h, hg => by
    simp only [appendLast, Option.some.injEq] at h
    subst h
    intro c hc q hq
    simp only [List.mem_singleton] at hc
    subst hc
    rcases List.mem_append.1 hq with h1 | h1
    · exact hg c0 (List.mem_singleton_self _) q h1
    · simp only [List.mem_singleton] at h1
      exact h1 ▸ hp
  | c0 :: d :: cs, g1, h, hg => by
    simp only [appendLast] at h
    obtain ⟨g2, h2, rfl⟩ := Option.map_eq_some'.1 h
    have ih := appendLast_range p hp (d :: cs) g2 h2
      (fun c hc => hg c (List.mem_cons_of_mem _ hc))
    intro c hc
    rcases List.mem_cons.1 hc with rfl | hc
    · exact hg _ (List.mem_cons_self _ _)
    · exact ih c hc

theorem loop_inRange (tf : Bytes → Bytes) : ∀ (fuel : Nat) (b : Bytes) (ic : Bool)
    (g res : glyph), (∀ c ∈ g, ∀ q ∈ c, inRange q) → parseGlyphLoop tf fuel b ic g = .ok res →
      ∀ c ∈ res, ∀ q ∈ c, inRange q
  | 0, _, _, _, _, _, h => by simp [parseGlyphLoop] at h
  | fuel + 1, b, ic, g, res, hg, h => by
    have ih := loop_inRange tf fuel
    rw [parseGlyphLoop] at h
    split at h
    · simp only [Except.ok.injEq] at h
      exact h ▸ hg
    · dsimp only at h
      split_ifs at h
      · refine ih _ _ _ _ ?_ h
        intro c hc
        rcases List.mem_append.1 hc with h1 | h1
        · exact hg c h1
        · simp only [List.mem_singleton] at h1
          subst h1
          intro q hq
          cases hq
      · exact ih _ _ _ _ hg h
      · exact ih _ _ _ _ hg h
      · split at h
        · cases h
        · split at h
          · rename_i x y o hx hy ho
            split at h
            · cases h
            · rename_i g1 ha
              refine ih _ _ _ _ (appendLast_range _ ?_ _ _ ha hg) h
              exact ⟨parseInt_range _ _ _ hx, parseInt_range _ _ _ hy, parseInt_range _ _ _ ho⟩
          · cases h

theorem parse_inRange (tf : Bytes → Bytes) (b : Bytes) (g : glyph)
    (h : parseGlyph tf b = .ok g) : ∀ c ∈ g, ∀ q ∈ c, inRange q :=
  loop_inRange tf _ b false [] g (fun c hc => by cases hc) h

/-! ## The swap of `uacute` and `ucircumflex` -/

/-- C29: `swapUAcuteCircumflex` exchanges the outlines of the two glyphs.  For
every map `glyf` whose records for `uacute` and `ucircumflex` are read by
`parseGlyph` (as the contours `g0` and `g1`), the call returns; afterwards
`parseGlyph(glyf["uacute"])` is `g1`, `parseGlyph(glyf["ucircumflex"])` is
`g0`, and every other key has the value it had. -/
theorem swap_exchanges_outlines (tf : Bytes → Bytes) (glyf : Renames) (g0 g1 : glyph)
    (h0 : parseGlyph tf (glyfGet glyf (ascii "uacute")) = .ok g0)
    (h1 : parseGlyph tf (glyfGet glyf (ascii "ucircumflex")) = .ok g1) :
    ∃ glyf1, swapUAcuteCircumflex tf glyf = .ok glyf1 ∧
      parseGlyph tf (glyfGet glyf1 (ascii "uacute")) = .ok g1 ∧
      parseGlyph tf (glyfGet glyf1 (ascii "ucircumflex")) = .ok g0 ∧
      ∀ k : Bytes, k ≠ ascii "uacute" → k ≠ ascii "ucircumflex" →
        mapGet glyf1 k = mapGet glyf k := by
  have hne : ascii "uacute" ≠ ascii "ucircumflex" := by decide
  refine ⟨mapSet (mapSet glyf (ascii "uacute") (render g1 (ascii "uacute")))
    (ascii "ucircumflex") (render g0 (ascii "ucircumflex")), ?_, ?_, ?_, ?_⟩
  · unfold swapUAcuteCircumflex
    rw [h0, h1]
  · have e : glyfGet (mapSet (mapSet glyf (ascii "uacute") (render g1 (ascii "uacute")))
        (ascii "ucircumflex") (render g0 (ascii "ucircumflex"))) (ascii "uacute") =
        render g1 (ascii "uacute") := by
      simp [glyfGet, mapSet, mapGet, hne]
    rw [e]
    exact parse_render tf g1 _ (by decide) (parse_inRange tf _ g1 h1)
  · have e : glyfGet (mapSet (mapSet glyf (ascii "uacute") (render g1 (ascii "uacute")))
        (ascii "ucircumflex") (render g0 (ascii "ucircumflex"))) (ascii "ucircumflex") =
        render g0 (ascii "ucircumflex") := by
      simp [glyfGet, mapSet, mapGet]
    rw [e]
    exact parse_render tf g0 _ (by decide) (parse_inRange tf _ g0 h0)
  · intro k k1 k2
    simp [mapSet, mapGet, k1, k2]

theorem example_inRange (x y o : Int) (hx : -(2 ^ 63) ≤ x ∧ x < 2 ^ 63)
    (hy : -(2 ^ 63) ≤ y ∧ y < 2 ^ 63) (ho : -(2 ^ 63) ≤ o ∧ o < 2 ^ 63) :
    ∀ c ∈ [[({ x := x, y := y, onCurve := o } : pt)]], ∀ q ∈ c, inRange q := by
  intro c hc q hq
  simp only [List.mem_singleton] at hc
  subst hc
  simp only [List.mem_singleton] at hq
  subst hq
  exact ⟨hx, hy, ho⟩

/-- C29 on a map with two records of one point each. -/
theorem swap_exchanges_outlines_witness :
    ∃ glyf1, swapUAcuteCircumflex (fun s => s) exampleGlyf = .ok glyf1 ∧
      parseGlyph (fun s => s) (glyfGet glyf1 (ascii "uacute")) =
        .ok [[{ x := -3, y := 4, onCurve := 0 }]] ∧
      parseGlyph (fun s => s) (glyfGet glyf1 (ascii "ucircumflex")) =
        .ok [[{ x := 1, y := 2, onCurve := 1 }]] ∧
      ∀ k : Bytes, k ≠ ascii "uacute" → k ≠ ascii "ucircumflex" →
        mapGet glyf1 k = mapGet exampleGlyf k :=
  swap_exchanges_outlines (fun s => s) exampleGlyf [[{ x := 1, y := 2, onCurve := 1 }]]
    [[{ x := -3, y := 4, onCurve := 0 }]]
    (parse_render _ _ (ascii "uacute") (by decide)
      (example_inRange 1 2 1 (by norm_num) (by norm_num) (by norm_num)))
    (parse_render _ _ (ascii "ucircumflex") (by decide)
      (example_inRange (-3) 4 0 (by norm_num) (by norm_num) (by norm_num)))

/-! ## The round trip of a glyph record -/

/-- C34: the round trip of the text of a glyph.  For every glyph `g` whose
numbers are in the range of an `int` (as the numbers of every value of the
program are) and every name without a newline, `parseGlyph(g.render(name))`
returns `g`: the same contours, in each the same points with the same `x`, `y`
and `on`, in the same order; negative numbers and empty contours included. -/
theorem glyph_round_trip (tf : Bytes → Bytes) (g : glyph) (name : Bytes) (hn : 10 ∉ name)
    (hg : ∀ c ∈ g, ∀ p ∈ c, inRange p) :
    parseGlyph tf (render g name) = .ok g ∧
    ∀ g1, parseGlyph tf (render g name) = .ok g1 →
      g1.length = g.length ∧ ∀ i : Nat, g1[i]? = g[i]? := by
  have h := parse_render tf g name hn hg
  refine ⟨h, fun g1 h1 => ?_⟩
  rw [h] at h1
  cases h1
  exact ⟨rfl, fun _ => rfl⟩

theorem exampleGlyph_inRange : ∀ c ∈ exampleGlyph, ∀ p ∈ c, inRange p := by
  intro c hc p hp
  simp only [exampleGlyph, List.mem_cons, List.mem_singleton, List.not_mem_nil, or_false] at hc
  rcases hc with rfl | rfl | rfl
  · simp only [List.mem_cons, List.mem_singleton, List.not_mem_nil, or_false] at hp
    rcases hp with rfl | rfl <;> (unfold inRange; norm_num)
  · cases hp
  · simp only [List.mem_singleton] at hp
    subst hp
    unfold inRange
    norm_num

/-- C34 on a glyph with an empty contour and negative numbers. -/
theorem glyph_round_trip_witness :
    parseGlyph (fun s => s) (render exampleGlyph (ascii "uacute")) = .ok exampleGlyph :=
  (glyph_round_trip (fun s => s) exampleGlyph (ascii "uacute") (by decide)
    exampleGlyph_inRange).1

/-! ## The bounds of a glyph -/

theorem bounds_flatten : ∀ (g : glyph) (s : Bounds),
    g.foldl (fun s c => c.foldl boundsStep s) s = g.flatten.foldl boundsStep s
  | [], _ => rfl
  | c :: g, s => by
    simp only [List.foldl_cons, List.flatten_cons, List.foldl_append]
    exact bounds_flatten g _

theorem box_first (s : Bounds) (p : pt) (h : s.first = true) : IsBox (boundsStep s p) [p] := by
  unfold boundsStep
  rw [if_pos h]
  refine ⟨rfl, ?_, ⟨p, by simp, rfl⟩, ⟨p, by simp, rfl⟩, ⟨p, by simp, rfl⟩, ⟨p, by simp, rfl⟩⟩
  intro q hq
  simp only [List.mem_singleton] at hq
  subst hq
  simp

theorem box_step (b : Bounds) (pts : List pt) (q : pt) (h : IsBox b pts) :
    IsBox (boundsStep b q) (pts ++ [q]) := by
  obtain ⟨hf, hall, ⟨a1, m1, e1⟩, ⟨a2, m2, e2⟩, ⟨a3, m3, e3⟩, ⟨a4, m4, e4⟩⟩ := h
  have hq : q ∈ pts ++ [q] := by simp
  have hm : ∀ a, a ∈ pts → a ∈ pts ++ [q] := fun a ha => List.mem_append_left _ ha
  unfold boundsStep
  rw [if_neg (by simp [hf])]
  refine ⟨rfl, ?_, ?_, ?_, ?_, ?_⟩
  · intro p hp
    dsimp only
    rcases List.mem_append.1 hp with hp | hp
    · obtain ⟨h1, h2, h3, h4⟩ := hall p hp
      refine ⟨?_, ?_, ?_, ?_⟩ <;> split_ifs <;> omega
    · simp only [List.mem_singleton] at hp
      subst hp
      refine ⟨?_, ?_, ?_, ?_⟩ <;> split_ifs <;> omega
  · dsimp only
    split_ifs
    · exact ⟨q, hq, rfl⟩
    · exact ⟨a1, hm a1 m1, e1⟩
  · dsimp only
    split_ifs
    · exact ⟨q, hq, rfl⟩
    · exact ⟨a2, hm a2 m2, e2⟩
  · dsimp only
    split_ifs
    · exact ⟨q, hq, rfl⟩
    · exact ⟨a3, hm a3 m3, e3⟩
  · dsimp only
    split_ifs
    · exact ⟨q, hq, rfl⟩
    · exact ⟨a4, hm a4 m4, e4⟩

theorem box_fold : ∀ (pts : List pt) (b : Bounds) (done : List pt), IsBox b done →
    IsBox (pts.foldl boundsStep b) (done ++ pts)
  | [], b, done, h => by simpa using h
  | q :: pts, b, done, h => by
    have := box_fold pts (boundsStep b q) (done ++ [q]) (box_step b done q h)
    simpa [List.append_assoc] using this

theorem contourBounds_box (c : contour) (h : c ≠ []) : IsBox (contourBounds c) c := by
  cases c with
  | nil => exact absurd rfl h
  | cons p pts =>
    have := box_fold pts _ [p] (box_first
      { first := true, xMin := 0, yMin := 0, xMax := 0, yMax := 0 } p rfl)
    simpa [contourBounds] using this

/-- C35: the bounding box.  `glyph.bounds` is `contour.bounds` of the points
of all the contours in their order.  For a glyph with a point, each of the four
numbers returned is the coordinate of a point and no point is outside them:
they are the least and the greatest `x` and `y`.  For a glyph without points
both methods return 0, 0, 0, 0. -/
theorem bounding_box (g : glyph) :
    bounds g = contourBounds g.flatten ∧
    (g.flatten ≠ [] → IsBox (bounds g) g.flatten) ∧
    (g.flatten = [] →
      bounds g = { first := true, xMin := 0, yMin := 0, xMax := 0, yMax := 0 } ∧
      contourBounds g.flatten =
        { first := true, xMin := 0, yMin := 0, xMax := 0, yMax := 0 }) := by
  have e : bounds g = contourBounds g.flatten := bounds_flatten g _
  refine ⟨e, fun h => e ▸ contourBounds_box _ h, fun h => ?_⟩
  rw [e, h]
  exact ⟨rfl, rfl⟩

/-! ## The method `nudge` -/

theorem wrapInt_id (v : Int) (h0 : -2 ^ 63 ≤ v) (h1 : v < 2 ^ 63) : wrapInt v = v := by
  have p63 : (2 : Int) ^ 63 = 9223372036854775808 := by norm_num
  have p64 : (2 : Int) ^ 64 = 18446744073709551616 := by norm_num
  unfold wrapInt
  simp only [p63, p64] at h0 h1 ⊢
  omega

theorem boundsStep_shift (b : Bounds) (p : pt) (dx dy : Int) :
    boundsStep (shiftBounds b dx dy) { x := p.x + dx, y := p.y + dy, onCurve := p.onCurve } =
      shiftBounds (boundsStep b p) dx dy := by
  unfold boundsStep shiftBounds
  dsimp only
  by_cases hf : b.first = true
  · simp only [hf, if_true]
  · simp only [hf, if_false, Bool.false_eq_true]
    congr 1 <;> split_ifs <;> first | rfl | omega

theorem foldl_shift (dx dy : Int) : ∀ (pts : List pt) (b : Bounds),
    (pts.map (fun p => ({ x := p.x + dx, y := p.y + dy, onCurve := p.onCurve } : pt))).foldl
        boundsStep (shiftBounds b dx dy) =
      shiftBounds (pts.foldl boundsStep b) dx dy
  | [], _ => rfl
  | p :: pts, b => by
    simp only [List.map_cons, List.foldl_cons, boundsStep_shift]
    exact foldl_shift dx dy pts _

theorem contourBounds_shift (c : contour) (dx dy : Int) (h : c ≠ []) :
    contourBounds (c.map (fun p => ({ x := p.x + dx, y := p.y + dy, onCurve := p.onCurve } : pt)))
      = shiftBounds (contourBounds c) dx dy := by
  cases c with
  | nil => exact absurd rfl h
  | cons p pts =>
    have e : boundsStep { first := true, xMin := 0, yMin := 0, xMax := 0, yMax := 0 }
        { x := p.x + dx, y := p.y + dy, onCurve := p.onCurve } =
        shiftBounds (boundsStep { first := true, xMin := 0, yMin := 0, xMax := 0, yMax := 0 } p)
          dx dy := rfl
    simp only [contourBounds, List.map_cons, List.foldl_cons, e]
    exact foldl_shift dx dy pts _

/-- C36: `nudge` is a translation.  For a contour `c` with at least one point
whose numbers are in the range of an `int`, and `dx`, `dy` such that no sum
`x + dx`, `y + dy` leaves that range, after `c.nudge(dx, dy)` every point has
`x` increased by `dx` and `y` by `dy`, `on` unchanged; each of the four bounds
is the former one moved by `dx` or `dy`; and nudging by `-dx`, `-dy` afterwards
gives `c` back. -/
theorem nudge_translation (c : contour) (dx dy : Int) (hne : c ≠ [])
    (hr : ∀ p ∈ c, inRange p)
    (hov : ∀ p ∈ c, -2 ^ 63 ≤ p.x + dx ∧ p.x + dx < 2 ^ 63 ∧
      -2 ^ 63 ≤ p.y + dy ∧ p.y + dy < 2 ^ 63) :
    nudge c dx dy =
      c.map (fun p => ({ x := p.x + dx, y := p.y + dy, onCurve := p.onCurve } : pt)) ∧
    (nudge c dx dy).length = c.length ∧
    (contourBounds (nudge c dx dy)).xMin = (contourBounds c).xMin + dx ∧
    (contourBounds (nudge c dx dy)).yMin = (contourBounds c).yMin + dy ∧
    (contourBounds (nudge c dx dy)).xMax = (contourBounds c).xMax + dx ∧
    (contourBounds (nudge c dx dy)).yMax = (contourBounds c).yMax + dy ∧
    nudge (nudge c dx dy) (-dx) (-dy) = c := by
  have e : nudge c dx dy =
      c.map (fun p => ({ x := p.x + dx, y := p.y + dy, onCurve := p.onCurve } : pt)) := by
    unfold nudge
    refine List.map_congr_left (fun p hp => ?_)
    obtain ⟨h1, h2, h3, h4⟩ := hov p hp
    rw [wrapInt_id _ h1 h2, wrapInt_id _ h3 h4]
  have b := contourBounds_shift c dx dy hne
  refine ⟨e, by rw [e, List.length_map], ?_, ?_, ?_, ?_, ?_⟩
  · rw [e, b]; rfl
  · rw [e, b]; rfl
  · rw [e, b]; rfl
  · rw [e, b]; rfl
  · rw [e]
    unfold nudge
    rw [List.map_map]
    conv_rhs => rw [← List.map_id c]
    refine List.map_congr_left (fun p hp => ?_)
    have hp2 := hr p hp
    unfold inRange at hp2
    have ex : p.x + dx + -dx = p.x := by omega
    have ey : p.y + dy + -dy = p.y := by omega
    simp only [Function.comp, ex, ey, id]
    rw [wrapInt_id p.x (by omega) (by omega), wrapInt_id p.y (by omega) (by omega)]

/-- C36 on a contour of two points, moved by 10 and -3. -/
theorem nudge_translation_witness :
    nudge [{ x := 1, y := -2, onCurve := 1 }, { x := 30, y := 40, onCurve := 0 }] 10 (-3) =
      [{ x := 11, y := -5, onCurve := 1 }, { x := 40, y := 37, onCurve := 0 }] ∧
    (contourBounds (nudge [{ x := 1, y := -2, onCurve := 1 }, { x := 30, y := 40, onCurve := 0 }]
      10 (-3))).xMin = 11 ∧
    nudge (nudge [{ x := 1, y := -2, onCurve := 1 }, { x := 30, y := 40, onCurve := 0 }]
      10 (-3)) (-10) (- -3) =
      [{ x := 1, y := -2, onCurve := 1 }, { x := 30, y := 40, onCurve := 0 }] :=
  have h := nudge_translation
    [{ x := 1, y := -2, onCurve := 1 }, { x := 30, y := 40, onCurve := 0 }] 10 (-3)
    (by simp)
    (by
      intro p hp
      simp only [List.mem_cons, List.mem_singleton, List.not_mem_nil, or_false] at hp
      rcases hp with rfl | rfl <;> (unfold inRange; norm_num))
    (by
      intro p hp
      simp only [List.mem_cons, List.mem_singleton, List.not_mem_nil, or_false] at hp
      rcases hp with rfl | rfl <;> norm_num)
  ⟨h.1, h.2.2.1, h.2.2.2.2.2.2⟩

/-! ## The function `writeMap` -/

theorem mapKeys_nodup : ∀ m : Renames, (mapKeys m).Nodup
  | [] => List.nodup_nil
  | (k, v) :: m => by
    unfold mapKeys
    split_ifs with h
    · exact mapKeys_nodup m
    · exact List.nodup_cons.2 ⟨h, mapKeys_nodup m⟩

theorem mem_mapKeys : ∀ (m : Renames) (k : Bytes), k ∈ mapKeys m ↔ ∃ v, (k, v) ∈ m
  | [], k => by simp [mapKeys]
  | (a, w) :: m, k => by
    have ih := mem_mapKeys m
    unfold mapKeys
    split_ifs with h
    · rw [ih k]
      constructor
      · rintro ⟨v, hv⟩
        exact ⟨v, List.mem_cons_of_mem _ hv⟩
      · rintro ⟨v, hv⟩
        rcases List.mem_cons.1 hv with hv | hv
        · rw [(Prod.mk.inj hv).1]
          exact (ih a).1 h
        · exact ⟨v, hv⟩
    · rw [List.mem_cons, ih k]
      constructor
      · rintro (rfl | ⟨v, hv⟩)
        · exact ⟨w, List.mem_cons_self _ _⟩
        · exact ⟨v, List.mem_cons_of_mem _ hv⟩
      · rintro ⟨v, hv⟩
        rcases List.mem_cons.1 hv with hv | hv
        · cases hv
          exact Or.inl rfl
        · exact Or.inr ⟨v, hv⟩

theorem sortStrings_unique (a b : List Bytes) (hp : a.Perm b) (hd : b.Nodup) :
    Ttfreindex.sortStrings a = Ttfreindex.sortStrings b := by
  haveI : IsAntisymm Bytes (fun x y => Ttfreindex.bytesLess x y = true) :=
    ⟨fun x y h1 h2 => by rw [Ttfreindex.bytesLess_asymm x y h1] at h2; cases h2⟩
  have strict : ∀ l : List Bytes, l.Perm b →
      (Ttfreindex.sortStrings l).Pairwise (fun x y => Ttfreindex.bytesLess x y = true) := by
    intro l hl
    have hn : (Ttfreindex.sortStrings l).Nodup :=
      ((Ttfreindex.sortStrings_perm l).trans hl).nodup_iff.2 hd
    refine ((Ttfreindex.sortStrings_sorted l).and hn).imp ?_
    rintro x y ⟨h1, h2⟩
    by_contra h3
    exact h2 (Ttfreindex.bytesLess_total x y (by simpa using h3) h1)
  exact List.eq_of_perm_of_sorted
    (((Ttfreindex.sortStrings_perm a).trans hp).trans (Ttfreindex.sortStrings_perm b).symm)
    (strict a hp) (strict b (List.Perm.refl _))

theorem mapGet_ne_none : ∀ (m : Renames) (k : Bytes), mapGet m k ≠ none ↔ ∃ v, (k, v) ∈ m
  | [], k => by simp [mapGet]
  | (a, w) :: m, k => by
    have ih := mapGet_ne_none m k
    unfold mapGet
    split_ifs with h
    · subst h
      simp
    · rw [ih]
      constructor
      · rintro ⟨v, hv⟩
        exact ⟨v, List.mem_cons_of_mem _ hv⟩
      · rintro ⟨v, hv⟩
        rcases List.mem_cons.1 hv with hv | hv
        · cases hv
          exact absurd rfl h
        · exact ⟨v, hv⟩

/-- C37: the output of `writeMap` is ordered and complete.  Whatever the order
in which the iteration over the map `m` gives its keys (the slice `keys` holds
each key of `m` once), `writeMap` appends to the buffer the values `m[k]` for
the keys `k` of `m` in ascending order of the bytes of the keys, one value for
each key of `m`: the list of keys used is strictly ascending, has no
repetition and holds exactly the keys of `m`; so two orders of iteration give
the same buffer. -/
theorem write_map_ordered (keys : List Bytes) (w : Bytes) (m : Renames)
    (hk : keys.Perm (mapKeys m)) :
    writeMap keys w m =
      w ++ ((Ttfreindex.sortStrings (mapKeys m)).map (fun k => glyfGet m k)).flatten ∧
    (Ttfreindex.sortStrings (mapKeys m)).Pairwise
      (fun a b => Ttfreindex.bytesLess a b = true) ∧
    (Ttfreindex.sortStrings (mapKeys m)).Nodup ∧
    (∀ k, k ∈ Ttfreindex.sortStrings (mapKeys m) ↔ mapGet m k ≠ none) ∧
    (∀ keys2 : List Bytes, keys2.Perm (mapKeys m) → writeMap keys2 w m = writeMap keys w m) := by
  have hd := mapKeys_nodup m
  have hn : (Ttfreindex.sortStrings (mapKeys m)).Nodup :=
    (Ttfreindex.sortStrings_perm (mapKeys m)).nodup_iff.2 hd
  have e : ∀ ks : List Bytes, ks.Perm (mapKeys m) → writeMap ks w m =
      w ++ ((Ttfreindex.sortStrings (mapKeys m)).map (fun k => glyfGet m k)).flatten := by
    intro ks hks
    unfold writeMap
    rw [sortStrings_unique ks (mapKeys m) hks hd]
  refine ⟨e keys hk, ?_, hn, ?_, fun keys2 h2 => (e keys2 h2).trans (e keys hk).symm⟩
  · refine ((Ttfreindex.sortStrings_sorted (mapKeys m)).and hn).imp ?_
    rintro x y ⟨h1, h2⟩
    by_contra h3
    exact h2 (Ttfreindex.bytesLess_total x y (by simpa using h3) h1)
  · intro k
    rw [(Ttfreindex.sortStrings_perm (mapKeys m)).mem_iff, mem_mapKeys, mapGet_ne_none]

theorem exampleGlyf_keys : mapKeys exampleGlyf = [ascii "uacute", ascii "ucircumflex"] := by
  decide

/-- C37 on a map of two keys, met by the iteration in descending order. -/
theorem write_map_ordered_witness :
    writeMap [ascii "ucircumflex", ascii "uacute"] [] exampleGlyf =
      [] ++ ((Ttfreindex.sortStrings (mapKeys exampleGlyf)).map
        (fun k => glyfGet exampleGlyf k)).flatten ∧
    Ttfreindex.sortStrings (mapKeys exampleGlyf) = [ascii "uacute", ascii "ucircumflex"] :=
  ⟨(write_map_ordered [ascii "ucircumflex", ascii "uacute"] [] exampleGlyf
    (by rw [exampleGlyf_keys]; exact List.Perm.swap _ _ _)).1, by decide⟩

end UpgradeGoFonts

namespace Wgl4SideBySide

/-! ## The rows of the side-by-side images -/

theorem rowsFrom_spec (lo hi : Int) : ∀ (cs : List Int) (y : Int),
    (rowsFrom lo hi cs y).map Prod.fst = cs.filter (fun c => decide (lo ≤ c ∧ c < hi)) ∧
    (rowsFrom lo hi cs y).map Prod.snd =
      (List.range (rowsFrom lo hi cs y).length).map
        (fun i : Nat => y + largeHeight * Int.ofNat i)
  | [], _ => ⟨rfl, rfl⟩
  | c :: cs, y => by
    unfold rowsFrom
    split_ifs with h
    · have ih := rowsFrom_spec lo hi cs y
      refine ⟨?_, ih.2⟩
      rw [ih.1, List.filter_cons_of_neg]
      simp only [decide_eq_true_eq]
      omega
    · have ih := rowsFrom_spec lo hi cs (y + largeHeight)
      refine ⟨?_, ?_⟩
      · rw [List.map_cons, ih.1, List.filter_cons_of_pos]
        simp only [decide_eq_true_eq]
        omega
      · rw [List.map_cons, ih.2, List.length_cons, List.range_succ_eq_map, List.map_cons,
          List.map_map]
        refine congrArg₂ List.cons ?_ (List.map_congr_left (fun i _ => ?_))
        · simp
        · simp only [Function.comp, Int.ofNat_eq_coe, Nat.succ_eq_add_one, Nat.cast_add,
            Nat.cast_one]
          ring

set_option maxRecDepth 100000 in
theorem rows_counts : mainCalls.map (fun r => (rows r.1 r.2).length) =
    [94, 94, 135, 81, 98, 73, 78] := by
  decide

set_option maxRecDepth 100000 in
theorem repertoire_once :
    ∀ c ∈ repertoire, (mainCalls.filter (fun r => decide (r.1 ≤ c ∧ c < r.2))).length = 1 := by
  decide

theorem mainCalls_eq : mainCalls = [(0, 0x80), (0x80, 0x100), (0x100, 0x200), (0x200, 0x400),
    (0x400, 0x1000), (0x1000, 0x2500), (0x2500, 0xFFFF)] := by
  decide

theorem rows_length (r : Int × Int) (h : r ∈ mainCalls) : (rows r.1 r.2).length ≤ 135 := by
  have hm : (rows r.1 r.2).length ∈ mainCalls.map (fun r => (rows r.1 r.2).length) :=
    List.mem_map_of_mem (fun r => (rows r.1 r.2).length) h
  rw [rows_counts] at hm
  simp only [List.mem_cons, List.mem_singleton, List.not_mem_nil, or_false] at hm
  omega

/-- C38: the rows of the side-by-side images fit the canvas.  The calls of `do`
made by `main` are those of the seven consecutive ranges from `prevCut` to
`cut` given by the cuts 0x80, 0x100, 0x200, 0x400, 0x1000, 0x2500, 0xFFFF,
starting from 0.  In each call the rows drawn are those of the code points of
`repertoire` in the range, in order; there are at most 144 of them; the `y` of
the row of number `i` (from 1) is 64 times `i`, so every `y` is at most `yMax`,
9216.  And every code point of `repertoire` lies in exactly one range. -/
theorem rows_fit_canvas :
    mainCalls = [(0, 0x80), (0x80, 0x100), (0x100, 0x200), (0x200, 0x400), (0x400, 0x1000),
      (0x1000, 0x2500), (0x2500, 0xFFFF)] ∧
    (∀ r ∈ mainCalls,
      (rows r.1 r.2).map Prod.fst = repertoire.filter (fun c => decide (r.1 ≤ c ∧ c < r.2)) ∧
      (rows r.1 r.2).length ≤ 144 ∧
      (rows r.1 r.2).map Prod.snd =
        (List.range (rows r.1 r.2).length).map (fun i : Nat => 64 * (Int.ofNat i + 1)) ∧
      ∀ row ∈ rows r.1 r.2, row.2 ≤ yMax) ∧
    (∀ c ∈ repertoire,
      (mainCalls.filter (fun r => decide (r.1 ≤ c ∧ c < r.2))).length = 1) := by
  refine ⟨mainCalls_eq, fun r hr => ?_, repertoire_once⟩
  have hl := rows_length r hr
  have hs := rowsFrom_spec r.1 r.2 repertoire 64
  have e : (rows r.1 r.2).map Prod.snd =
      (List.range (rows r.1 r.2).length).map (fun i : Nat => 64 * (Int.ofNat i + 1)) := by
    unfold rows
    rw [hs.2]
    refine List.map_congr_left (fun i _ => ?_)
    simp only [largeHeight]
    ring
  refine ⟨hs.1, by omega, e, fun row hrow => ?_⟩
  have hm : row.2 ∈ (rows r.1 r.2).map Prod.snd := List.mem_map_of_mem Prod.snd hrow
  rw [e] at hm
  obtain ⟨i, hi, hi2⟩ := List.mem_map.1 hm
  have hlt : i < (rows r.1 r.2).length := List.mem_range.1 hi
  rw [← hi2]
  simp only [yMax, Int.ofNat_eq_coe]
  omega

end Wgl4SideBySide
